import Mathlib

/-!
# Tippecanoe: external radix sort and drop-threshold stamping

A shallow embedding of the sorting core of `main.cpp` (`indexcmp`, `insert`,
`merge`, `run_sort`, `calc_feature_minzoom`, `prep_drop_states`, `radix1`,
`radix`), of `init_cpus`, `checkdisk`, the split points of `do_read_parallel`,
and of the merge of the lanes, the choice of the base zoom and the fix-up pass
of `read_input`, and theorems about them.

Conventions of the embedding.

* `unsigned long long`, `long long` and `int` values that the code keeps
  non-negative are `Nat`; `*availfiles`, which the code both decrements and
  increments, is `Int`.  A 64-bit wrap is written `% 2 ^ 64` where the code can
  overflow (the left shift of the radix bucket).
* `double` values (`gamma`, `seq`, `interval`, `gap`, `scale`, `droprate`) are
  exact rationals, and `exp (log droprate * k)` is `droprate ^ k`; the constant
  `.9` is `9 / 10`, and `(int) (log (n) / log (2))` is the exact integer
  logarithm.
* A file is the list of what was written to it: a geometry file is a list of
  `char` values, an index file a list of `Index` records.  A byte offset `off`
  into an index file designates record `off / bytes`, where `bytes` is
  `sizeof (struct index)`.
* Declarations that `main.cpp` only uses (`struct index` of `main.hpp`,
  `decode` of `projection.cpp`, the `VT_*` constants, the option tables, the
  C library `qsort`, the page size, `CPUS`) are fields of `Env`.
-/

namespace Tippecanoe

/-! ## Data model -/

/-- The fields of `struct index` that `main.cpp` reads and writes: the geometry
range `[start, end)`, the Morton key `ix`, the lane `segment`, the geometry
type `t` and the input sequence number `seq`. -/
structure Index where
  start : Nat
  end_ : Nat
  ix : Nat
  segment : Nat
  t : Nat
  seq : Nat
deriving DecidableEq, Repr, Inhabited

/-- The record `struct drop_state` (lines 201-210). -/
structure drop_state where
  gap : ℚ
  previndex : Nat
  interval : ℚ
  scale : ℚ
  seq : ℚ
  included : Int
  x : Nat
  y : Nat
deriving DecidableEq, Inhabited

/-- What `main.cpp` takes from its surroundings: the globals `CPUS` and
`additional[A_LINE_DROP]`, `additional[A_POLYGON_DROP]`,
`additional[A_PREFER_RADIX_SORT]`, the constants
`VT_POINT`, `VT_LINE`, `VT_POLYGON`, `sizeof (struct index)`, the page size
reported by `sysconf`, the Morton decoder `decode` and the C library `qsort`
instantiated with `indexcmp`. -/
structure Env where
  CPUS : Nat
  page : Nat
  bytes : Nat
  line_drop : Bool
  polygon_drop : Bool
  prefer_radix_sort : Bool
  VT_POINT : Nat
  VT_LINE : Nat
  VT_POLYGON : Nat
  decode : Nat → Nat × Nat
  qsort : List Index → List Index

/-! ## `indexcmp` (lines 166-183) -/

/-- The comparator `indexcmp`: by `ix`, then by `seq`. -/
def indexcmp (i1 i2 : Index) : Int :=
  if i1.ix < i2.ix then -1
  else if i1.ix > i2.ix then 1
  else if i1.seq < i2.seq then -1
  else if i1.seq > i2.seq then 1
  else 0

/-! ## `calc_feature_minzoom` (lines 212-256) and `prep_drop_states` (lines 867-884) -/

/-- The condition of line 217-219 without the test on `gamma`: the feature is
a point, or a line with line dropping on, or a polygon with polygon dropping
on. -/
def droppable (env : Env) (ix : Index) : Bool :=
  ix.t == env.VT_POINT ||
    (env.line_drop && ix.t == env.VT_LINE) ||
    (env.polygon_drop && ix.t == env.VT_POLYGON)

/-- The tile coordinate of lines 226-230: `0` at zoom `0`, otherwise
`v >> (32 - i)`.  (For `i > 32` the C shift count is negative; the embedding
then shifts by `0`.) -/
def tile_coord (v i : Nat) : Nat :=
  if i = 0 then 0 else v >>> (32 - i)

/-- The body of the first loop of `calc_feature_minzoom` at zoom `i` (lines
225-240) applied to the entry `d = ds[i]`. -/
def count_entry (xx yy i : Nat) (d : drop_state) : drop_state :=
  let xxx := tile_coord xx i
  let yyy := tile_coord yy i
  let d1 : drop_state :=
    if d.x ≠ xxx ∨ d.y ≠ yyy then { d with seq := 0, gap := 0, previndex := 0 } else d
  let d2 : drop_state := { d1 with x := xxx, y := yyy }
  { d2 with seq := d2.seq + 1 }

/-- The first loop of `calc_feature_minzoom` (lines 220-241), run for
`i = n, n - 1, ..., 0`. -/
def count_loop (xx yy : Nat) : Nat → (Nat → drop_state) → (Nat → drop_state)
  | 0, ds => Function.update ds 0 (count_entry xx yy 0 (ds 0))
  | i + 1, ds =>
      count_loop xx yy i (Function.update ds (i + 1) (count_entry xx yy (i + 1) (ds (i + 1))))

/-- The then-branch of the second loop (lines 244-245) applied to `ds[i]`. -/
def include_entry (d : drop_state) : drop_state :=
  { d with seq := d.seq - d.interval, included := d.included + 1 }

/-- The second loop of `calc_feature_minzoom` (lines 242-250), run for
`i = n, n - 1, ..., 0` with the `break` at the first zoom whose `seq` is not
`>= 0`; returns `feature_minzoom` and the drop states. -/
def drop_loop : Nat → (Nat → drop_state) → Int × (Nat → drop_state)
  | 0, ds =>
      if (ds 0).seq ≥ 0 then (0, Function.update ds 0 (include_entry (ds 0)))
      else (1, ds)
  | i + 1, ds =>
      if (ds (i + 1)).seq ≥ 0 then
        drop_loop i (Function.update ds (i + 1) (include_entry (ds (i + 1))))
      else (((i + 1 : Nat) : Int) + 1, ds)

/-- The function `calc_feature_minzoom`: the returned `feature_minzoom` and
the drop states it leaves. -/
def calc_feature_minzoom (env : Env) (ix : Index) (ds : Nat → drop_state)
    (maxzoom : Nat) (gamma : ℚ) : Int × (Nat → drop_state) :=
  let xy := env.decode ix.ix
  if gamma ≥ 0 ∧ droppable env ix = true then
    drop_loop maxzoom (count_loop xy.1 xy.2 maxzoom ds)
  else (0, ds)

/-- The shift count `64 - 2 * (i + 8)` of line 878. -/
def scale_shift (i : Nat) : Int := 64 - 2 * ((i : Int) + 8)

/-- The entry that `prep_drop_states` stores at zoom `i` (lines 870-882);
`interval` is `droprate ^ (basezoom - i)` below `basezoom` and `0` from
`basezoom` on. -/
def prep_entry (basezoom : Int) (droprate : ℚ) (i : Nat) : drop_state :=
  { gap := 0
    previndex := 0
    interval := if (i : Int) < basezoom then droprate ^ (basezoom - (i : Int)).toNat else 0
    scale := (2 : ℚ) ^ (scale_shift i).toNat
    seq := 0
    included := 0
    x := 0
    y := 0 }

/-- The loop of `prep_drop_states` (lines 869-883): `n` more iterations
starting at zoom `i`. -/
def prep_loop (basezoom : Int) (droprate : ℚ) : Nat → Nat → (Nat → drop_state) → (Nat → drop_state)
  | 0, _, ds => ds
  | n + 1, i, ds =>
      prep_loop basezoom droprate n (i + 1) (Function.update ds i (prep_entry basezoom droprate i))

/-- The function `prep_drop_states`: the loop runs for `i = 0, ..., maxzoom`. -/
def prep_drop_states (ds : Nat → drop_state) (maxzoom : Nat) (basezoom : Int)
    (droprate : ℚ) : Nat → drop_state :=
  prep_loop basezoom droprate (maxzoom + 1) 0 ds

/-! ## Files, the sort state and the output step -/

/-- A geometry file with the index file that refers to it: the two descriptors
of a reader lane (`geomfds_in[i]`, `indexfds_in[i]`) or of a partition. -/
structure FilePair where
  geom : List Int
  index : List Index

/-- What `radix1` updates through its pointer arguments: `*availfiles`, the
contents of `geomfile` and `indexfile`, `*geompos_out` and the drop states
`ds`.  (The progress counters only drive the progress display and are left
out.) -/
structure SortState where
  availfiles : Int
  geomfile : List Int
  indexfile : List Index
  geompos_out : Nat
  ds : Nat → drop_state

/-- The ways the embedded `radix1` and `radix` can fail to return: an operation
the C standard leaves undefined (the logarithm of a non-positive `splits`, a
shift by 64 bits), the recursion budget of the embedding, and the
`Internal error: miscounted available file descriptors` exit of `radix`. -/
inductive Failure where
  | undefined_behaviour
  | out_of_fuel
  | miscounted
deriving DecidableEq, Repr

/-- Modelled from the spec: `fwrite_check` of `serial.cpp`, which is not among
the sources; the items are appended to the file (the files are append-only
streams). -/
def fwrite_check {α : Type} (out : List α) (items : List α) : List α :=
  out ++ items

/-- Modelled from the spec: `serialize_byte` of `serial.cpp`, which is not among
the sources; the one byte `n` is appended to the file and the position
`*fpos` advances by one (the last byte of a blob holds `feature_minzoom`). -/
def serialize_byte (out : List Int) (n : Int) (fpos : Nat) : List Int × Nat :=
  (fwrite_check out [n], fpos + 1)

/-- The bytes `geom_map[ix.start .. ix.end)` that `fwrite_check` copies. -/
def blob (geom_map : List Int) (ix : Index) : List Int :=
  (geom_map.drop ix.start).take (ix.end_ - ix.start)

/-- The output step shared by `merge` (lines 268-284) and the stream-through
branch of `radix1` (lines 809-826): copy the blob, advance `*geompos`, compute
`feature_minzoom`, write it with `serialize_byte`, and write the index record
with `start` and `end` rewritten. -/
def emit (env : Env) (geom_map : List Int) (maxzoom : Nat) (gamma : ℚ) (ix : Index)
    (st : SortState) : SortState :=
  let pos := st.geompos_out
  let geomfile1 := fwrite_check st.geomfile (blob geom_map ix)
  let geompos1 := st.geompos_out + (ix.end_ - ix.start)
  let r := calc_feature_minzoom env ix st.ds maxzoom gamma
  let written := serialize_byte geomfile1 r.1 geompos1
  { st with
    geomfile := written.1
    geompos_out := written.2
    ds := r.2
    indexfile := fwrite_check st.indexfile [{ ix with start := pos, end_ := written.2 }] }

/-! ## `insert` and `merge` (lines 185-199, 258-295) -/

/-- The record `struct mergelist` without its `next` pointer: the linked list
is the order of a `List mergelist`. -/
structure mergelist where
  start : Nat
  end_ : Nat
deriving DecidableEq, Repr, Inhabited

/-- The record `*((struct index *) (map + off))`. -/
def record_at (env : Env) (map : List Index) (off : Nat) : Index :=
  map.getD (off / env.bytes) default

/-- The function `insert`: `m` goes before the first element of the list whose
first record is not smaller than the first record of `m`. -/
def insert (env : Env) (map : List Index) (m : mergelist) : List mergelist → List mergelist
  | [] => [m]
  | h :: rest =>
      if indexcmp (record_at env map m.start) (record_at env map h.start) > 0 then
        h :: insert env map m rest
      else m :: h :: rest

/-- The `while (head != NULL)` loop of `merge` (lines 267-294), at most `fuel`
iterations. -/
def merge_loop (env : Env) (map : List Index) (geom_map : List Int) (maxzoom : Nat) (gamma : ℚ) :
    Nat → List mergelist → SortState → SortState
  | 0, _, st => st
  | _ + 1, [], st => st
  | fuel + 1, h :: rest, st =>
      let ix := record_at env map h.start
      let st1 := emit env geom_map maxzoom gamma ix st
      let m : mergelist := { h with start := h.start + env.bytes }
      let head := if m.start < m.end_ then insert env map m rest else rest
      merge_loop env map geom_map maxzoom gamma fuel head st1

/-- The first loop of `merge` (lines 261-265): the non-empty entries of
`merges[0 .. nmerges)` inserted one after the other. -/
def merge_heads (env : Env) (merges : Nat → mergelist) (nmerges : Nat) (map : List Index) :
    List mergelist :=
  (List.range nmerges).foldl
    (fun head i =>
      if (merges i).start < (merges i).end_ then insert env map (merges i) head else head) []

/-- The function `merge`.  Every iteration of its loop removes at least one
byte from the ranges on the list, so the sum of their lengths bounds the
number of iterations. -/
def merge (env : Env) (merges : Nat → mergelist) (nmerges : Nat) (map : List Index)
    (geom_map : List Int) (maxzoom : Nat) (gamma : ℚ) (st : SortState) : SortState :=
  let head := merge_heads env merges nmerges map
  merge_loop env map geom_map maxzoom gamma ((head.map (fun m => m.end_ - m.start)).sum) head st

/-! ## `run_sort` (lines 297-355) -/

/-- The fields of `struct sort_arg` that `run_sort` reads (`merges` and
`indexfd` are the state it works on). -/
structure sort_arg where
  task : Nat
  cpus : Nat
  indexpos : Nat
  unit : Nat
  bytes : Nat

/-- Lines 327-351 of `run_sort`: `qsort` on the `(end - start) / bytes` records
that start at byte `start`, copied back over the same range of the index
file. -/
def sort_segment (env : Env) (a : sort_arg) (start end_ : Nat) (file : List Index) : List Index :=
  let first := start / a.bytes
  let count := (end_ - start) / a.bytes
  file.take first ++ env.qsort ((file.drop first).take count) ++ file.drop (first + count)

/-- The `for` loop of `run_sort` from `start` on, at most `fuel` iterations,
acting on `merges` and the index file. -/
def run_sort_loop (env : Env) (a : sort_arg) :
    Nat → Nat → (Nat → mergelist) × List Index → (Nat → mergelist) × List Index
  | 0, _, s => s
  | fuel + 1, start, s =>
      if start < a.indexpos then
        let end_ := if start + a.unit > a.indexpos then a.indexpos else start + a.unit
        run_sort_loop env a fuel (start + a.unit * a.cpus)
          (Function.update s.1 (start / a.unit) { start := start, end_ := end_ },
            sort_segment env a start end_ s.2)
      else s

/-- The function `run_sort`; `start` grows in every iteration and stays below
`indexpos`, so `indexpos` iterations are enough. -/
def run_sort (env : Env) (a : sort_arg) (s : (Nat → mergelist) × List Index) :
    (Nat → mergelist) × List Index :=
  run_sort_loop env a a.indexpos (a.task * a.unit) s

/-! ## `radix1` (lines 561-865) and `radix` (lines 886-961) -/

/-- The integer part of the base-2 logarithm, by `fuel` halvings. -/
def log2_floor : Nat → Nat → Nat
  | 0, _ => 0
  | fuel + 1, n => if n < 2 then 0 else log2_floor fuel (n / 2) + 1

/-- The value `(int) (log (splits) / log (2))` of line 563, taken as the exact
integer logarithm. -/
def splitbits_of (splits : Nat) : Nat := log2_floor splits splits

/-- One of the temporary files of `radix1`: the contents written through
`geomfiles[i]` and `indexfiles[i]`, and `sub_geompos[i]`. -/
structure Partition where
  geom : List Int
  index : List Index
  sub_geompos : Nat

/-- The bucket of line 639, `(ix.ix << prefix) >> (64 - splitbits)`, for the key
`ix.ix`, the left shift wrapping at 64 bits. -/
def bucket (pfx splitbits : Nat) (key : Nat) : Nat :=
  ((key <<< pfx) % 2 ^ 64) >>> (64 - splitbits)

/-- Lines 638-655: one record of an input copied to its partition. -/
def split_record (pfx splitbits : Nat) (geommap : List Int) (parts : Nat → Partition)
    (ix : Index) : Nat → Partition :=
  let which := bucket pfx splitbits ix.ix
  let pos := (parts which).sub_geompos
  let sub := (parts which).sub_geompos + (ix.end_ - ix.start)
  Function.update parts which
    { geom := fwrite_check (parts which).geom (blob geommap ix)
      index := fwrite_check (parts which).index [{ ix with start := pos, end_ := sub }]
      sub_geompos := sub }

/-- Lines 609-680 without the descriptor count: every record of every input,
in order, copied to its partition. -/
def split_inputs (pfx splitbits : Nat) (inputs : List FilePair) (parts : Nat → Partition) :
    Nat → Partition :=
  inputs.foldl (fun ps f => f.index.foldl (split_record pfx splitbits f.geom) ps) parts

/-- The sort unit of lines 716-724 for an index file of `indexpos` bytes. -/
def sort_unit (env : Env) (indexpos : Nat) : Nat :=
  let max_unit := 2 * 1024 * 1024 * 1024
  let unit := ((indexpos / env.CPUS + env.bytes - 1) / env.bytes) * env.bytes
  let unit := if unit > max_unit then max_unit else unit
  let unit := ((unit + env.page - 1) / env.page) * env.page
  if unit < env.page then env.page else unit

/-- The in-memory branch (lines 710-790): the `CPUS` sort tasks, run one after
the other in task order, then `merge`. -/
def sort_in_memory (env : Env) (p : Partition) (maxzoom : Nat) (gamma : ℚ) (st : SortState) :
    SortState :=
  let indexpos := env.bytes * p.index.length
  let unit := sort_unit env indexpos
  let nmerges := (indexpos + unit - 1) / unit
  let sorted := (List.range env.CPUS).foldl
    (fun s a =>
      run_sort env { task := a, cpus := env.CPUS, indexpos := indexpos, unit := unit,
                     bytes := env.bytes } s)
    ((fun _ => { start := 0, end_ := 0 }), p.index)
  merge env sorted.1 nmerges sorted.2 p.geom maxzoom gamma st

/-- The stream-through branch (lines 792-838): the records of the partition
written out in file order. -/
def stream_through (env : Env) (p : Partition) (maxzoom : Nat) (gamma : ℚ) (st : SortState) :
    SortState :=
  p.index.foldl (fun s ix => emit env p.geom maxzoom gamma ix s) st

/-- The function `radix1`.  `fuel` bounds the depth of the recursion.  The
arguments `tmpdir`, `basezoom` and `droprate` do not influence the result
and are left out.  The descriptor count before the partition loop is the
entry value less `4` for each partition created (line 603), plus `2` for each
input closed (line 679), plus `2` for each partition `fclose`d (line 692); each
partition then gives `2` back when it is closed (line 862), unless a
recursive call has consumed it as its input. -/
def radix1 (env : Env) (maxzoom : Nat) (gamma : ℚ) (mem : Nat) :
    Nat → List FilePair → Nat → Nat → SortState → Except Failure SortState
  | 0, _, _, _, _ => .error .out_of_fuel
  | fuel + 1, inputs, pfx, splits0, st =>
      if splits0 = 0 then .error .undefined_behaviour
      else
        let splitbits := splitbits_of splits0
        let splits : Nat := 2 ^ splitbits
        if splitbits = 0 ∧ inputs.any (fun f => !f.index.isEmpty) = true then
          .error .undefined_behaviour
        else
          let parts := split_inputs pfx splitbits inputs
            (fun _ => { geom := [], index := [], sub_geompos := 0 })
          let st1 : SortState :=
            { st with availfiles :=
                st.availfiles - 4 * (splits : Int) + 2 * (inputs.length : Int) + 2 * (splits : Int) }
          (List.range splits).foldlM
            (fun (s : SortState) (i : Nat) =>
              let p := parts i
              let indexst := env.bytes * p.index.length
              let geomst := p.geom.length
              if indexst > 0 then
                if indexst + geomst < mem then
                  .ok { sort_in_memory env p maxzoom gamma s with availfiles := s.availfiles + 2 }
                else if indexst = env.bytes ∨ pfx + splitbits ≥ 64 then
                  .ok { stream_through env p maxzoom gamma s with availfiles := s.availfiles + 2 }
                else
                  radix1 env maxzoom gamma mem fuel [{ geom := p.geom, index := p.index }]
                    (pfx + splitbits) (s.availfiles / 4).toNat s
              else .ok { s with availfiles := s.availfiles + 2 })
            st1

/-- The test of line 957, `availfiles - 2 * nreaders != availfiles_before`. -/
def miscounted (availfiles : Int) (nreaders : Nat) (availfiles_before : Int) : Bool :=
  availfiles - 2 * (nreaders : Int) != availfiles_before

/-- The function `radix`: `phys_mem` is the physical memory that `sysconf`
reports, `ds0` the uninitialised array that `prep_drop_states` fills, and
`geomfile`, `indexfile`, `geompos` the output files and position. -/
def radix (env : Env) (MAX_FILES : Int) (phys_mem : Nat) (readers : List FilePair)
    (geomfile : List Int) (indexfile : List Index) (geompos : Nat)
    (maxzoom : Nat) (basezoom : Int) (droprate gamma : ℚ) (ds0 : Nat → drop_state) :
    Except Failure SortState :=
  let mem0 := if env.prefer_radix_sort then 8192 else phys_mem
  let availfiles : Int := MAX_FILES - 2 * (readers.length : Int) - 4 - 4 - 3
  let splits := (availfiles / 4).toNat
  let mem := mem0 / 2
  let ds := prep_drop_states ds0 maxzoom basezoom droprate
  match radix1 env maxzoom gamma mem 64 readers 0 splits
      { availfiles := availfiles, geomfile := geomfile, indexfile := indexfile,
        geompos_out := geompos, ds := ds } with
  | .error e => .error e
  | .ok st =>
      if miscounted st.availfiles readers.length availfiles = true then .error .miscounted
      else .ok st

/-! ## Statement-side definitions for the sort -/

/-- What the sort has to preserve of an input record: its key, sequence
number, lane and type, and the bytes of its geometry. -/
structure Feature where
  ix : Nat
  seq : Nat
  segment : Nat
  t : Nat
  blob : List Int
deriving DecidableEq

/-- The output step on a feature: `emit` on a record that designates the whole
of the feature blob. -/
def emit_feature (env : Env) (maxzoom : Nat) (gamma : ℚ) (f : Feature) (st : SortState) :
    SortState :=
  emit env f.blob maxzoom gamma
    { start := 0, end_ := f.blob.length, ix := f.ix, segment := f.segment, t := f.t, seq := f.seq }
    st

/-- The output step on a list of features, in order. -/
def emit_features (env : Env) (maxzoom : Nat) (gamma : ℚ) (fs : List Feature) (st : SortState) :
    SortState :=
  fs.foldl (fun s f => emit_feature env maxzoom gamma f s) st

/-- The records that `merge_loop` writes, in order. -/
def merge_order (env : Env) (map : List Index) : Nat → List mergelist → List Index
  | 0, _ => []
  | _ + 1, [] => []
  | fuel + 1, h :: rest =>
      let m : mergelist := { h with start := h.start + env.bytes }
      record_at env map h.start ::
        merge_order env map fuel (if m.start < m.end_ then insert env map m rest else rest)

/-- The range that `run_sort` stores in `merges[k]`. -/
def segment_of (unit indexpos k : Nat) : mergelist :=
  { start := k * unit, end_ := if k * unit + unit > indexpos then indexpos else k * unit + unit }

/-- The index record that the output step writes for a feature at geometry
position `pos`. -/
def emitted_record (f : Feature) (pos : Nat) : Index :=
  { start := pos, end_ := pos + f.blob.length + 1, ix := f.ix, segment := f.segment, t := f.t,
    seq := f.seq }

/-- The index records that the output step writes for a list of features from
geometry position `pos` on. -/
def emitted_index : List Feature → Nat → List Index
  | [], _ => []
  | f :: fs, pos => emitted_record f pos :: emitted_index fs (pos + f.blob.length + 1)

/-- The geometry bytes that the output step writes for a list of features
from the drop states `ds` on: each blob followed by its `feature_minzoom`. -/
def emitted_geom (env : Env) (maxzoom : Nat) (gamma : ℚ) :
    List Feature → (Nat → drop_state) → List Int
  | [], _ => []
  | f :: fs, ds =>
      f.blob ++ [(calc_feature_minzoom env (emitted_record f 0) ds maxzoom gamma).1] ++
        emitted_geom env maxzoom gamma fs
          (calc_feature_minzoom env (emitted_record f 0) ds maxzoom gamma).2

/-- The test of line 1976 in the fix-up loop of `read_input`:
`ip > 0 && map[ip].start != map[ip - 1].end`. -/
def mismatched_index (map : List Index) (ip : Nat) : Bool :=
  decide (ip > 0) && ((map.getD ip default).start != (map.getD (ip - 1) default).end_)

/-- The assumptions on the environment under which the embedding of the sort
is exact: at least one worker, a positive record size that divides the page
size (so that every segment of `run_sort` starts on a record boundary), and a
`qsort` that permutes its input. -/
structure Env.Valid (env : Env) : Prop where
  cpus_pos : 0 < env.CPUS
  bytes_pos : 0 < env.bytes
  page_pos : 0 < env.page
  aligned : env.bytes ∣ env.page
  qsort_perm : ∀ l : List Index, (env.qsort l).Perm l

/-- The values that `calc_feature_minzoom` returns when it is called on the
records of a list in order, starting from the drop states `ds`. -/
def stamp_values (env : Env) (maxzoom : Nat) (gamma : ℚ) :
    List Index → (Nat → drop_state) → List Int
  | [], _ => []
  | r :: rs, ds =>
      (calc_feature_minzoom env r ds maxzoom gamma).1 ::
        stamp_values env maxzoom gamma rs (calc_feature_minzoom env r ds maxzoom gamma).2

/-! ## Sample environment used to evaluate the definitions -/

/-- A de-interleaving of the 64 key bits into two 32-bit coordinates, used
where a concrete `decode` is needed: bit `2 * k + 1` of the key is bit `k` of
the first coordinate, bit `2 * k` is bit `k` of the second. -/
def sample_decode (k : Nat) : Nat × Nat :=
  ((List.range 32).foldl (fun acc b => acc + ((k >>> (2 * b + 1)) % 2) * 2 ^ b) 0,
   (List.range 32).foldl (fun acc b => acc + ((k >>> (2 * b)) % 2) * 2 ^ b) 0)

/-- Insertion into a list ordered by `indexcmp`. -/
def sample_insert (a : Index) : List Index → List Index
  | [] => [a]
  | b :: l => if indexcmp a b ≤ 0 then a :: b :: l else b :: sample_insert a l

/-- An insertion sort by `indexcmp`, standing for `qsort` in `sample_env`. -/
def sample_qsort : List Index → List Index
  | [] => []
  | a :: l => sample_insert a (sample_qsort l)

/-- A concrete environment: two workers, 4096-byte pages, 32-byte index
records, line and polygon dropping off. -/
def sample_env : Env :=
  { CPUS := 2
    page := 4096
    bytes := 32
    line_drop := false
    polygon_drop := false
    prefer_radix_sort := true
    VT_POINT := 1
    VT_LINE := 2
    VT_POLYGON := 3
    decode := sample_decode
    qsort := sample_qsort }

/-- Drop states with every field `0`. -/
def zero_states : Nat → drop_state :=
  fun _ => { gap := 0, previndex := 0, interval := 0, scale := 0, seq := 0, included := 0, x := 0, y := 0 }

/-! ## Statement-side definitions for the stamper -/

/-- The value of `ds[z].seq` after the first loop of `calc_feature_minzoom`, in
the words of the specification: reset to `0` when the stored tile differs from
the feature's tile at zoom `z` (which is `(0, 0)` at zoom `0` and
`(xx >> (32 - z), yy >> (32 - z))` otherwise), then increased by `1`. -/
def counted_seq (xx yy : Nat) (ds : Nat → drop_state) (z : Nat) : ℚ :=
  (if (ds z).x ≠ (if z = 0 then 0 else xx >>> (32 - z)) ∨
      (ds z).y ≠ (if z = 0 then 0 else yy >>> (32 - z)) then 0 else (ds z).seq) + 1

/-- A point feature with Morton key `5`. -/
def sample_point : Index :=
  { start := 0, end_ := 4, ix := 5, segment := 0, t := 1, seq := 0 }

/-- Two sample lanes: the first holds two features with the same key whose
sequence numbers decrease, the second one feature with a smaller key. -/
def sample_lanes : List FilePair :=
  [ { geom := [1, 2, 3, 4, 5, 6]
      index := [ { start := 0, end_ := 2, ix := 2 ^ 64 - 1, segment := 0, t := 1, seq := 1 },
                 { start := 2, end_ := 6, ix := 2 ^ 64 - 1, segment := 0, t := 1, seq := 0 } ] },
    { geom := [7, 8, 9]
      index := [ { start := 0, end_ := 3, ix := 5, segment := 1, t := 1, seq := 7 } ] } ]

/-- A sort state before `radix1`: three bytes already in the geometry file,
an empty index file, fresh drop states. -/
def sample_state : SortState :=
  { availfiles := 8
    geomfile := [9, 9, 9]
    indexfile := []
    geompos_out := 3
    ds := prep_drop_states zero_states 2 1 2 }

/-- The state in which `radix1` returns on the sample lanes with a memory
budget that holds every partition. -/
def sample_result : SortState :=
  match radix1 sample_env 2 0 100000 64 sample_lanes 0 2 sample_state with
  | .ok s => s
  | .error _ => sample_state

/-- Two lanes of one polygon each, as two input files leave them: both
features have the same key, the feature of lane 0 comes from the later file
and has the larger sequence number, and each blob has 2048 bytes. -/
def unsorted_lanes : List FilePair :=
  [ { geom := List.replicate 2048 7
      index := [ { start := 0, end_ := 2048, ix := 2 ^ 64 - 1, segment := 0, t := 3,
                   seq := 2048 } ] },
    { geom := List.replicate 2048 8
      index := [ { start := 0, end_ := 2048, ix := 2 ^ 64 - 1, segment := 1, t := 3,
                   seq := 1024 } ] } ]

/-- The `(ix, seq)` pairs of the index file in which a run ended, if it
returned. -/
def output_keys (r : Except Failure SortState) : Option (List (Nat × Nat)) :=
  match r with
  | .ok s => some (s.indexfile.map (fun r => (r.ix, r.seq)))
  | .error _ => none

/-! ## `init_cpus` (lines 99-164) and the descriptor budget of `radix` -/

/-- The values that `init_cpus` leaves in the globals `CPUS`, `MAX_FILES` and
`TEMP_FILES`. -/
structure Limits where
  CPUS : Nat
  MAX_FILES : Int
  TEMP_FILES : Nat
deriving DecidableEq, Repr

/-- Lines 102-118: the worker count for the value `c` that `atoi` or `sysconf`
returns.  `CPUS` is a `size_t`, so `c` is first converted modulo `2 ^ 64`;
`(int) (log (CPUS) / log (2))` is taken as the exact integer logarithm. -/
def cpus_of (c : Int) : Nat :=
  let CPUS : Nat := (c % 2 ^ 64).toNat
  let CPUS := if CPUS < 1 then 1 else CPUS
  let CPUS := if CPUS > 32767 then 32767 else CPUS
  2 ^ log2_floor CPUS CPUS

/-- Lines 141-146: the number `i` of descriptors opened before the first failure or
before `MAX_FILES` are open; `opens i` tells whether call number `i` of `open`
succeeds. -/
def probe_files (opens : Nat → Bool) (MAX_FILES : Nat) : Nat → Nat → Nat
  | 0, i => i
  | fuel + 1, i =>
      if i < MAX_FILES then
        if opens i then probe_files opens MAX_FILES fuel (i + 1) else i
      else i

/-- The function `init_cpus`: `c` is the value of `atoi (TIPPECANOE_MAX_THREADS)` or
of `sysconf (_SC_NPROCESSORS_ONLN)`, `rlim_cur` the soft limit that `getrlimit`
reports (`none` when it fails), `opens` the outcome of each `open`.  The result
is `none` where the function exits. -/
def init_cpus (c : Int) (rlim_cur : Option Nat) (opens : Nat → Bool) : Option Limits :=
  let CPUS := cpus_of c
  match rlim_cur with
  | none => none
  | some cur =>
      let MAX_FILES : Nat := if cur > 2000 then 2000 else cur
      let i := probe_files opens MAX_FILES MAX_FILES 0
      let MAX_FILES : Int := (i : Int) * 3 / 4
      if MAX_FILES < 32 then none
      else
        let TEMP_FILES : Nat := ((MAX_FILES - 10) / 2).toNat
        let TEMP_FILES := if TEMP_FILES > CPUS * 4 then CPUS * 4 else TEMP_FILES
        some { CPUS := CPUS, MAX_FILES := MAX_FILES, TEMP_FILES := TEMP_FILES }

/-- The descriptor budget of line 926, `MAX_FILES - 2 * nreaders - 4 - 4 - 3`, from
which `radix` takes `splits = availfiles / 4`. -/
def availfiles_of (MAX_FILES : Int) (nreaders : Nat) : Int :=
  MAX_FILES - 2 * (nreaders : Int) - 4 - 4 - 3

/-! ## The choice of the base zoom in `read_input` (lines 1863-1890) -/

/-- The loop of lines 1871-1877, from `z` down to `0`: `basezoom` becomes every
zoom whose densest tile holds fewer than `max_features` features, so the last
assignment wins. -/
def select_loop (count : Nat → Int) (max_features : Int) : Nat → Int → Int
  | 0, basezoom => if count 0 < max_features then 0 else basezoom
  | z + 1, basezoom =>
      select_loop count max_features z
        (if count (z + 1) < max_features then ((z + 1 : Nat) : Int) else basezoom)

/-- Lines 1869-1877: `basezoom = MAX_ZOOM`, then the loop from `MAX_ZOOM` down.
`MAX_ZOOM` is a macro that the source file does not define; `count z` is
`max[z].count`. -/
def first_selection (MAX_ZOOM : Nat) (count : Nat → Int) (max_features : Int) : Int :=
  select_loop count max_features MAX_ZOOM (MAX_ZOOM : Int)

/-- The loop of lines 1894-1900, "working from the other direction".  The value
`zoomdiff z` stands for the double
`log ((long double) max[z].count / max_features) / log (droprate)`. -/
def other_direction (zoomdiff : Nat → ℚ) (maxzoom : Nat) : Int :=
  (List.range (maxzoom + 1)).foldl
    (fun (basezoom : Int) (z : Nat) =>
      if zoomdiff z + (z : ℚ) > (basezoom : ℚ) then Int.ceil (zoomdiff z + (z : ℚ)) else basezoom)
    0

/-- Lines 1867-1900: the base zoom that `read_input` goes on with, for the
`basezoom` given on the command line (negative when it is to be chosen). -/
def choose_basezoom (MAX_ZOOM : Nat) (count : Nat → Int) (max_features : Int)
    (zoomdiff : Nat → ℚ) (maxzoom : Nat) (basezoom : Int) : Int :=
  let obasezoom := basezoom
  let basezoom := if basezoom < 0 then first_selection MAX_ZOOM count max_features else basezoom
  if obasezoom < 0 ∧ basezoom > (maxzoom : Int) then other_direction zoomdiff maxzoom
  else basezoom

/-- An environment with the 48-byte index records of the specification, one
worker and 4096-byte pages. -/
def wide_env : Env :=
  { sample_env with CPUS := 1, bytes := 48 }


/-! ## The split points of `do_read_parallel` (lines 357-379) -/

/-- The scan of lines 364-366: from position `p` forward while `p < len` and
`map[p] != separator`; `fuel` bounds the number of steps. -/
def scan_separator (map : List Int) (len : Nat) (separator : Int) : Nat → Nat → Nat
  | 0, p => p
  | fuel + 1, p =>
      if p < len ∧ map[p]? ≠ some separator then scan_separator map len separator fuel (p + 1)
      else p

/-- The array `segs` of lines 358-368: `segs[0] = 0`, `segs[CPUS] = len`, then for
`i = 1 .. CPUS - 1` the scan from `len * i / CPUS`. -/
def segs (map : List Int) (len : Nat) (separator : Int) (CPUS : Nat) : Nat → Nat :=
  (List.range (CPUS - 1)).foldl
    (fun s k =>
      Function.update s (k + 1) (scan_separator map len separator len (len * (k + 1) / CPUS)))
    (Function.update (Function.update (fun _ => 0) 0 0) CPUS len)

/-- The start value `layer_seq[i]` of lane `i` (line 378). -/
def layer_seq (map : List Int) (len : Nat) (separator : Int) (CPUS : Nat) (initial_offset : Int)
    (i : Nat) : Int :=
  (segs map len separator CPUS i : Int) + initial_offset

/-! ## The merge of the lanes' attribute files in `read_input` (lines 1518-1596) -/

/-- What the merge and `checkdisk` read of `readers[i]`: `metapos`, the contents
of the file behind `metafd`, `poolfile->off` and the bytes at `poolfile->map`,
and the sizes `geompos`, `indexpos`, `poolfile->len` and `treefile->len`. -/
structure reader where
  metapos : Nat
  metafile : List Int
  pool_off : Nat
  pool_map : List Int
  geompos : Nat := 0
  indexpos : Nat := 0
  pool_len : Nat := 0
  tree_len : Nat := 0

/-- The variables of the merge: the two offset tables, the running totals and
the two merged files. -/
structure MergeState where
  pool_off : Nat → Int
  meta_off : Nat → Int
  metapos : Int
  poolpos : Int
  metafile : List Int
  poolfile : List Int

/-- One round of the loop of lines 1559-1592, for lane `i`. -/
def merge_lane (readers : Nat → reader) (s : MergeState) (i : Nat) : MergeState :=
  let r := readers i
  let metafile :=
    if r.metapos > 0 then s.metafile ++ r.metafile.take r.metapos else s.metafile
  let meta_off := Function.update s.meta_off i s.metapos
  let metapos := s.metapos + (r.metapos : Int)
  let poolfile :=
    if r.pool_off > 0 then s.poolfile ++ r.pool_map.take r.pool_off else s.poolfile
  let pool_off := Function.update s.pool_off i s.poolpos
  let poolpos := s.poolpos + (r.pool_off : Int)
  { pool_off := pool_off, meta_off := meta_off, metapos := metapos, poolpos := poolpos,
    metafile := metafile, poolfile := poolfile }

/-- Lines 1518-1592: both tables zeroed (lines 1520-1522, which makes their
contents before irrelevant), the merged files empty, the totals `0`, then the
loop over the `CPUS` lanes. -/
def merge_lanes (CPUS : Nat) (readers : Nat → reader) : MergeState :=
  (List.range CPUS).foldl (merge_lane readers)
    { pool_off := fun _ => 0, meta_off := fun _ => 0, metapos := 0, poolpos := 0,
      metafile := [], poolfile := [] }

/-- The sum of `f j` over the lanes `j < i`. -/
def sum_before (f : Nat → Nat) (i : Nat) : Nat :=
  ((List.range i).map f).sum

/-- Three sample lanes for the merge. -/
def sample_readers (i : Nat) : reader :=
  if i = 0 then { metapos := 2, metafile := [1, 2], pool_off := 1, pool_map := [10, 0, 0] }
  else if i = 1 then { metapos := 0, metafile := [], pool_off := 0, pool_map := [0] }
  else { metapos := 3, metafile := [3, 4, 5], pool_off := 2, pool_map := [11, 12] }


/-! ## The descriptor count of `radix1`, step by step -/

/-- What is recorded of a run of `radix1`: every value stored into
`*availfiles`, and every recursive call with its `inputs` and `splits` arguments
and the value of `*availfiles` at that moment. -/
inductive Event where
  | avail (v : Int)
  | enter (inputs : Nat) (splits : Int) (availfiles : Int)
deriving DecidableEq, Repr

/-- The partition loop of `radix1` (lines 695-864) with a record of events:
`handle s i` treats partition `i` from state `s`; an error ends the loop. -/
def trace_fold (handle : SortState → Nat → Except Failure SortState × List Event) :
    List Nat → Except Failure SortState × List Event → Except Failure SortState × List Event
  | [], acc => acc
  | i :: l, acc =>
      match acc.1 with
      | .error _ => acc
      | .ok s => trace_fold handle l ((handle s i).1, acc.2 ++ (handle s i).2)

/-- The function `radix1` as above, returning also the events in the order in
which they happen: `*availfiles -= 4` for each partition created (line 603),
`*availfiles += 2` for each input closed (line 679) and for each partition
`fclose`d (line 692), then per partition either the recursive call of line 847
or the `*availfiles += 2` of line 862.  Where the shift of line 639 is undefined
the record ends with the inputs closed before the first record. -/
def radix1_trace (env : Env) (maxzoom : Nat) (gamma : ℚ) (mem : Nat) :
    Nat → List FilePair → Nat → Nat → SortState → Except Failure SortState × List Event
  | 0, _, _, _, _ => (.error .out_of_fuel, [])
  | fuel + 1, inputs, pfx, splits0, st =>
      if splits0 = 0 then (.error .undefined_behaviour, [])
      else
        let splitbits := splitbits_of splits0
        let splits : Nat := 2 ^ splitbits
        let created := (List.range splits).map
          (fun (i : Nat) => Event.avail (st.availfiles - 4 * ((i : Int) + 1)))
        let a1 : Int := st.availfiles - 4 * (splits : Int)
        if splitbits = 0 ∧ inputs.any (fun f => !f.index.isEmpty) = true then
          (.error .undefined_behaviour,
            created ++ (List.range (inputs.takeWhile (fun f => f.index.isEmpty)).length).map
              (fun (i : Nat) => Event.avail (a1 + 2 * ((i : Int) + 1))))
        else
          let parts := split_inputs pfx splitbits inputs
            (fun _ => { geom := [], index := [], sub_geompos := 0 })
          let closed := (List.range inputs.length).map
            (fun (i : Nat) => Event.avail (a1 + 2 * ((i : Int) + 1)))
          let a2 : Int := a1 + 2 * (inputs.length : Int)
          let fclosed := (List.range splits).map
            (fun (i : Nat) => Event.avail (a2 + 2 * ((i : Int) + 1)))
          let st1 : SortState :=
            { st with availfiles :=
                st.availfiles - 4 * (splits : Int) + 2 * (inputs.length : Int) + 2 * (splits : Int) }
          trace_fold
            (fun (s : SortState) (i : Nat) =>
              let p := parts i
              let indexst := env.bytes * p.index.length
              let geomst := p.geom.length
              if indexst > 0 then
                if indexst + geomst < mem then
                  (.ok { sort_in_memory env p maxzoom gamma s with availfiles := s.availfiles + 2 },
                    [Event.avail (s.availfiles + 2)])
                else if indexst = env.bytes ∨ pfx + splitbits ≥ 64 then
                  (.ok { stream_through env p maxzoom gamma s with availfiles := s.availfiles + 2 },
                    [Event.avail (s.availfiles + 2)])
                else
                  ((radix1_trace env maxzoom gamma mem fuel [{ geom := p.geom, index := p.index }]
                      (pfx + splitbits) (s.availfiles / 4).toNat s).1,
                    Event.enter 1 (s.availfiles / 4) s.availfiles ::
                      (radix1_trace env maxzoom gamma mem fuel [{ geom := p.geom, index := p.index }]
                        (pfx + splitbits) (s.availfiles / 4).toNat s).2)
              else (.ok { s with availfiles := s.availfiles + 2 }, [Event.avail (s.availfiles + 2)]))
            (List.range splits) (.ok st1, created ++ closed ++ fclosed)

/-- The property of claim C11 for one event: a stored value of `*availfiles` is
not negative, and a recursive call has `inputs ≥ 1` and
`1 ≤ splits ≤ *availfiles / 4`, with `splits = *availfiles / 4`. -/
def Event.within_budget : Event → Prop
  | .avail v => 0 ≤ v
  | .enter inputs splits availfiles =>
      1 ≤ inputs ∧ 1 ≤ splits ∧ splits ≤ availfiles / 4 ∧ splits = availfiles / 4

/-- One lane of two features with the same key `2 ^ 63`, which no split
separates. -/
def deep_lanes : List FilePair :=
  [ { geom := [1, 2, 3, 4]
      index := [ { start := 0, end_ := 2, ix := 2 ^ 63, segment := 0, t := 1, seq := 0 },
                 { start := 2, end_ := 4, ix := 2 ^ 63, segment := 0, t := 1, seq := 1 } ] } ]


/-! ## `checkdisk` (lines 84-97) -/

/-- The sum `used` of lines 85-90 over the lanes. -/
def disk_used (r : List reader) : Int :=
  r.foldl
    (fun used x =>
      used + ((x.metapos : Int) + 2 * (x.geompos : Int) + 2 * (x.indexpos : Int) +
        (x.pool_len : Int) + (x.tree_len : Int)))
    0

/-- The function `checkdisk` for the value `diskfree` of the global and the
value `warned` of its static flag: whether the warning is printed, and the flag
afterwards.  The double `diskfree * .9` is the rational `diskfree * 9 / 10`. -/
def checkdisk (r : List reader) (diskfree : Int) (warned : Bool) : Bool × Bool :=
  let used := disk_used r
  if (used : ℚ) > (diskfree : ℚ) * (9 / 10) ∧ warned = false then (true, true)
  else (false, warned)

/-- The predicted usage in the words of the specification:
`2 * geom + 2 * index + attr + pool`, summed over the lanes. -/
def predicted_usage (r : List reader) : Int :=
  (r.map (fun x => 2 * (x.geompos : Int) + 2 * (x.indexpos : Int) + (x.metapos : Int) +
    (x.pool_len : Int))).sum

/-- A lane whose only file with contents is the 100-byte tree file. -/
def tree_lane : reader :=
  { metapos := 0, metafile := [], pool_off := 0, pool_map := [], tree_len := 100 }

/-! ## Statement-side definitions for the comparator and the bucket -/

/-- The lexicographic comparison of two lists of field values: the sign of the
first difference. -/
def lex_cmp : List Nat → List Nat → Int
  | x :: xs, y :: ys => if x < y then -1 else if x > y then 1 else lex_cmp xs ys
  | _, _ => 0

/-- The fields of an index record in the layout order of the specification:
`morton_key, geom_start, geom_end, sequence, segment, type` (the record of the
embedding has no `feature_minzoom` field). -/
def layout_fields (r : Index) : List Nat :=
  [r.ix, r.start, r.end_, r.seq, r.segment, r.t]

/-- The comparison of two records by their fields in layout order. -/
def layout_cmp (a b : Index) : Int :=
  lex_cmp (layout_fields a) (layout_fields b)

/-- The top `n` bits of a 64-bit key, for `n ≤ 64`. -/
def top_bits (n key : Nat) : Nat :=
  key / 2 ^ (64 - n)

/-- The bits `[lo, hi)` of a 64-bit key, counted from the most significant bit,
for `lo ≤ hi ≤ 64`. -/
def bit_field (lo hi key : Nat) : Nat :=
  (key / 2 ^ (64 - hi)) % 2 ^ (hi - lo)


/-! ## Sequences of calls of `calc_feature_minzoom` and the fix-up pass -/

/-- The drop states after `calc_feature_minzoom` has been called on the records
of a list in order, starting from the drop states `ds`. -/
def stamp_states (env : Env) (maxzoom : Nat) (gamma : ℚ) :
    List Index → (Nat → drop_state) → (Nat → drop_state)
  | [], ds => ds
  | r :: rs, ds => stamp_states env maxzoom gamma rs (calc_feature_minzoom env r ds maxzoom gamma).2

/-- The number of droppable features among the records processed whose returned
`feature_minzoom` is at most `z`; the second list holds the returned values. -/
def included_count (env : Env) (z : Nat) : List Index → List Int → Nat
  | r :: rs, v :: vs =>
      (if droppable env r = true ∧ v ≤ (z : Int) then 1 else 0) + included_count env z rs vs
  | _, _ => 0

/-- A sorted index of three point features over a geometry file of nine bytes. -/
def sample_index : List Index :=
  [ { start := 0, end_ := 3, ix := 5, segment := 0, t := 1, seq := 0 },
    { start := 3, end_ := 5, ix := 5, segment := 0, t := 1, seq := 1 },
    { start := 5, end_ := 9, ix := 5, segment := 1, t := 1, seq := 2 } ]


/-! ## Statement-side definitions for the tasks of `run_sort` -/

/-- The records `[first, first + count)` of an index file replaced by what `q`
makes of them. -/
def sort_range (q : List Index → List Index) (first count : Nat) (file : List Index) :
    List Index :=
  file.take first ++ q ((file.drop first).take count) ++ file.drop (first + count)

/-- One round of the loop of `run_sort`, the one for segment `k`: `merges[k]` is
set and the records of the segment are sorted. -/
def sort_step (env : Env) (a : sort_arg) (k : Nat) (s : (Nat → mergelist) × List Index) :
    (Nat → mergelist) × List Index :=
  (Function.update s.1 k (segment_of a.unit a.indexpos k),
    sort_segment env a (k * a.unit) (segment_of a.unit a.indexpos k).end_ s.2)

/-- An index file of five records with decreasing keys. -/
def unsorted_file : List Index :=
  (List.range 5).map
    (fun i => { start := 0, end_ := 0, ix := 9 - i, segment := 0, t := 1, seq := i })


/-! ## A single feature -/

/-- The records that `merge` reads at line 268, in order, in the in-memory
branch of partition `p`, where every byte offset designates the record
`off / bytes`: the reads of `sort_in_memory`. -/
def record_reads (env : Env) (p : Partition) : List Index :=
  let indexpos := env.bytes * p.index.length
  let unit := sort_unit env indexpos
  let nmerges := (indexpos + unit - 1) / unit
  let sorted := (List.range env.CPUS).foldl
    (fun s a =>
      run_sort env { task := a, cpus := env.CPUS, indexpos := indexpos, unit := unit,
                     bytes := env.bytes } s)
    ((fun _ => { start := 0, end_ := 0 }), p.index)
  let head := merge_heads env sorted.1 nmerges sorted.2
  merge_order env sorted.2 ((head.map (fun m => m.end_ - m.start)).sum) head

/-- The function `radix1` with the in-memory branch (lines 710-790) reduced to
what it does to the output: `reads p` is the sequence of the values
`*((struct index *) (map + head->start))` that `merge` reads for partition `p`
(line 268), and each of them goes through the output step of lines 269-284.
With `record_reads` this is `radix1`.  Where a segment of `run_sort` does not
start on a record boundary, what `qsort` moves and what `merge` reads depends on
the bytes of `struct index`; `reads` then stands for the values read, whatever
they are.  A value with `end < start` passes through `emit` as an empty blob; the
C code asks `fwrite_check` for a negative length there and does not return, so
every return of the C code is a return of this function on the values it read. -/
def radix1_reads (env : Env) (maxzoom : Nat) (gamma : ℚ) (mem : Nat)
    (reads : Partition → List Index) :
    Nat → List FilePair → Nat → Nat → SortState → Except Failure SortState
  | 0, _, _, _, _ => .error .out_of_fuel
  | fuel + 1, inputs, pfx, splits0, st =>
      if splits0 = 0 then .error .undefined_behaviour
      else
        let splitbits := splitbits_of splits0
        let splits : Nat := 2 ^ splitbits
        if splitbits = 0 ∧ inputs.any (fun f => !f.index.isEmpty) = true then
          .error .undefined_behaviour
        else
          let parts := split_inputs pfx splitbits inputs
            (fun _ => { geom := [], index := [], sub_geompos := 0 })
          let st1 : SortState :=
            { st with availfiles :=
                st.availfiles - 4 * (splits : Int) + 2 * (inputs.length : Int) + 2 * (splits : Int) }
          (List.range splits).foldlM
            (fun (s : SortState) (i : Nat) =>
              let p := parts i
              let indexst := env.bytes * p.index.length
              let geomst := p.geom.length
              if indexst > 0 then
                if indexst + geomst < mem then
                  .ok { (reads p).foldl (fun s2 ix => emit env p.geom maxzoom gamma ix s2) s with
                        availfiles := s.availfiles + 2 }
                else if indexst = env.bytes ∨ pfx + splitbits ≥ 64 then
                  .ok { stream_through env p maxzoom gamma s with availfiles := s.availfiles + 2 }
                else
                  radix1_reads env maxzoom gamma mem reads fuel
                    [{ geom := p.geom, index := p.index }]
                    (pfx + splitbits) (s.availfiles / 4).toNat s
              else .ok { s with availfiles := s.availfiles + 2 })
            st1

/-- The records `rs` follow each other from position `pos` to position `pos2`:
the first starts at `pos`, each one is not empty and ends where the next starts,
and the last ends at `pos2`. -/
def chained : Nat → List Index → Nat → Prop
  | pos, [], pos2 => pos2 = pos
  | pos, r :: rs, pos2 => r.start = pos ∧ r.start < r.end_ ∧ chained r.end_ rs pos2

/-! ## The in-memory branch on the words of the 48-byte record -/

/-- Modelled from the spec: the index record layout, "48 bytes exactly:
`morton_key u64; geom_start u64; geom_end u64; sequence u64; segment u16;
type u8; feature_minzoom u8; padding[12]`" (`struct index` of `main.hpp` is not
among the sources), as the six little-endian 64-bit words of the record: the
four 64-bit fields, the word of `segment` (bits 0-15), `type` (bits 16-23),
`feature_minzoom` and the first four padding bytes, and the word of the last
eight padding bytes; `feature_minzoom` and the padding are written as `0`. -/
def index_words (r : Index) : List Nat :=
  [r.ix % 2 ^ 64, r.start % 2 ^ 64, r.end_ % 2 ^ 64, r.seq % 2 ^ 64,
    r.segment % 2 ^ 16 + 2 ^ 16 * (r.t % 2 ^ 8), 0]

/-- Modelled from the spec: the fields of the record that six words hold; words
that are missing count as `0`. -/
def index_of_words (w : List Nat) : Index :=
  { ix := w.getD 0 0
    start := w.getD 1 0
    end_ := w.getD 2 0
    seq := w.getD 3 0
    segment := w.getD 4 0 % 2 ^ 16
    t := w.getD 4 0 / 2 ^ 16 % 2 ^ 8 }

/-- The record `*((struct index *) (map + off))` of a mapped index file of 48-byte
records, given as its 64-bit words, at the byte offset `off`, a multiple of 8
(every offset of `run_sort` and `merge` is a multiple of the page size plus a
multiple of 48); the words of the last mapped page after the end of the file are
`0`. -/
def record_at_words (map : List Nat) (off : Nat) : Index :=
  index_of_words ((map.drop (off / 8)).take 6)

/-- The first `count` elements of 48 bytes (six words) of a range of words. -/
def chunks : Nat → List Nat → List (List Nat)
  | 0, _ => []
  | count + 1, w => w.take 6 :: chunks count (w.drop 6)

/-- Insertion of an element into a list of elements ordered by `indexcmp`. -/
def chunk_insert (a : List Nat) : List (List Nat) → List (List Nat)
  | [] => [a]
  | b :: l =>
      if indexcmp (index_of_words a) (index_of_words b) ≤ 0 then a :: b :: l
      else b :: chunk_insert a l

/-- An insertion sort of 48-byte elements by `indexcmp`, standing for `qsort`. -/
def chunk_qsort : List (List Nat) → List (List Nat)
  | [] => []
  | a :: l => chunk_insert a (chunk_qsort l)

/-- Lines 327-351 of `run_sort` on the words of the file: `qsort` on the
`(end - start) / 48` elements of 48 bytes from byte `start` on, copied back. -/
def sort_segment_words (start end_ : Nat) (file : List Nat) : List Nat :=
  let count := (end_ - start) / 48
  file.take (start / 8) ++ (chunk_qsort (chunks count (file.drop (start / 8)))).flatMap id ++
    file.drop (start / 8 + 6 * count)

/-- The loop of `run_sort` on the words of the file. -/
def run_sort_loop_words (a : sort_arg) :
    Nat → Nat → (Nat → mergelist) × List Nat → (Nat → mergelist) × List Nat
  | 0, _, s => s
  | fuel + 1, start, s =>
      if start < a.indexpos then
        let end_ := if start + a.unit > a.indexpos then a.indexpos else start + a.unit
        run_sort_loop_words a fuel (start + a.unit * a.cpus)
          (Function.update s.1 (start / a.unit) { start := start, end_ := end_ },
            sort_segment_words start end_ s.2)
      else s

/-- The function `insert` on the words of the file. -/
def insert_words (map : List Nat) (m : mergelist) : List mergelist → List mergelist
  | [] => [m]
  | h :: rest =>
      if indexcmp (record_at_words map m.start) (record_at_words map h.start) > 0 then
        h :: insert_words map m rest
      else m :: h :: rest

/-- The records that the loop of `merge` reads (line 268) on the words of the
file, in order. -/
def merge_order_words (map : List Nat) : Nat → List mergelist → List Index
  | 0, _ => []
  | _ + 1, [] => []
  | fuel + 1, h :: rest =>
      let m : mergelist := { h with start := h.start + 48 }
      record_at_words map h.start ::
        merge_order_words map fuel (if m.start < m.end_ then insert_words map m rest else rest)

/-- The reads of `merge` in the in-memory branch of partition `p` with the
48-byte record: the index file of the partition as words, the `CPUS` tasks of
`run_sort`, the first loop of `merge`, and the reads of its second loop. -/
def layout_reads (env : Env) (p : Partition) : List Index :=
  let file := p.index.flatMap index_words
  let indexpos := 48 * p.index.length
  let unit := sort_unit env indexpos
  let nmerges := (indexpos + unit - 1) / unit
  let sorted := (List.range env.CPUS).foldl
    (fun s a =>
      run_sort_loop_words
        { task := a, cpus := env.CPUS, indexpos := indexpos, unit := unit, bytes := 48 }
        indexpos (a * unit) s)
    ((fun _ => { start := 0, end_ := 0 }), file)
  let head := (List.range nmerges).foldl
    (fun head i =>
      if (sorted.1 i).start < (sorted.1 i).end_ then insert_words sorted.2 (sorted.1 i) head
      else head) []
  merge_order_words sorted.2 ((head.map (fun m => m.end_ - m.start)).sum) head

/-- The sample environment with the 48-byte record of the specification: two
workers, 4096-byte pages. -/
def layout_env : Env :=
  { sample_env with bytes := 48 }

/-- One lane of `n` point features of one geometry byte each, with the keys and
sequence numbers `0, 1, ..., n - 1`. -/
def point_lane (n : Nat) : List FilePair :=
  [ { geom := List.replicate n 7
      index := (List.range n).map
        (fun i => { start := i, end_ := i + 1, ix := i, segment := 0, t := 1, seq := i }) } ]

/-- A sort state with empty output files. -/
def empty_state : SortState :=
  { availfiles := 8, geomfile := [], indexfile := [], geompos_out := 0, ds := zero_states }

/-- A partition of three records in decreasing key order, which one segment of
`run_sort` holds. -/
def small_partition : Partition :=
  { geom := [1, 2, 3]
    index := [ { start := 0, end_ := 1, ix := 9, segment := 0, t := 1, seq := 0 },
               { start := 1, end_ := 2, ix := 8, segment := 1, t := 1, seq := 1 },
               { start := 2, end_ := 3, ix := 7, segment := 0, t := 1, seq := 2 } ]
    sub_geompos := 3 }

/-- The state in which the run on three point features with the 48-byte record
ends. -/
def layout_result : SortState :=
  match radix1_reads layout_env 0 (-1) 100000 (layout_reads layout_env) 64 (point_lane 3) 0 2
      empty_state with
  | .ok s => s
  | .error _ => empty_state


/-! # Theorems -/

/-! ## The comparator -/

theorem indexcmp_le_iff (a b : Index) :
    indexcmp a b ≤ 0 ↔ (a.ix < b.ix ∨ (a.ix = b.ix ∧ a.seq ≤ b.seq)) := by
  unfold indexcmp
  split_ifs <;> omega

/-- Claim C5: `indexcmp a b` is `-1` exactly when `(a.ix, a.seq)` is
lexicographically smaller than `(b.ix, b.seq)`, `1` exactly when it is larger
and `0` exactly when both fields agree; it is antisymmetric, and the relation
`indexcmp a b ≤ 0` is transitive and total. -/
theorem indexcmp_lexicographic :
    (∀ a b : Index, indexcmp a b = -1 ↔ (a.ix < b.ix ∨ (a.ix = b.ix ∧ a.seq < b.seq))) ∧
    (∀ a b : Index, indexcmp a b = 1 ↔ (b.ix < a.ix ∨ (a.ix = b.ix ∧ b.seq < a.seq))) ∧
    (∀ a b : Index, indexcmp a b = 0 ↔ (a.ix = b.ix ∧ a.seq = b.seq)) ∧
    (∀ a b : Index, indexcmp a b = -indexcmp b a) ∧
    (∀ a b c : Index, indexcmp a b ≤ 0 → indexcmp b c ≤ 0 → indexcmp a c ≤ 0) ∧
    (∀ a b : Index, indexcmp a b ≤ 0 ∨ indexcmp b a ≤ 0) := by
  refine ⟨?_, ?_, ?_, ?_, ?_, ?_⟩
  · intro a b
    unfold indexcmp
    split_ifs <;> constructor <;> intro h <;> first | omega | exact absurd h (by decide)
  · intro a b
    unfold indexcmp
    split_ifs <;> constructor <;> intro h <;> first | omega | exact absurd h (by decide)
  · intro a b
    unfold indexcmp
    split_ifs <;> constructor <;> intro h <;> first | omega | exact absurd h (by decide)
  · intro a b
    unfold indexcmp
    split_ifs <;> omega
  · intro a b c hab hbc
    rw [indexcmp_le_iff] at *
    omega
  · intro a b
    rw [indexcmp_le_iff, indexcmp_le_iff]
    omega

/-! ## The drop-threshold stamper -/

theorem prep_loop_apply (basezoom : Int) (droprate : ℚ) (n i : Nat) (ds : Nat → drop_state)
    (z : Nat) :
    prep_loop basezoom droprate n i ds z =
      if i ≤ z ∧ z < i + n then prep_entry basezoom droprate z else ds z := by
  induction n generalizing i ds with
  | zero =>
    rw [prep_loop, if_neg (by omega)]
  | succ n ih =>
    rw [prep_loop, ih]
    by_cases h1 : i + 1 ≤ z ∧ z < i + 1 + n
    · rw [if_pos h1, if_pos (by omega)]
    · rw [if_neg h1]
      by_cases h2 : z = i
      · subst h2
        simp
      · rw [Function.update_noteq h2, if_neg (by omega)]

theorem prep_drop_states_apply (ds : Nat → drop_state) (maxzoom : Nat) (basezoom : Int)
    (droprate : ℚ) (z : Nat) :
    prep_drop_states ds maxzoom basezoom droprate z =
      if z ≤ maxzoom then prep_entry basezoom droprate z else ds z := by
  unfold prep_drop_states
  rw [prep_loop_apply]
  by_cases h : z ≤ maxzoom
  · rw [if_pos h, if_pos (by omega)]
  · rw [if_neg h, if_neg (by omega)]

theorem count_loop_apply (xx yy n : Nat) (ds : Nat → drop_state) (z : Nat) :
    count_loop xx yy n ds z = if z ≤ n then count_entry xx yy z (ds z) else ds z := by
  induction n generalizing ds with
  | zero =>
    rw [count_loop]
    by_cases h : z = 0
    · subst h
      simp
    · rw [Function.update_noteq h, if_neg (by omega)]
  | succ n ih =>
    rw [count_loop, ih]
    by_cases h : z = n + 1
    · subst h
      simp
    · rw [Function.update_noteq h]
      by_cases h2 : z ≤ n
      · rw [if_pos h2, if_pos (by omega)]
      · rw [if_neg h2, if_neg (by omega)]

/-- The second loop: either every zoom `0 .. n` has `seq ≥ 0`, all of them are
included and the result is `0`, or the loop breaks at the greatest zoom `zs`
with `seq < 0`, returns `zs + 1` and has included exactly the zooms above. -/
theorem drop_loop_spec (n : Nat) (ds : Nat → drop_state) :
    ((drop_loop n ds).1 = 0 ∧ (∀ z, z ≤ n → 0 ≤ (ds z).seq) ∧
        ∀ z, (drop_loop n ds).2 z = if z ≤ n then include_entry (ds z) else ds z) ∨
    (∃ zs : Nat, zs ≤ n ∧ (drop_loop n ds).1 = (zs : Int) + 1 ∧ (ds zs).seq < 0 ∧
        (∀ z, zs < z → z ≤ n → 0 ≤ (ds z).seq) ∧
        ∀ z, (drop_loop n ds).2 z = if zs < z ∧ z ≤ n then include_entry (ds z) else ds z) := by
  induction n generalizing ds with
  | zero =>
    rw [drop_loop]
    by_cases h : (ds 0).seq ≥ 0
    · left
      rw [if_pos h]
      refine ⟨rfl, ?_, ?_⟩
      · intro z hz
        have : z = 0 := by omega
        subst this
        exact h
      · intro z
        by_cases hz : z = 0
        · subst hz
          simp
        · simp only [Function.update_noteq hz]
          rw [if_neg (by omega)]
    · right
      rw [if_neg h]
      refine ⟨0, le_refl _, by simp, not_le.mp h, ?_, ?_⟩
      · intro z h1 h2
        omega
      · intro z
        rw [if_neg (by omega)]
  | succ n ih =>
    rw [drop_loop]
    by_cases h : (ds (n + 1)).seq ≥ 0
    · rw [if_pos h]
      have key : ∀ z, z ≤ n →
          Function.update ds (n + 1) (include_entry (ds (n + 1))) z = ds z := by
        intro z hz
        exact Function.update_noteq (by omega) _ _
      rcases ih (Function.update ds (n + 1) (include_entry (ds (n + 1)))) with
        ⟨h1, h2, h3⟩ | ⟨zs, hzs, h1, h2, h3, h4⟩
      · left
        refine ⟨h1, ?_, ?_⟩
        · intro z hz
          by_cases hz2 : z = n + 1
          · subst hz2
            exact h
          · have := h2 z (by omega)
            rwa [key z (by omega)] at this
        · intro z
          rw [h3]
          by_cases hz : z ≤ n
          · rw [if_pos hz, if_pos (by omega), key z hz]
          · rw [if_neg hz]
            by_cases hz2 : z = n + 1
            · subst hz2
              simp
            · rw [Function.update_noteq hz2, if_neg (by omega)]
      · right
        refine ⟨zs, by omega, h1, ?_, ?_, ?_⟩
        · rwa [key zs hzs] at h2
        · intro z hz1 hz2
          by_cases hz3 : z = n + 1
          · subst hz3
            exact h
          · have := h3 z hz1 (by omega)
            rwa [key z (by omega)] at this
        · intro z
          rw [h4]
          by_cases hz : zs < z ∧ z ≤ n
          · rw [if_pos hz, if_pos (by omega), key z hz.2]
          · rw [if_neg hz]
            by_cases hz2 : z = n + 1
            · subst hz2
              rw [if_pos (by omega)]
              simp
            · rw [Function.update_noteq hz2, if_neg (by omega)]
    · right
      rw [if_neg h]
      refine ⟨n + 1, le_refl _, rfl, not_le.mp h, ?_, ?_⟩
      · intro z h1 h2
        omega
      · intro z
        rw [if_neg (by omega)]

/-- Claim C6: with `gamma < 0`, or for a feature that is not droppable,
`calc_feature_minzoom` returns `0` and leaves the drop states as they were. -/
theorem calc_feature_minzoom_inactive (env : Env) (ix : Index) (ds : Nat → drop_state)
    (maxzoom : Nat) (gamma : ℚ)
    (h : gamma < 0 ∨
      (ix.t ≠ env.VT_POINT ∧ ¬ (env.line_drop = true ∧ ix.t = env.VT_LINE) ∧
        ¬ (env.polygon_drop = true ∧ ix.t = env.VT_POLYGON))) :
    calc_feature_minzoom env ix ds maxzoom gamma = (0, ds) := by
  unfold calc_feature_minzoom
  have hn : ¬ (gamma ≥ 0 ∧ droppable env ix = true) := by
    rintro ⟨hg, hd⟩
    rcases h with h | ⟨h1, h2, h3⟩
    · exact absurd hg (not_le.mpr h)
    · simp only [droppable, Bool.or_eq_true, Bool.and_eq_true, beq_iff_eq] at hd
      rcases hd with (hd | hd) | hd
      · exact h1 hd
      · exact h2 hd
      · exact h3 hd
  simp only [if_neg hn]

theorem calc_feature_minzoom_inactive_witness :
    calc_feature_minzoom sample_env
      { start := 0, end_ := 4, ix := 5, segment := 0, t := 2, seq := 0 } zero_states 3 1 =
        (0, zero_states) :=
  calc_feature_minzoom_inactive sample_env _ zero_states 3 1
    (Or.inr ⟨by decide, by decide, by decide⟩)

/-- Claim C7: for a droppable feature with `gamma ≥ 0` and `maxzoom ≤ 32`, the
first loop resets `seq`, `gap`, `previndex` at every zoom whose stored tile
differs from the feature's, stores the tile and adds `1` to `seq`; the result is
`zs + 1` for the greatest zoom `zs ≤ maxzoom` whose `seq` is then negative, or
`0` if there is none; exactly the zooms `z` with `result ≤ z` (those strictly
above `zs`) have `interval` subtracted from `seq` and `included` increased. -/
theorem calc_feature_minzoom_droppable (env : Env) (ix : Index) (ds : Nat → drop_state)
    (maxzoom : Nat) (gamma : ℚ) (hg : 0 ≤ gamma) (hd : droppable env ix = true)
    (_hm : maxzoom ≤ 32) :
    ((calc_feature_minzoom env ix ds maxzoom gamma).1 = 0 ∧
        (∀ z, z ≤ maxzoom →
          0 ≤ counted_seq (env.decode ix.ix).1 (env.decode ix.ix).2 ds z) ∨
      ∃ zs : Nat, zs ≤ maxzoom ∧
        (calc_feature_minzoom env ix ds maxzoom gamma).1 = (zs : Int) + 1 ∧
        counted_seq (env.decode ix.ix).1 (env.decode ix.ix).2 ds zs < 0 ∧
        ∀ z, zs < z → z ≤ maxzoom →
          0 ≤ counted_seq (env.decode ix.ix).1 (env.decode ix.ix).2 ds z) ∧
    (∀ z, z ≤ maxzoom →
      ((calc_feature_minzoom env ix ds maxzoom gamma).2 z).x =
          (if z = 0 then 0 else (env.decode ix.ix).1 >>> (32 - z)) ∧
      ((calc_feature_minzoom env ix ds maxzoom gamma).2 z).y =
          (if z = 0 then 0 else (env.decode ix.ix).2 >>> (32 - z)) ∧
      ((calc_feature_minzoom env ix ds maxzoom gamma).2 z).gap =
          (if (ds z).x ≠ (if z = 0 then 0 else (env.decode ix.ix).1 >>> (32 - z)) ∨
              (ds z).y ≠ (if z = 0 then 0 else (env.decode ix.ix).2 >>> (32 - z))
            then 0 else (ds z).gap) ∧
      ((calc_feature_minzoom env ix ds maxzoom gamma).2 z).previndex =
          (if (ds z).x ≠ (if z = 0 then 0 else (env.decode ix.ix).1 >>> (32 - z)) ∨
              (ds z).y ≠ (if z = 0 then 0 else (env.decode ix.ix).2 >>> (32 - z))
            then 0 else (ds z).previndex) ∧
      ((calc_feature_minzoom env ix ds maxzoom gamma).2 z).interval = (ds z).interval ∧
      ((calc_feature_minzoom env ix ds maxzoom gamma).2 z).scale = (ds z).scale ∧
      ((calc_feature_minzoom env ix ds maxzoom gamma).2 z).seq =
          (if (calc_feature_minzoom env ix ds maxzoom gamma).1 ≤ (z : Int) then
            counted_seq (env.decode ix.ix).1 (env.decode ix.ix).2 ds z - (ds z).interval
          else counted_seq (env.decode ix.ix).1 (env.decode ix.ix).2 ds z) ∧
      ((calc_feature_minzoom env ix ds maxzoom gamma).2 z).included =
          (if (calc_feature_minzoom env ix ds maxzoom gamma).1 ≤ (z : Int) then
            (ds z).included + 1 else (ds z).included)) ∧
    (∀ z, maxzoom < z → (calc_feature_minzoom env ix ds maxzoom gamma).2 z = ds z) := by
  have hact : calc_feature_minzoom env ix ds maxzoom gamma =
      drop_loop maxzoom
        (count_loop (env.decode ix.ix).1 (env.decode ix.ix).2 maxzoom ds) := by
    unfold calc_feature_minzoom
    simp only [if_pos (show gamma ≥ 0 ∧ droppable env ix = true from ⟨hg, hd⟩)]
  rw [hact]
  generalize (env.decode ix.ix).1 = xx
  generalize (env.decode ix.ix).2 = yy
  have hseq : ∀ z, z ≤ maxzoom →
      (count_loop xx yy maxzoom ds z).seq = counted_seq xx yy ds z := by
    intro z hz
    rw [count_loop_apply, if_pos hz]
    unfold count_entry counted_seq tile_coord
    by_cases hc : (ds z).x ≠ (if z = 0 then 0 else xx >>> (32 - z)) ∨
        (ds z).y ≠ (if z = 0 then 0 else yy >>> (32 - z))
    · simp only [if_pos hc]
    · simp only [if_neg hc]
  have hcnt : ∀ z, z ≤ maxzoom →
      count_loop xx yy maxzoom ds z = count_entry xx yy z (ds z) := by
    intro z hz
    rw [count_loop_apply, if_pos hz]
  have hfld : ∀ z,
      (count_entry xx yy z (ds z)).x = (if z = 0 then 0 else xx >>> (32 - z)) ∧
      (count_entry xx yy z (ds z)).y = (if z = 0 then 0 else yy >>> (32 - z)) ∧
      (count_entry xx yy z (ds z)).gap =
          (if (ds z).x ≠ (if z = 0 then 0 else xx >>> (32 - z)) ∨
              (ds z).y ≠ (if z = 0 then 0 else yy >>> (32 - z))
            then 0 else (ds z).gap) ∧
      (count_entry xx yy z (ds z)).previndex =
          (if (ds z).x ≠ (if z = 0 then 0 else xx >>> (32 - z)) ∨
              (ds z).y ≠ (if z = 0 then 0 else yy >>> (32 - z))
            then 0 else (ds z).previndex) ∧
      (count_entry xx yy z (ds z)).interval = (ds z).interval ∧
      (count_entry xx yy z (ds z)).scale = (ds z).scale ∧
      (count_entry xx yy z (ds z)).included = (ds z).included := by
    intro z
    unfold count_entry tile_coord
    by_cases hc : (ds z).x ≠ (if z = 0 then 0 else xx >>> (32 - z)) ∨
        (ds z).y ≠ (if z = 0 then 0 else yy >>> (32 - z))
    · simp only [if_pos hc, and_self]
    · simp only [if_neg hc, and_self]
  rcases drop_loop_spec maxzoom (count_loop xx yy maxzoom ds) with
    ⟨h1, h2, h3⟩ | ⟨zs, hzs, h1, h2, h3, h4⟩
  · refine ⟨Or.inl ⟨h1, fun z hz => ?_⟩, fun z hz => ?_, fun z hz => ?_⟩
    · rw [← hseq z hz]
      exact h2 z hz
    · rw [h3, if_pos hz, h1, hcnt z hz]
      obtain ⟨f1, f2, f3, f4, f5, f6, f7⟩ := hfld z
      have hz0 : (0 : Int) ≤ (z : Int) := Int.natCast_nonneg z
      simp only [include_entry, if_pos hz0]
      refine ⟨f1, f2, f3, f4, f5, f6, ?_, ?_⟩
      · rw [← hseq z hz, hcnt z hz, f5]
      · rw [f7]
    · rw [h3, if_neg (by omega), count_loop_apply, if_neg (by omega)]
  · refine ⟨Or.inr ⟨zs, hzs, h1, ?_, fun z hz1 hz2 => ?_⟩, fun z hz => ?_, fun z hz => ?_⟩
    · rw [← hseq zs hzs]
      exact h2
    · rw [← hseq z hz2]
      exact h3 z hz1 hz2
    · rw [h4, h1]
      obtain ⟨f1, f2, f3, f4, f5, f6, f7⟩ := hfld z
      by_cases hab : zs < z
      · have hz0 : (zs : Int) + 1 ≤ (z : Int) := by omega
        rw [if_pos ⟨hab, hz⟩, hcnt z hz]
        simp only [include_entry, if_pos hz0]
        refine ⟨f1, f2, f3, f4, f5, f6, ?_, ?_⟩
        · rw [← hseq z hz, hcnt z hz, f5]
        · rw [f7]
      · have hz0 : ¬ ((zs : Int) + 1 ≤ (z : Int)) := by omega
        rw [if_neg (fun h => hab h.1), hcnt z hz]
        simp only [if_neg hz0]
        refine ⟨f1, f2, f3, f4, f5, f6, ?_, f7⟩
        rw [← hseq z hz, hcnt z hz]
    · rw [h4, if_neg (by omega), count_loop_apply, if_neg (by omega)]

theorem calc_feature_minzoom_droppable_witness :
    ((calc_feature_minzoom sample_env sample_point zero_states 2 0).1 = 0 ∧
        (∀ z, z ≤ 2 →
          0 ≤ counted_seq (sample_env.decode sample_point.ix).1
            (sample_env.decode sample_point.ix).2 zero_states z) ∨
      ∃ zs : Nat, zs ≤ 2 ∧
        (calc_feature_minzoom sample_env sample_point zero_states 2 0).1 = (zs : Int) + 1 ∧
        counted_seq (sample_env.decode sample_point.ix).1
          (sample_env.decode sample_point.ix).2 zero_states zs < 0 ∧
        ∀ z, zs < z → z ≤ 2 →
          0 ≤ counted_seq (sample_env.decode sample_point.ix).1
            (sample_env.decode sample_point.ix).2 zero_states z) :=
  (calc_feature_minzoom_droppable sample_env sample_point zero_states 2 0
    (le_refl _) (by decide) (by decide)).1

theorem count_entry_prep_seq (xx yy z : Nat) (basezoom : Int) (droprate : ℚ) :
    (count_entry xx yy z (prep_entry basezoom droprate z)).seq = 1 ∧
    (count_entry xx yy z (prep_entry basezoom droprate z)).included = 0 ∧
    (count_entry xx yy z (prep_entry basezoom droprate z)).interval =
      (prep_entry basezoom droprate z).interval ∧
    (count_entry xx yy z (prep_entry basezoom droprate z)).x = tile_coord xx z ∧
    (count_entry xx yy z (prep_entry basezoom droprate z)).y = tile_coord yy z := by
  unfold count_entry
  by_cases hc : (prep_entry basezoom droprate z).x ≠ tile_coord xx z ∨
      (prep_entry basezoom droprate z).y ≠ tile_coord yy z
  · simp only [if_pos hc]
    simp [prep_entry]
  · simp only [if_neg hc]
    simp [prep_entry]

/-- Claim C8: the first feature stamped after `prep_drop_states` gets
`feature_minzoom = 0`, whatever `maxzoom`, `basezoom`, `droprate > 0`, `gamma`,
type and key; when it is droppable and `gamma ≥ 0`, `included` is `1` at every
zoom `0 .. maxzoom` afterwards. -/
theorem first_feature_minzoom_zero (env : Env) (ix : Index) (ds : Nat → drop_state)
    (maxzoom : Nat) (basezoom : Int) (droprate gamma : ℚ) (_hr : 0 < droprate) :
    (calc_feature_minzoom env ix (prep_drop_states ds maxzoom basezoom droprate)
        maxzoom gamma).1 = 0 ∧
    (0 ≤ gamma → droppable env ix = true → ∀ z, z ≤ maxzoom →
      ((calc_feature_minzoom env ix (prep_drop_states ds maxzoom basezoom droprate)
        maxzoom gamma).2 z).included = 1) := by
  by_cases hact : gamma ≥ 0 ∧ droppable env ix = true
  · have hcalc : calc_feature_minzoom env ix (prep_drop_states ds maxzoom basezoom droprate)
        maxzoom gamma =
        drop_loop maxzoom (count_loop (env.decode ix.ix).1 (env.decode ix.ix).2 maxzoom
          (prep_drop_states ds maxzoom basezoom droprate)) := by
      unfold calc_feature_minzoom
      simp only [if_pos hact]
    rw [hcalc]
    generalize (env.decode ix.ix).1 = xx
    generalize (env.decode ix.ix).2 = yy
    have hcnt : ∀ z, z ≤ maxzoom →
        count_loop xx yy maxzoom (prep_drop_states ds maxzoom basezoom droprate) z =
          count_entry xx yy z (prep_entry basezoom droprate z) := by
      intro z hz
      rw [count_loop_apply, if_pos hz, prep_drop_states_apply, if_pos hz]
    rcases drop_loop_spec maxzoom
        (count_loop xx yy maxzoom (prep_drop_states ds maxzoom basezoom droprate)) with
      ⟨h1, _, h3⟩ | ⟨zs, hzs, _, h2, _, _⟩
    · refine ⟨h1, fun _ _ z hz => ?_⟩
      rw [h3, if_pos hz, hcnt z hz]
      simp only [include_entry, (count_entry_prep_seq xx yy z basezoom droprate).2.1]
      rfl
    · exfalso
      rw [hcnt zs hzs, (count_entry_prep_seq xx yy zs basezoom droprate).1] at h2
      exact absurd h2 (by norm_num)
  · have hcalc : calc_feature_minzoom env ix (prep_drop_states ds maxzoom basezoom droprate)
        maxzoom gamma = (0, prep_drop_states ds maxzoom basezoom droprate) := by
      unfold calc_feature_minzoom
      simp only [if_neg hact]
    rw [hcalc]
    exact ⟨rfl, fun hg hd => absurd ⟨hg, hd⟩ hact⟩

theorem first_feature_minzoom_zero_witness :
    (calc_feature_minzoom sample_env sample_point (prep_drop_states zero_states 3 2 (5 / 2))
        3 0).1 = 0 ∧
    (0 ≤ (0 : ℚ) → droppable sample_env sample_point = true → ∀ z, z ≤ 3 →
      ((calc_feature_minzoom sample_env sample_point
        (prep_drop_states zero_states 3 2 (5 / 2)) 3 0).2 z).included = 1) :=
  first_feature_minzoom_zero sample_env sample_point zero_states 3 2 (5 / 2) 0 (by norm_num)

theorem count_entry_same_tile (xx yy z : Nat) (d : drop_state)
    (hx : d.x = tile_coord xx z) (hy : d.y = tile_coord yy z) :
    (count_entry xx yy z (include_entry d)).seq = (include_entry d).seq + 1 := by
  unfold count_entry
  have hc : ¬ ((include_entry d).x ≠ tile_coord xx z ∨ (include_entry d).y ≠ tile_coord yy z) := by
    simp [include_entry, hx, hy]
  simp only [if_neg hc]

/-- The drop states after stamping a droppable feature twice from a fresh
state, where no zoom in `0 .. maxzoom` breaks the second loop of the first call:
`seq` at zoom `z` is `2 - interval z` before the second loop of the second
call. -/
theorem second_feature_seq (env : Env) (ix1 ix2 : Index) (ds : Nat → drop_state)
    (maxzoom : Nat) (basezoom : Int) (droprate gamma : ℚ)
    (hg : 0 ≤ gamma) (hd1 : droppable env ix1 = true)
    (hk : ix2.ix = ix1.ix) (z : Nat) (hz : z ≤ maxzoom) :
    (count_loop (env.decode ix2.ix).1 (env.decode ix2.ix).2 maxzoom
        (calc_feature_minzoom env ix1 (prep_drop_states ds maxzoom basezoom droprate)
          maxzoom gamma).2 z).seq = 2 - (prep_entry basezoom droprate z).interval := by
  have hcalc : calc_feature_minzoom env ix1 (prep_drop_states ds maxzoom basezoom droprate)
      maxzoom gamma =
      drop_loop maxzoom (count_loop (env.decode ix1.ix).1 (env.decode ix1.ix).2 maxzoom
        (prep_drop_states ds maxzoom basezoom droprate)) := by
    unfold calc_feature_minzoom
    simp only [if_pos (show gamma ≥ 0 ∧ droppable env ix1 = true from ⟨hg, hd1⟩)]
  rw [hcalc, hk]
  generalize (env.decode ix1.ix).1 = xx
  generalize (env.decode ix1.ix).2 = yy
  have hcnt : ∀ z, z ≤ maxzoom →
      count_loop xx yy maxzoom (prep_drop_states ds maxzoom basezoom droprate) z =
        count_entry xx yy z (prep_entry basezoom droprate z) := by
    intro z hz
    rw [count_loop_apply, if_pos hz, prep_drop_states_apply, if_pos hz]
  obtain ⟨e1, e2, e3, e4, e5⟩ := count_entry_prep_seq xx yy z basezoom droprate
  rcases drop_loop_spec maxzoom
      (count_loop xx yy maxzoom (prep_drop_states ds maxzoom basezoom droprate)) with
    ⟨_, _, h3⟩ | ⟨zs, hzs, _, h2, _, _⟩
  · rw [count_loop_apply, if_pos hz, h3, if_pos hz, hcnt z hz,
      count_entry_same_tile xx yy z _ e4 e5]
    simp only [include_entry, e1, e3]
    ring
  · exfalso
    rw [hcnt zs hzs, (count_entry_prep_seq xx yy zs basezoom droprate).1] at h2
    exact absurd h2 (by norm_num)

/-- The first stamp from a fresh state returns `0`. -/
theorem first_stamp_zero (env : Env) (ix : Index) (ds : Nat → drop_state)
    (maxzoom : Nat) (basezoom : Int) (droprate gamma : ℚ) :
    (calc_feature_minzoom env ix (prep_drop_states ds maxzoom basezoom droprate)
        maxzoom gamma).1 = 0 := by
  by_cases hact : gamma ≥ 0 ∧ droppable env ix = true
  · have hcalc : calc_feature_minzoom env ix (prep_drop_states ds maxzoom basezoom droprate)
        maxzoom gamma =
        drop_loop maxzoom (count_loop (env.decode ix.ix).1 (env.decode ix.ix).2 maxzoom
          (prep_drop_states ds maxzoom basezoom droprate)) := by
      unfold calc_feature_minzoom
      simp only [if_pos hact]
    rw [hcalc]
    rcases drop_loop_spec maxzoom
        (count_loop (env.decode ix.ix).1 (env.decode ix.ix).2 maxzoom
          (prep_drop_states ds maxzoom basezoom droprate)) with
      ⟨h1, _, _⟩ | ⟨zs, hzs, _, h2, _, _⟩
    · exact h1
    · exfalso
      rw [count_loop_apply, if_pos hzs, prep_drop_states_apply, if_pos hzs,
        (count_entry_prep_seq _ _ zs basezoom droprate).1] at h2
      exact absurd h2 (by norm_num)
  · unfold calc_feature_minzoom
    simp only [if_neg hact]

/-- Claim C9, as amended: for two droppable features with the same Morton key
stamped one after the other from a fresh state with `gamma ≥ 0`, if `interval`
exceeds `2` at some zoom `z ≤ maxzoom`, the second `feature_minzoom` is
strictly greater than the first. -/
theorem second_feature_minzoom_gt (env : Env) (ix1 ix2 : Index) (ds : Nat → drop_state)
    (maxzoom : Nat) (basezoom : Int) (droprate gamma : ℚ)
    (hg : 0 ≤ gamma) (hd1 : droppable env ix1 = true) (hd2 : droppable env ix2 = true)
    (hk : ix2.ix = ix1.ix) (z : Nat) (hz : z ≤ maxzoom)
    (hint : 2 < (prep_drop_states ds maxzoom basezoom droprate z).interval) :
    (calc_feature_minzoom env ix1 (prep_drop_states ds maxzoom basezoom droprate)
        maxzoom gamma).1 <
      (calc_feature_minzoom env ix2
        (calc_feature_minzoom env ix1 (prep_drop_states ds maxzoom basezoom droprate)
          maxzoom gamma).2 maxzoom gamma).1 := by
  rw [first_stamp_zero]
  rw [prep_drop_states_apply, if_pos hz] at hint
  have hseq := second_feature_seq env ix1 ix2 ds maxzoom basezoom droprate gamma hg hd1 hk
  generalize (calc_feature_minzoom env ix1 (prep_drop_states ds maxzoom basezoom droprate)
    maxzoom gamma).2 = s1 at hseq ⊢
  have hcalc : calc_feature_minzoom env ix2 s1 maxzoom gamma =
      drop_loop maxzoom (count_loop (env.decode ix2.ix).1 (env.decode ix2.ix).2 maxzoom s1) := by
    unfold calc_feature_minzoom
    simp only [if_pos (show gamma ≥ 0 ∧ droppable env ix2 = true from ⟨hg, hd2⟩)]
  rw [hcalc]
  rcases drop_loop_spec maxzoom
      (count_loop (env.decode ix2.ix).1 (env.decode ix2.ix).2 maxzoom s1) with
    ⟨_, h2, _⟩ | ⟨zs, _, h1, _, _, _⟩
  · exfalso
    have := h2 z hz
    rw [hseq z hz] at this
    linarith
  · rw [h1]
    omega

theorem second_feature_minzoom_gt_witness :
    (calc_feature_minzoom sample_env sample_point (prep_drop_states zero_states 1 1 3)
        1 0).1 <
      (calc_feature_minzoom sample_env sample_point
        (calc_feature_minzoom sample_env sample_point (prep_drop_states zero_states 1 1 3)
          1 0).2 1 0).1 :=
  second_feature_minzoom_gt sample_env sample_point sample_point zero_states 1 1 3 0
    (le_refl _) (by decide) (by decide) rfl 0 (by decide)
    (by rw [prep_drop_states_apply]; norm_num [prep_entry])

/-- Claim C9 fails as stated: with `droprate = 3 / 2`, `basezoom = 1` and
`maxzoom = 1` dropping is enabled at zoom `0` with `interval = 3 / 2 > 1`, and
two point features with the same key stamped from a fresh state with
`gamma = 0` both get `feature_minzoom = 0`. -/
theorem second_feature_minzoom_not_gt :
    (1 : ℚ) < 3 / 2 ∧ (0 : Int) < 1 ∧ (0 : Nat) ≤ 1 ∧
    1 < (prep_drop_states zero_states 1 1 (3 / 2) 0).interval ∧
    droppable sample_env sample_point = true ∧
    ¬ ((calc_feature_minzoom sample_env sample_point
          (prep_drop_states zero_states 1 1 (3 / 2)) 1 0).1 <
        (calc_feature_minzoom sample_env sample_point
          (calc_feature_minzoom sample_env sample_point
            (prep_drop_states zero_states 1 1 (3 / 2)) 1 0).2 1 0).1) := by
  decide!

/-! ## The output step -/

theorem emit_features_keeps_availfiles (env : Env) (maxzoom : Nat) (gamma : ℚ)
    (fs : List Feature) (st : SortState) :
    (emit_features env maxzoom gamma fs st).availfiles = st.availfiles := by
  induction fs generalizing st with
  | nil => rfl
  | cons f fs ih =>
    simp only [emit_features, List.foldl_cons] at ih ⊢
    rw [ih]
    rfl

/-! ## `insert` and `merge` -/

theorem merge_loop_eq (env : Env) (map : List Index) (geom_map : List Int) (maxzoom : Nat)
    (gamma : ℚ) (fuel : Nat) (head : List mergelist) (st : SortState) :
    merge_loop env map geom_map maxzoom gamma fuel head st =
      (merge_order env map fuel head).foldl
        (fun s ix => emit env geom_map maxzoom gamma ix s) st := by
  induction fuel generalizing head st with
  | zero => rfl
  | succ fuel ih =>
    cases head with
    | nil => rfl
    | cons h rest =>
      simp only [merge_loop, merge_order, List.foldl_cons]
      exact ih _ _

theorem run_sort_loop_keeps (env : Env) (a : sort_arg) (hu : 0 < a.unit) (fuel k0 : Nat)
    (s : (Nat → mergelist) × List Index) (k : Nat)
    (hk : s.1 k = segment_of a.unit a.indexpos k) :
    (run_sort_loop env a fuel (k0 * a.unit) s).1 k = segment_of a.unit a.indexpos k := by
  induction fuel generalizing k0 s with
  | zero => exact hk
  | succ fuel ih =>
    unfold run_sort_loop
    by_cases h : k0 * a.unit < a.indexpos
    · have hnext : k0 * a.unit + a.unit * a.cpus = (k0 + a.cpus) * a.unit := by ring
      simp only [if_pos h]
      rw [hnext]
      apply ih
      simp only
      rw [Nat.mul_div_cancel _ hu]
      by_cases hkk : k = k0
      · subst hkk
        rw [Function.update_same]
        rfl
      · rw [Function.update_noteq hkk]
        exact hk
    · simp only [if_neg h]
      exact hk

theorem run_sort_loop_sets (env : Env) (a : sort_arg) (hu : 0 < a.unit) (hc : 0 < a.cpus)
    (fuel k0 : Nat) (s : (Nat → mergelist) × List Index) (j : Nat)
    (hj : (k0 + j * a.cpus) * a.unit < a.indexpos)
    (hfuel : a.indexpos ≤ k0 * a.unit + fuel) :
    (run_sort_loop env a fuel (k0 * a.unit) s).1 (k0 + j * a.cpus) =
      segment_of a.unit a.indexpos (k0 + j * a.cpus) := by
  induction fuel generalizing k0 s j with
  | zero =>
    exfalso
    have : k0 * a.unit ≤ (k0 + j * a.cpus) * a.unit :=
      Nat.mul_le_mul_right _ (Nat.le_add_right _ _)
    omega
  | succ fuel ih =>
    have hstart : k0 * a.unit < a.indexpos :=
      lt_of_le_of_lt (Nat.mul_le_mul_right _ (Nat.le_add_right _ _)) hj
    have hnext : k0 * a.unit + a.unit * a.cpus = (k0 + a.cpus) * a.unit := by ring
    have hpos : 0 < a.unit * a.cpus := Nat.mul_pos hu hc
    unfold run_sort_loop
    simp only [if_pos hstart]
    rw [hnext]
    cases j with
    | zero =>
      simp only [Nat.zero_mul, Nat.add_zero]
      apply run_sort_loop_keeps env a hu
      simp only
      rw [Nat.mul_div_cancel _ hu, Function.update_same]
      rfl
    | succ j =>
      have e : k0 + (j + 1) * a.cpus = (k0 + a.cpus) + j * a.cpus := by ring
      rw [e]
      apply ih
      · rw [← e]
        exact hj
      · rw [← hnext]
        omega

theorem run_sort_tasks_sets (env : Env) (cpus indexpos unit bytes : Nat) (hu : 0 < unit)
    (hc : 0 < cpus) (tasks : List Nat) (s : (Nat → mergelist) × List Index) (k : Nat)
    (hk : k * unit < indexpos)
    (h : s.1 k = segment_of unit indexpos k ∨ k % cpus ∈ tasks) :
    (tasks.foldl
      (fun s a =>
        run_sort env { task := a, cpus := cpus, indexpos := indexpos, unit := unit,
                       bytes := bytes } s) s).1 k = segment_of unit indexpos k := by
  induction tasks generalizing s with
  | nil =>
    rcases h with h | h
    · exact h
    · exact absurd h (List.not_mem_nil _)
  | cons t tasks ih =>
    rw [List.foldl_cons]
    apply ih
    rcases h with h | h
    · left
      exact run_sort_loop_keeps env
        { task := t, cpus := cpus, indexpos := indexpos, unit := unit, bytes := bytes } hu _ _ s k h
    · rcases List.mem_cons.mp h with h | h
      · left
        have hkd : k = t + (k / cpus) * cpus := by
          rw [← h]
          have := Nat.div_add_mod k cpus
          rw [Nat.mul_comm] at this
          omega
        have := run_sort_loop_sets env
          { task := t, cpus := cpus, indexpos := indexpos, unit := unit, bytes := bytes } hu hc
          indexpos t s (k / cpus) (by rw [← hkd]; exact hk) (Nat.le_add_left _ _)
        rw [← hkd] at this
        exact this
      · right
        exact h

/-! ## The in-memory branch -/

theorem sort_unit_spec (env : Env) (hp : 0 < env.page) (indexpos : Nat) :
    env.page ∣ sort_unit env indexpos ∧ 0 < sort_unit env indexpos := by
  unfold sort_unit
  simp only
  split_ifs with h1 h2 h3
  · exact ⟨dvd_refl _, hp⟩
  · exact ⟨Dvd.intro_left _ rfl, by omega⟩
  · exact ⟨dvd_refl _, hp⟩
  · exact ⟨Dvd.intro_left _ rfl, by omega⟩

theorem take_min_length (l : List Index) (a : Nat) : l.take (min a l.length) = l.take a := by
  rw [← List.take_take, List.take_length]

theorem nmerges_spec (indexpos unit : Nat) (hu : 0 < unit) :
    (∀ k, k < (indexpos + unit - 1) / unit → k * unit < indexpos) ∧
      indexpos ≤ (indexpos + unit - 1) / unit * unit := by
  have h1 := Nat.div_add_mod (indexpos + unit - 1) unit
  have h2 := Nat.mod_lt (indexpos + unit - 1) hu
  have h3 : unit * ((indexpos + unit - 1) / unit) = (indexpos + unit - 1) / unit * unit :=
    Nat.mul_comm _ _
  constructor
  · intro k hk
    have h4 : (k + 1) * unit ≤ (indexpos + unit - 1) / unit * unit :=
      Nat.mul_le_mul_right _ hk
    have h5 : (k + 1) * unit = k * unit + unit := by ring
    omega
  · omega

/-- `log2_floor` with enough fuel is the integer logarithm: the greatest `b`
with `2 ^ b ≤ n`. -/
theorem log2_floor_spec (fuel n : Nat) (hf : n ≤ fuel) (hn : 1 ≤ n) :
    2 ^ log2_floor fuel n ≤ n ∧ n < 2 ^ (log2_floor fuel n + 1) := by
  induction fuel generalizing n with
  | zero => omega
  | succ fuel ih =>
    unfold log2_floor
    by_cases h : n < 2
    · rw [if_pos h]
      have : n = 1 := by omega
      subst this
      norm_num
    · rw [if_neg h]
      obtain ⟨h1, h2⟩ := ih (n / 2) (by omega) (by omega)
      rw [pow_succ, pow_succ]
      rw [pow_succ] at h2
      constructor <;> omega

theorem splitbits_of_spec (splits : Nat) (hs : 1 ≤ splits) :
    2 ^ splitbits_of splits ≤ splits ∧ splits < 2 ^ (splitbits_of splits + 1) :=
  log2_floor_spec splits splits (le_refl _) hs


theorem fold_availfiles (handle : SortState → Nat → Except Failure SortState)
    (H : ∀ i s s2, handle s i = .ok s2 → s2.availfiles = s.availfiles + 2)
    (l : List Nat) (s s2 : SortState) (h : l.foldlM handle s = .ok s2) :
    s2.availfiles = s.availfiles + 2 * (l.length : Int) := by
  induction l generalizing s with
  | nil =>
    simp only [List.foldlM_nil, pure, Except.pure] at h
    injection h with h
    subst h
    simp
  | cons i l ih =>
    rw [List.foldlM_cons] at h
    cases h1 : handle s i with
    | error e =>
      rw [h1] at h
      simp [bind, Except.bind] at h
    | ok s1 =>
      rw [h1] at h
      simp only [bind, Except.bind] at h
      rw [ih s1 h, H i s s1 h1]
      simp only [List.length_cons, Nat.cast_add, Nat.cast_one]
      ring

/-- On return `radix1` has given back every descriptor it took and two more
for each input it closed. -/
theorem radix1_availfiles_eq (env : Env) (maxzoom : Nat) (gamma : ℚ) (mem : Nat) (fuel : Nat) :
    ∀ (inputs : List FilePair) (pfx splits : Nat) (st st2 : SortState),
      radix1 env maxzoom gamma mem fuel inputs pfx splits st = .ok st2 →
      st2.availfiles = st.availfiles + 2 * (inputs.length : Int) := by
  induction fuel with
  | zero =>
    intro inputs pfx splits st st2 h
    simp [radix1] at h
  | succ fuel ih =>
    intro inputs pfx splits st st2 h
    rw [radix1] at h
    by_cases h1 : splits = 0
    · rw [if_pos h1] at h
      cases h
    rw [if_neg h1] at h
    simp only at h
    by_cases h2 : splitbits_of splits = 0 ∧ (inputs.any fun f => !f.index.isEmpty) = true
    · rw [if_pos h2] at h
      cases h
    rw [if_neg h2] at h
    have hf := fold_availfiles _ ?_ _ _ _ h
    · rw [hf]
      simp only [List.length_range]
      push_cast
      ring
    · intro i s s2 hs
      simp only at hs
      split_ifs at hs with c1 c2 c3
      · injection hs with hs
        rw [← hs]
      · injection hs with hs
        rw [← hs]
      · have := ih _ _ _ _ _ hs
        rw [this]
        simp
      · injection hs with hs
        rw [← hs]

theorem emitted_index_length (fs : List Feature) (pos : Nat) :
    (emitted_index fs pos).length = fs.length := by
  induction fs generalizing pos with
  | nil => rfl
  | cons f fs ih => simp [emitted_index, ih]

/-- The records written from position `pos` on follow one another without gap
and are not empty, and the geometry written ends where the last record
ends. -/
theorem emitted_index_chain (env : Env) (maxzoom : Nat) (gamma : ℚ) (fs : List Feature)
    (pos : Nat) (ds : Nat → drop_state) :
    (∀ r, (emitted_index fs pos)[0]? = some r → r.start = pos) ∧
    (∀ j a b, (emitted_index fs pos)[j]? = some a → (emitted_index fs pos)[j + 1]? = some b →
      b.start = a.end_) ∧
    (∀ r ∈ emitted_index fs pos, r.start < r.end_) ∧
    (∀ r, (emitted_index fs pos).getLast? = some r →
      r.end_ = pos + (emitted_geom env maxzoom gamma fs ds).length) := by
  induction fs generalizing pos ds with
  | nil => simp [emitted_index]
  | cons f fs ih =>
    obtain ⟨i1, i2, i3, i4⟩ := ih (pos + f.blob.length + 1)
      (calc_feature_minzoom env (emitted_record f 0) ds maxzoom gamma).2
    refine ⟨?_, ?_, ?_, ?_⟩
    · intro r hr
      simp only [emitted_index, List.getElem?_cons_zero, Option.some.injEq] at hr
      rw [← hr]
      rfl
    · intro j a b ha hb
      cases j with
      | zero =>
        simp only [emitted_index, List.getElem?_cons_zero, Option.some.injEq] at ha
        simp only [emitted_index, List.getElem?_cons_succ] at hb
        rw [i1 b hb, ← ha]
        rfl
      | succ j =>
        simp only [emitted_index, List.getElem?_cons_succ] at ha hb
        exact i2 j a b ha hb
    · intro r hr
      simp only [emitted_index, List.mem_cons] at hr
      rcases hr with hr | hr
      · rw [hr]
        simp only [emitted_record]
        omega
      · exact i3 r hr
    · intro r hr
      simp only [emitted_index] at hr
      simp only [emitted_geom, List.length_append, List.length_cons, List.length_nil]
      cases hfs : emitted_index fs (pos + f.blob.length + 1) with
      | nil =>
        rw [hfs] at hr
        simp only [List.getLast?_singleton, Option.some.injEq] at hr
        have hl := emitted_index_length fs (pos + f.blob.length + 1)
        rw [hfs] at hl
        have hnil : fs = [] := List.length_eq_zero.mp hl.symm
        subst hnil
        rw [← hr]
        simp only [emitted_record, emitted_geom, List.length_nil]
        omega
      | cons x xs =>
        rw [hfs] at hr
        rw [List.getLast?_cons_cons] at hr
        rw [← hfs] at hr
        have := i4 r hr
        rw [this]
        omega

theorem sample_insert_perm (a : Index) (l : List Index) : (sample_insert a l).Perm (a :: l) := by
  induction l with
  | nil => exact List.Perm.refl _
  | cons b l ih =>
    unfold sample_insert
    split_ifs
    · exact List.Perm.refl _
    · exact (List.Perm.cons b ih).trans (List.Perm.swap a b l)

theorem sample_qsort_perm (l : List Index) : (sample_qsort l).Perm l := by
  induction l with
  | nil => exact List.Perm.refl _
  | cons a l ih =>
    unfold sample_qsort
    exact (sample_insert_perm a _).trans (List.Perm.cons a ih)

theorem sample_env_valid : sample_env.Valid :=
  { cpus_pos := by decide
    bytes_pos := by decide
    page_pos := by decide
    aligned := ⟨128, by decide⟩
    qsort_perm := sample_qsort_perm }

set_option maxRecDepth 100000 in
theorem sample_result_eq :
    radix1 sample_env 2 0 100000 64 sample_lanes 0 2 sample_state = .ok sample_result := by
  rfl

/-- Claim C1 fails on the code: `radix` run with 1500 descriptors and the
8192-byte memory setting of `prefer_radix_sort` on two lanes whose features
have the same key returns with the feature of sequence number 2048 written
before the feature of sequence number 1024, an adjacent pair on which
`indexcmp` is `1`. -/
theorem radix_output_not_sorted :
    output_keys (radix sample_env 1500 0 unsorted_lanes [] [] 0 2 1 2 0 zero_states) =
        some [(2 ^ 64 - 1, 2048), (2 ^ 64 - 1, 1024)] ∧
      indexcmp { start := 0, end_ := 2049, ix := 2 ^ 64 - 1, segment := 0, t := 3, seq := 2048 }
        { start := 2049, end_ := 4098, ix := 2 ^ 64 - 1, segment := 1, t := 3, seq := 1024 } = 1 := by
  decide!

theorem mismatched_index_false (rs : List Index)
    (hc : ∀ j a b, rs[j]? = some a → rs[j + 1]? = some b → b.start = a.end_)
    (ip : Nat) (h0 : 0 < ip) (h1 : ip < rs.length) : mismatched_index rs ip = false := by
  unfold mismatched_index
  have e : ip - 1 + 1 = ip := by omega
  have ha : rs[ip - 1]? = some (rs.getD (ip - 1) default) := by
    rw [List.getD_eq_getElem?_getD, List.getElem?_eq_getElem (show ip - 1 < rs.length by omega)]
    rfl
  have hb : rs[ip - 1 + 1]? = some (rs.getD ip default) := by
    rw [e, List.getD_eq_getElem?_getD, List.getElem?_eq_getElem h1]
    rfl
  have := hc (ip - 1) _ _ ha hb
  rw [this, bne_self_eq_false, Bool.and_false]

theorem fold_never (handle : SortState → Nat → Except Failure SortState) (e0 : Failure)
    (H : ∀ i s, handle s i ≠ .error e0) (l : List Nat) (s : SortState) :
    l.foldlM handle s ≠ .error e0 := by
  induction l generalizing s with
  | nil =>
    intro hc
    simp only [List.foldlM_nil, pure, Except.pure] at hc
    cases hc
  | cons i l ih =>
    rw [List.foldlM_cons]
    cases h1 : handle s i with
    | error e =>
      intro hc
      simp only [bind, Except.bind] at hc
      injection hc with hc
      subst hc
      exact H i s h1
    | ok s1 =>
      simp only [bind, Except.bind]
      exact ih s1

theorem radix1_never_miscounted (env : Env) (maxzoom : Nat) (gamma : ℚ) (mem : Nat)
    (fuel : Nat) :
    ∀ (inputs : List FilePair) (pfx splits : Nat) (st : SortState),
      radix1 env maxzoom gamma mem fuel inputs pfx splits st ≠ .error .miscounted := by
  induction fuel with
  | zero =>
    intro inputs pfx splits st hc
    simp [radix1] at hc
  | succ fuel ih =>
    intro inputs pfx splits st
    rw [radix1]
    by_cases h1 : splits = 0
    · rw [if_pos h1]
      exact fun hc => by cases hc
    rw [if_neg h1]
    simp only
    by_cases h2 : splitbits_of splits = 0 ∧ (inputs.any fun f => !f.index.isEmpty) = true
    · rw [if_pos h2]
      exact fun hc => by cases hc
    rw [if_neg h2]
    apply fold_never
    intro i s
    split_ifs
    · exact fun hc => by cases hc
    · exact fun hc => by cases hc
    · exact ih _ _ _ _
    · exact fun hc => by cases hc

theorem radix_not_miscounted (env : Env) (MAX_FILES : Int) (phys_mem : Nat)
    (readers : List FilePair) (geomfile : List Int) (indexfile : List Index) (geompos : Nat)
    (maxzoom : Nat) (basezoom : Int) (droprate gamma : ℚ) (ds0 : Nat → drop_state) :
    radix env MAX_FILES phys_mem readers geomfile indexfile geompos maxzoom basezoom droprate
      gamma ds0 ≠ .error .miscounted := by
  unfold radix
  simp only
  split
  · rename_i e he
    intro hc
    injection hc with hc
    subst hc
    exact radix1_never_miscounted _ _ _ _ _ _ _ _ _ he
  · rename_i st hst
    have ha := radix1_availfiles_eq _ _ _ _ _ _ _ _ _ _ hst
    have hm : miscounted st.availfiles readers.length
        (MAX_FILES - 2 * (readers.length : Int) - 4 - 4 - 3) = false := by
      unfold miscounted
      rw [ha]
      simp
    rw [if_neg (by rw [hm]; exact Bool.false_ne_true)]
    exact fun hc => by cases hc

/-- Claim C10: when `radix1` returns, `*availfiles` is its entry value plus
`2 * inputs`, so the test of line 957 is false and `radix` never takes its
`miscounted available file descriptors` exit. -/
theorem radix1_restores_availfiles (env : Env) (maxzoom : Nat) (gamma : ℚ) (mem fuel : Nat)
    (inputs : List FilePair) (pfx splits : Nat) (st st2 : SortState)
    (h : radix1 env maxzoom gamma mem fuel inputs pfx splits st = .ok st2) :
    st2.availfiles = st.availfiles + 2 * (inputs.length : Int) ∧
    miscounted st2.availfiles inputs.length st.availfiles = false ∧
    ∀ (MAX_FILES : Int) (phys_mem : Nat) (geomfile : List Int) (indexfile : List Index)
      (geompos : Nat) (basezoom : Int) (droprate : ℚ) (ds0 : Nat → drop_state),
      radix env MAX_FILES phys_mem inputs geomfile indexfile geompos maxzoom basezoom droprate
        gamma ds0 ≠ .error .miscounted := by
  have ha := radix1_availfiles_eq env maxzoom gamma mem fuel inputs pfx splits st st2 h
  refine ⟨ha, ?_, ?_⟩
  · unfold miscounted
    rw [ha]
    simp
  · intro MAX_FILES phys_mem geomfile indexfile geompos basezoom droprate ds0
    exact radix_not_miscounted env MAX_FILES phys_mem inputs geomfile indexfile geompos maxzoom
      basezoom droprate gamma ds0

theorem radix1_restores_availfiles_witness :
    sample_result.availfiles = sample_state.availfiles + 2 * (sample_lanes.length : Int) ∧
    miscounted sample_result.availfiles sample_lanes.length sample_state.availfiles = false ∧
    ∀ (MAX_FILES : Int) (phys_mem : Nat) (geomfile : List Int) (indexfile : List Index)
      (geompos : Nat) (basezoom : Int) (droprate : ℚ) (ds0 : Nat → drop_state),
      radix sample_env MAX_FILES phys_mem sample_lanes geomfile indexfile geompos 2 basezoom
        droprate 0 ds0 ≠ .error .miscounted :=
  radix1_restores_availfiles sample_env 2 0 100000 64 sample_lanes 0 2 sample_state
    sample_result sample_result_eq

/-! ## The recursion budget of the embedding -/

theorem split_inputs_of_empty (pfx splitbits : Nat) (inputs : List FilePair)
    (parts : Nat → Partition) (h : ∀ f ∈ inputs, f.index = []) :
    split_inputs pfx splitbits inputs parts = parts := by
  unfold split_inputs
  induction inputs generalizing parts with
  | nil => rfl
  | cons f inputs ih =>
    rw [List.foldl_cons, h f (List.mem_cons_self _ _), List.foldl_nil]
    exact ih _ (fun x hx => h x (List.mem_cons_of_mem _ hx))

/-- Every recursive call of `radix1` has a larger `prefix`, and none is made
from `prefix + splitbits ≥ 64` on, so a budget of `64 - prefix` levels (and
at least one) is never used up: with it the embedding returns or stops at an
undefined operation of the C code. -/
theorem radix1_fuel_suffices (env : Env) (maxzoom : Nat) (gamma : ℚ) (mem : Nat) (fuel : Nat) :
    ∀ (inputs : List FilePair) (pfx splits : Nat) (st : SortState),
      64 ≤ fuel + pfx → 1 ≤ fuel →
      radix1 env maxzoom gamma mem fuel inputs pfx splits st ≠ .error .out_of_fuel := by
  induction fuel with
  | zero =>
    intro inputs pfx splits st _ h1
    omega
  | succ fuel ih =>
    intro inputs pfx splits st hf _
    rw [radix1]
    by_cases h1 : splits = 0
    · rw [if_pos h1]
      exact fun hc => by cases hc
    rw [if_neg h1]
    simp only
    by_cases h2 : splitbits_of splits = 0 ∧ (inputs.any fun f => !f.index.isEmpty) = true
    · rw [if_pos h2]
      exact fun hc => by cases hc
    rw [if_neg h2]
    apply fold_never
    intro i s
    split_ifs with c1 c2 c3
    · exact fun hc => by cases hc
    · exact fun hc => by cases hc
    · have hany : (inputs.any fun f => !f.index.isEmpty) = true := by
        by_contra hn
        have hall : ∀ f ∈ inputs, f.index = [] := by
          intro f hf
          by_contra hne
          apply hn
          rw [List.any_eq_true]
          refine ⟨f, hf, ?_⟩
          cases hfi : f.index with
          | nil => exact absurd hfi hne
          | cons a l => rfl
        rw [split_inputs_of_empty pfx _ inputs _ hall] at c1
        simp at c1
      have hsb : splitbits_of splits ≠ 0 := fun h0 => h2 ⟨h0, hany⟩
      have hlt : pfx + splitbits_of splits < 64 := by
        by_contra hge
        exact c3 (Or.inr (by omega))
      exact ih _ _ _ _ (by omega) (by omega)
    · exact fun hc => by cases hc

/-- With the budget of `radix1_fuel_suffices` the embedded `radix1` returns,
unless the C code executes an undefined operation. -/
theorem radix1_returns_or_undefined (env : Env) (maxzoom : Nat) (gamma : ℚ) (mem fuel : Nat)
    (inputs : List FilePair) (pfx splits : Nat) (st : SortState)
    (hf : 64 ≤ fuel + pfx) (h1 : 1 ≤ fuel) :
    (∃ st2, radix1 env maxzoom gamma mem fuel inputs pfx splits st = .ok st2) ∨
      radix1 env maxzoom gamma mem fuel inputs pfx splits st = .error .undefined_behaviour := by
  cases hr : radix1 env maxzoom gamma mem fuel inputs pfx splits st with
  | ok st2 => exact Or.inl ⟨st2, rfl⟩
  | error e =>
    right
    cases e with
    | undefined_behaviour => rfl
    | out_of_fuel =>
      exact absurd hr (radix1_fuel_suffices env maxzoom gamma mem fuel inputs pfx splits st hf h1)
    | miscounted =>
      exact absurd hr (radix1_never_miscounted env maxzoom gamma mem fuel inputs pfx splits st)

/-! ## The sort unit -/

theorem round_up_le (u page top : Nat) (hp : 0 < page) (hd : page ∣ top) (hu : u ≤ top) :
    (u + page - 1) / page * page ≤ top := by
  obtain ⟨k, rfl⟩ := hd
  have h1 : (u + page - 1) / page ≤ k := by
    rw [Nat.div_le_iff_le_mul_add_pred hp]
    omega
  calc (u + page - 1) / page * page ≤ k * page := Nat.mul_le_mul_right _ h1
    _ = page * k := Nat.mul_comm _ _

/-- Claim C16, counterexample: with 48-byte index records, 4096-byte pages and one
worker, the sort unit for an index file of one record is 4096, which is not a
multiple of the record size. -/
theorem sort_unit_not_record_aligned :
    0 < 48 ∧ 1 ≤ wide_env.CPUS ∧ wide_env.bytes = 48 ∧ sort_unit wide_env 48 = 4096 ∧
      ¬ wide_env.bytes ∣ sort_unit wide_env 48 := by
  decide

/-- Claim C16, amended: when the record size divides the page size and the page
size divides 2 GiB, the sort unit is a positive multiple of the page size and of
the record size, is at most 2 GiB, and every segment start `k * unit` is a
multiple of both. -/
theorem sort_unit_aligned (env : Env) (indexpos : Nat) (hp : 0 < env.page)
    (hb : env.bytes ∣ env.page) (h2g : env.page ∣ 2 * 1024 * 1024 * 1024) :
    0 < sort_unit env indexpos ∧ env.page ∣ sort_unit env indexpos ∧
      env.bytes ∣ sort_unit env indexpos ∧ sort_unit env indexpos ≤ 2 * 1024 * 1024 * 1024 ∧
      ∀ k : Nat, env.page ∣ k * sort_unit env indexpos ∧ env.bytes ∣ k * sort_unit env indexpos := by
  have hle : sort_unit env indexpos ≤ 2 * 1024 * 1024 * 1024 := by
    unfold sort_unit
    simp only
    have hpage : env.page ≤ 2 * 1024 * 1024 * 1024 := Nat.le_of_dvd (by norm_num) h2g
    split_ifs with h1 h2 h3
    · exact hpage
    · exact round_up_le _ _ _ hp h2g (le_refl _)
    · exact hpage
    · exact round_up_le _ _ _ hp h2g (by omega)
  obtain ⟨hd, hpos⟩ := sort_unit_spec env hp indexpos
  exact ⟨hpos, hd, dvd_trans hb hd, hle,
    fun k => ⟨Dvd.dvd.mul_left hd k, Dvd.dvd.mul_left (dvd_trans hb hd) k⟩⟩

theorem sort_unit_aligned_witness :
    0 < sample_env.page ∧ sample_env.bytes ∣ sample_env.page ∧
      (0 < sort_unit sample_env 96 ∧ sample_env.page ∣ sort_unit sample_env 96 ∧
        sample_env.bytes ∣ sort_unit sample_env 96 ∧ sort_unit sample_env 96 ≤ 2 * 1024 * 1024 * 1024 ∧
        ∀ k : Nat, sample_env.page ∣ k * sort_unit sample_env 96 ∧
          sample_env.bytes ∣ k * sort_unit sample_env 96) :=
  ⟨by decide, by decide, sort_unit_aligned sample_env 96 (by decide) (by decide) (by decide)⟩

/-! ## The base zoom -/

theorem select_loop_spec (count : Nat → Int) (max_features : Int) (z : Nat) (b : Int) :
    ((∃ y, y ≤ z ∧ count y < max_features) →
      ∃ y : Nat, select_loop count max_features z b = (y : Int) ∧ y ≤ z ∧
        count y < max_features ∧ ∀ x, x < y → ¬ count x < max_features) ∧
    ((∀ y, y ≤ z → ¬ count y < max_features) → select_loop count max_features z b = b) := by
  induction z generalizing b with
  | zero =>
    constructor
    · rintro ⟨y, hy, hc⟩
      have : y = 0 := by omega
      subst this
      refine ⟨0, ?_, le_refl _, hc, fun x hx => absurd hx (by omega)⟩
      simp [select_loop, hc]
    · intro h
      simp [select_loop, h 0 (le_refl _)]
  | succ z ih =>
    rw [select_loop]
    by_cases hlow : ∃ y, y ≤ z ∧ count y < max_features
    · obtain ⟨y, h1, h2, h3, h4⟩ := (ih _).1 hlow
      exact ⟨fun _ => ⟨y, h1, by omega, h3, h4⟩, fun h => by
        obtain ⟨y0, hy0, hc0⟩ := hlow
        exact absurd hc0 (h y0 (by omega))⟩
    · have hnone : ∀ y, y ≤ z → ¬ count y < max_features := fun y hy hc => hlow ⟨y, hy, hc⟩
      rw [(ih _).2 hnone]
      constructor
      · rintro ⟨y, hy, hc⟩
        have hyz : y = z + 1 := by
          by_contra hne
          exact hnone y (by omega) hc
        subst hyz
        refine ⟨z + 1, by rw [if_pos hc], le_refl _, hc, fun x hx => hnone x (by omega)⟩
      · intro h
        rw [if_neg (h (z + 1) (le_refl _))]

/-- Claim C17: the first selection loop yields the lowest zoom `z` in
`[0, MAX_ZOOM]` with `max[z].count < max_features` when there is one, and
`MAX_ZOOM` when there is none. -/
theorem first_selection_lowest (MAX_ZOOM : Nat) (count : Nat → Int) (max_features : Int) :
    ((∃ z, z ≤ MAX_ZOOM ∧ count z < max_features) →
      ∃ z : Nat, first_selection MAX_ZOOM count max_features = (z : Int) ∧ z ≤ MAX_ZOOM ∧
        count z < max_features ∧ ∀ y, y < z → ¬ count y < max_features) ∧
    ((∀ z, z ≤ MAX_ZOOM → ¬ count z < max_features) →
      first_selection MAX_ZOOM count max_features = (MAX_ZOOM : Int)) :=
  select_loop_spec count max_features MAX_ZOOM MAX_ZOOM

/-- Both cases of `first_selection_lowest` at concrete profiles: with counts
`90000, 60000, 40000, 10000, ...` and a cap of `50000` the choice is zoom `2`; with
every count at the cap the choice is `MAX_ZOOM = 24`. -/
theorem first_selection_lowest_witness :
    first_selection 24 (fun z => if z = 0 then 90000 else if z = 1 then 60000
        else if z = 2 then 40000 else 10000) 50000 = 2 ∧
      first_selection 24 (fun _ => 50000) 50000 = 24 := by
  decide

/-- Claim C18, counterexample: when the densest tile of every zoom holds
`50000` features, `max_features` is `50000` and `maxzoom` is `MAX_ZOOM = 24`, the
automatic choice is base zoom `24` and nothing is recomputed, though
`max[24].count` is not below `max_features`. -/
theorem choose_basezoom_not_below_cap :
    choose_basezoom 24 (fun _ => 50000) 50000 (fun _ => 0) 24 (-1) = 24 ∧
      ¬ ((fun _ : Nat => (50000 : Int)) 24 < 50000) := by
  decide

/-- Claim C18, amended: when the base zoom is chosen automatically and some zoom
`z ≤ maxzoom` (with `maxzoom ≤ MAX_ZOOM`) has `max[z].count < max_features`, the
base zoom that `read_input` goes on with is the lowest such zoom `b`; it
satisfies `max[b].count < max_features` and `b ≤ maxzoom`. -/
theorem choose_basezoom_below_cap (MAX_ZOOM : Nat) (count : Nat → Int) (max_features : Int)
    (zoomdiff : Nat → ℚ) (maxzoom : Nat) (basezoom : Int) (hauto : basezoom < 0)
    (hmax : maxzoom ≤ MAX_ZOOM) (hsome : ∃ z, z ≤ maxzoom ∧ count z < max_features) :
    ∃ b : Nat, choose_basezoom MAX_ZOOM count max_features zoomdiff maxzoom basezoom = (b : Int) ∧
      b ≤ maxzoom ∧ count b < max_features ∧ ∀ y, y < b → ¬ count y < max_features := by
  obtain ⟨z, hz, hc⟩ := hsome
  obtain ⟨b, hb, hbm, hbc, hlow⟩ :=
    (select_loop_spec count max_features MAX_ZOOM MAX_ZOOM).1 ⟨z, by omega, hc⟩
  have hbz : b ≤ z := by
    by_contra hlt
    exact hlow z (by omega) hc
  refine ⟨b, ?_, by omega, hbc, hlow⟩
  unfold choose_basezoom first_selection
  simp only [if_pos hauto, hb]
  rw [if_neg]
  intro h
  have := h.2
  omega

theorem choose_basezoom_below_cap_witness :
    ∃ b : Nat, choose_basezoom 24 (fun z => if z = 0 then 90000 else if z = 1 then 60000
        else if z = 2 then 40000 else 10000) 50000 (fun _ => 0) 14 (-1) = (b : Int) ∧
      b ≤ 14 ∧ (fun z => if z = 0 then 90000 else if z = 1 then 60000
        else if z = 2 then 40000 else (10000 : Int)) b < 50000 ∧
      ∀ y, y < b → ¬ (fun z => if z = 0 then 90000 else if z = 1 then 60000
        else if z = 2 then 40000 else (10000 : Int)) y < 50000 :=
  choose_basezoom_below_cap 24 _ 50000 (fun _ => 0) 14 (-1) (by decide) (by decide)
    ⟨2, by decide, by decide⟩

/-! ## `init_cpus` -/

/-- For a count that fits a `size_t` unchanged, `cpus_of` is the largest power
of two not above `min (max c 1) 32767`. -/
theorem cpus_of_nonneg (c : Int) (h0 : 0 ≤ c) (h64 : c < 2 ^ 64) :
    (∃ k, cpus_of c = 2 ^ k) ∧ (cpus_of c : Int) ≤ min (max c 1) 32767 ∧
      min (max c 1) 32767 < 2 * (cpus_of c : Int) := by
  refine ⟨⟨_, rfl⟩, ?_⟩
  unfold cpus_of
  simp only
  rw [Int.emod_eq_of_lt h0 h64]
  obtain ⟨n, rfl⟩ := Int.eq_ofNat_of_zero_le h0
  simp only [Int.toNat_ofNat]
  have key : ∀ m : Nat, 1 ≤ m →
      ((2 ^ log2_floor m m : Nat) : Int) ≤ (m : Int) ∧ (m : Int) < 2 * ((2 ^ log2_floor m m : Nat) : Int) := by
    intro m hm
    obtain ⟨h1, h2⟩ := log2_floor_spec m m (le_refl _) hm
    rw [pow_succ] at h2
    constructor <;> omega
  by_cases h1 : n < 1
  · rw [if_pos h1]
    have hn : n = 0 := by omega
    subst hn
    simp [log2_floor]
  · rw [if_neg h1]
    by_cases h2 : n > 32767
    · rw [if_pos h2]
      have hm : min (max (n : Int) 1) 32767 = ((32767 : Nat) : Int) := by
        rw [max_eq_left (by omega), min_eq_right (by omega)]
        rfl
      rw [hm]
      exact key 32767 (by norm_num)
    · rw [if_neg h2]
      have hm : min (max (n : Int) 1) 32767 = (n : Int) := by
        rw [max_eq_left (by omega), min_eq_left (by omega)]
      rw [hm]
      exact key n (by omega)

/-- The worker count is between `1` and `16384` for every value `c`. -/
theorem cpus_of_bounds (c : Int) : 1 ≤ cpus_of c ∧ cpus_of c ≤ 16384 := by
  unfold cpus_of
  simp only
  have key : ∀ m : Nat, 1 ≤ m → m ≤ 32767 →
      1 ≤ 2 ^ log2_floor m m ∧ 2 ^ log2_floor m m ≤ 16384 := by
    intro m hm hle
    obtain ⟨h1, h2⟩ := log2_floor_spec m m (le_refl _) hm
    refine ⟨Nat.one_le_two_pow, ?_⟩
    have hlt : log2_floor m m < 15 := by
      by_contra hge
      have : 2 ^ 15 ≤ 2 ^ log2_floor m m := Nat.pow_le_pow_right (by norm_num) (by omega)
      omega
    calc 2 ^ log2_floor m m ≤ 2 ^ 14 := Nat.pow_le_pow_right (by norm_num) (by omega)
      _ = 16384 := by norm_num
  split_ifs with h1 h2 h3
  · omega
  · exact key 1 (le_refl _) (by norm_num)
  · exact key 32767 (by norm_num) (le_refl _)
  · exact key _ (by omega) (by omega)

/-- Claim C19, the failing input: for the count `-1` (the value of
`TIPPECANOE_MAX_THREADS=-1`, or of a failing `sysconf`) the conversion to the
unsigned `CPUS` gives `2 ^ 64 - 1`, the test `CPUS < 1` does not fire, and
`init_cpus` sets `CPUS = 16384`, whereas `min (max c 1) 32767 = 1`. -/
theorem cpus_of_negative_count :
    cpus_of (-1) = 16384 ∧ min (max (-1 : Int) 1) 32767 = 1 ∧
      ¬ ((cpus_of (-1) : Int) ≤ min (max (-1 : Int) 1) 32767) := by
  decide

theorem probe_files_le (opens : Nat → Bool) (MAX_FILES fuel i : Nat) (hi : i ≤ MAX_FILES) :
    probe_files opens MAX_FILES fuel i ≤ MAX_FILES := by
  induction fuel generalizing i with
  | zero => exact hi
  | succ fuel ih =>
    rw [probe_files]
    split_ifs with h1 h2
    · exact ih _ (by omega)
    · exact hi
    · exact hi

/-- What `init_cpus` guarantees about its results when it returns. -/
theorem init_cpus_spec (c : Int) (rlim_cur : Option Nat) (opens : Nat → Bool) (l : Limits)
    (h : init_cpus c rlim_cur opens = some l) :
    l.CPUS = cpus_of c ∧ 32 ≤ l.MAX_FILES ∧ l.MAX_FILES ≤ 1500 ∧
      (l.TEMP_FILES : Int) = min ((l.MAX_FILES - 10) / 2) (4 * (l.CPUS : Int)) := by
  unfold init_cpus at h
  cases rlim_cur with
  | none => simp at h
  | some cur =>
    simp only at h
    have hM : (if cur > 2000 then 2000 else cur) ≤ 2000 := by split_ifs <;> omega
    have hle := probe_files_le opens (if cur > 2000 then 2000 else cur)
      (if cur > 2000 then 2000 else cur) 0 (Nat.zero_le _)
    generalize probe_files opens (if cur > 2000 then 2000 else cur)
      (if cur > 2000 then 2000 else cur) 0 = i at h hle
    by_cases h1 : (i : Int) * 3 / 4 < 32
    · rw [if_pos h1] at h
      simp at h
    · rw [if_neg h1] at h
      simp only [Option.some.injEq] at h
      subst h
      simp only
      refine ⟨trivial, by omega, by omega, ?_⟩
      have hnn : 0 ≤ ((i : Int) * 3 / 4 - 10) / 2 := by omega
      by_cases h2 : (((i : Int) * 3 / 4 - 10) / 2).toNat > cpus_of c * 4
      · rw [if_pos h2, min_eq_right (by omega)]
        push_cast
        ring
      · rw [if_neg h2, min_eq_left (by omega), Int.toNat_of_nonneg hnn]

/-- The budget of `radix` is at least `4`, so that `splits ≥ 1`, exactly when
`MAX_FILES ≥ 2 * nreaders + 15`. -/
theorem availfiles_of_ge (MAX_FILES : Int) (nreaders : Nat) :
    4 ≤ availfiles_of MAX_FILES nreaders ↔ 2 * (nreaders : Int) + 15 ≤ MAX_FILES := by
  unfold availfiles_of
  omega

/-- Claim C20, counterexample: with 16 processors and 43 descriptors that can be
opened, `init_cpus` accepts `MAX_FILES = 32` and keeps `CPUS = 16` (only
`TEMP_FILES` is limited by `MAX_FILES`); the budget of `radix` is then `-11`, and
`radix` enters `radix1` with a split count below `1`. -/
theorem init_cpus_budget_negative :
    init_cpus 16 (some 43) (fun _ => true) =
        some { CPUS := 16, MAX_FILES := 32, TEMP_FILES := 11 } ∧
      availfiles_of 32 16 = -11 ∧ (availfiles_of 32 16 / 4).toNat = 0 ∧
      radix { sample_env with CPUS := 16 } 32 0
        (List.replicate 16 { geom := [], index := [] }) [] [] 0 0 0 1 0 zero_states =
        .error .undefined_behaviour :=
  ⟨by decide, by decide, by decide, by rfl⟩


/-! ## The split points of `do_read_parallel` -/

theorem scan_separator_spec (map : List Int) (len : Nat) (separator : Int) (fuel p : Nat)
    (hf : len ≤ p + fuel) (hp : p ≤ len) :
    p ≤ scan_separator map len separator fuel p ∧
      scan_separator map len separator fuel p ≤ len ∧
      (scan_separator map len separator fuel p < len →
        map[scan_separator map len separator fuel p]? = some separator) ∧
      ∀ q, p ≤ q → q < scan_separator map len separator fuel p → map[q]? ≠ some separator := by
  induction fuel generalizing p with
  | zero =>
    rw [scan_separator]
    exact ⟨le_refl _, hp, fun h => absurd h (by omega), fun q h1 h2 => absurd h2 (by omega)⟩
  | succ fuel ih =>
    rw [scan_separator]
    by_cases h : p < len ∧ map[p]? ≠ some separator
    · rw [if_pos h]
      obtain ⟨h1, h2, h3, h4⟩ := ih (p + 1) (by omega) (by omega)
      refine ⟨by omega, h2, h3, fun q hq1 hq2 => ?_⟩
      by_cases hqp : q = p
      · subst hqp
        exact h.2
      · exact h4 q (by omega) hq2
    · rw [if_neg h]
      refine ⟨le_refl _, hp, fun hlt => ?_, fun q h1 h2 => absurd h2 (by omega)⟩
      by_contra hne
      exact h ⟨hlt, hne⟩

theorem segs_fold (f : Nat → Nat) (n : Nat) (s0 : Nat → Nat) (i : Nat) :
    (List.range n).foldl (fun s k => Function.update s (k + 1) (f (k + 1))) s0 i =
      if 1 ≤ i ∧ i ≤ n then f i else s0 i := by
  induction n with
  | zero =>
    rw [List.range_zero, List.foldl_nil, if_neg (by omega)]
  | succ n ih =>
    rw [List.range_succ, List.foldl_append, List.foldl_cons, List.foldl_nil]
    by_cases h : i = n + 1
    · subst h
      rw [Function.update_same, if_pos (by omega)]
    · rw [Function.update_noteq h, ih]
      by_cases h2 : 1 ≤ i ∧ i ≤ n
      · rw [if_pos h2, if_pos (by omega)]
      · rw [if_neg h2, if_neg (by omega)]

theorem segs_eq (map : List Int) (len : Nat) (separator : Int) (N : Nat) (i : Nat) :
    segs map len separator N i =
      if 1 ≤ i ∧ i ≤ N - 1 then scan_separator map len separator len (len * i / N)
      else if i = N then len else 0 := by
  unfold segs
  rw [segs_fold (fun j => scan_separator map len separator len (len * j / N))]
  by_cases h : 1 ≤ i ∧ i ≤ N - 1
  · rw [if_pos h, if_pos h]
  · rw [if_neg h, if_neg h]
    by_cases h2 : i = N
    · subst h2
      rw [Function.update_same, if_pos rfl]
    · rw [Function.update_noteq h2, if_neg h2]
      by_cases h3 : i = 0
      · subst h3
        rw [Function.update_same]
      · rw [Function.update_noteq h3]

theorem floor_le_len (len i N : Nat) (hi : i ≤ N) : len * i / N ≤ len := by
  rcases Nat.eq_zero_or_pos N with h | h
  · subst h
    simp
  · rw [Nat.div_le_iff_le_mul_add_pred h]
    have : len * i ≤ len * N := Nat.mul_le_mul_left _ hi
    rw [Nat.mul_comm N len]
    omega

theorem floor_mono (len i j N : Nat) (hij : i ≤ j) : len * i / N ≤ len * j / N :=
  Nat.div_le_div_right (Nat.mul_le_mul_left _ hij)

/-- The split points in the interior: bounds, the separator at the split point
and none before it. -/
theorem segs_interior (map : List Int) (len : Nat) (separator : Int) (N i : Nat)
    (h0 : 0 < i) (hN : i < N) :
    len * i / N ≤ segs map len separator N i ∧ segs map len separator N i ≤ len ∧
      (segs map len separator N i < len →
        map[segs map len separator N i]? = some separator) ∧
      ∀ p, len * i / N ≤ p → p < segs map len separator N i → map[p]? ≠ some separator := by
  rw [segs_eq, if_pos (by omega)]
  exact scan_separator_spec map len separator len _ (Nat.le_add_left _ _) (floor_le_len len i N (by omega))

theorem segs_zero (map : List Int) (len : Nat) (separator : Int) (N : Nat) (hN : 1 ≤ N) :
    segs map len separator N 0 = 0 := by
  rw [segs_eq, if_neg (by omega), if_neg (by omega)]

theorem segs_last (map : List Int) (len : Nat) (separator : Int) (N : Nat) (hN : 1 ≤ N) :
    segs map len separator N N = len := by
  rw [segs_eq, if_neg (by omega), if_pos rfl]

theorem segs_step (map : List Int) (len : Nat) (separator : Int) (N i : Nat) (hN : 1 ≤ N)
    (hi : i < N) : segs map len separator N i ≤ segs map len separator N (i + 1) := by
  by_cases h0 : i = 0
  · subst h0
    rw [segs_zero map len separator N hN]
    exact Nat.zero_le _
  · obtain ⟨a1, a2, a3, a4⟩ := segs_interior map len separator N i (by omega) hi
    by_cases h1 : i + 1 = N
    · rw [h1, segs_last map len separator N hN]
      exact a2
    · obtain ⟨b1, b2, b3, b4⟩ := segs_interior map len separator N (i + 1) (by omega) (by omega)
      by_contra hlt
      have hlt2 : segs map len separator N (i + 1) < segs map len separator N i := by omega
      have hfl := floor_mono len i (i + 1) N (by omega)
      exact a4 _ (by omega) hlt2 (b3 (by omega))

theorem segs_mono (map : List Int) (len : Nat) (separator : Int) (N : Nat) (hN : 1 ≤ N)
    (i j : Nat) (hij : i ≤ j) (hj : j ≤ N) :
    segs map len separator N i ≤ segs map len separator N j := by
  induction j with
  | zero =>
    have : i = 0 := by omega
    subst this
    exact le_refl _
  | succ j ih =>
    by_cases h : i = j + 1
    · subst h
      exact le_refl _
    · exact le_trans (ih (by omega) (by omega)) (segs_step map len separator N j hN (by omega))

theorem slice_exists (s : Nat → Nat) (N : Nat) (h0 : s 0 = 0) (p : Nat) (hp : p < s N) :
    ∃ i, i < N ∧ s i ≤ p ∧ p < s (i + 1) := by
  induction N with
  | zero => omega
  | succ N ih =>
    by_cases h : p < s N
    · obtain ⟨i, h1, h2, h3⟩ := ih h
      exact ⟨i, by omega, h2, h3⟩
    · exact ⟨N, by omega, by omega, hp⟩

/-- Claim C13: for `N = CPUS ≥ 1`, `segs[0] = 0`, `segs[N] = len`; each interior
split point is at least `len * i / N`, at most `len`, holds the separator unless
it is `len`, and no position from `len * i / N` up to it holds the separator (it
is the least such position, or `len`); the split points are non-decreasing, and
every position below `len` lies in exactly one slice `[segs[i], segs[i+1])`. -/
theorem segs_spec (map : List Int) (len : Nat) (separator : Int) (N : Nat) (hN : 1 ≤ N) :
    segs map len separator N 0 = 0 ∧ segs map len separator N N = len ∧
      (∀ i, 0 < i → i < N →
        len * i / N ≤ segs map len separator N i ∧ segs map len separator N i ≤ len ∧
        (segs map len separator N i < len →
          map[segs map len separator N i]? = some separator) ∧
        ∀ p, len * i / N ≤ p → p < segs map len separator N i → map[p]? ≠ some separator) ∧
      (∀ i, i < N → segs map len separator N i ≤ segs map len separator N (i + 1)) ∧
      (∀ p, p < len → ∃! i, i < N ∧ segs map len separator N i ≤ p ∧
        p < segs map len separator N (i + 1)) := by
  refine ⟨segs_zero map len separator N hN, segs_last map len separator N hN,
    fun i h0 hi => segs_interior map len separator N i h0 hi,
    fun i hi => segs_step map len separator N i hN hi, fun p hp => ?_⟩
  obtain ⟨i, h1, h2, h3⟩ := slice_exists (segs map len separator N) N
    (segs_zero map len separator N hN) p (by rw [segs_last map len separator N hN]; exact hp)
  refine ⟨i, ⟨h1, h2, h3⟩, fun j ⟨j1, j2, j3⟩ => ?_⟩
  by_contra hne
  rcases Nat.lt_or_gt_of_ne hne with hlt | hgt
  · have := segs_mono map len separator N hN (j + 1) i (by omega) (by omega)
    omega
  · have := segs_mono map len separator N hN (i + 1) j (by omega) (by omega)
    omega

/-- The split points of the 12-byte buffer `a\nbb\nccc\ndd\n` (separator `10`) for
four workers: `0, 4, 8, 11, 12`. -/
theorem segs_spec_witness :
    1 ≤ 4 ∧ (List.range 5).map (segs [97, 10, 98, 98, 10, 99, 99, 99, 10, 100, 100, 10] 12 10 4) =
        [0, 4, 8, 11, 12] ∧
      (segs [97, 10, 98, 98, 10, 99, 99, 99, 10, 100, 100, 10] 12 10 4 0 = 0 ∧
        segs [97, 10, 98, 98, 10, 99, 99, 99, 10, 100, 100, 10] 12 10 4 4 = 12) :=
  ⟨by decide, by decide,
    (segs_spec [97, 10, 98, 98, 10, 99, 99, 99, 10, 100, 100, 10] 12 10 4 (by decide)).1,
    (segs_spec [97, 10, 98, 98, 10, 99, 99, 99, 10, 100, 100, 10] 12 10 4 (by decide)).2.1⟩

/-- Claim C14: lane `i` starts at `initial_offset + segs[i]`; when lane `i` assigns
the `k i` consecutive numbers `layer_seq[i] + a`, `a < k i`, and `k i` is at most
the number of bytes of its slice, every number of lane `i` is below every number
of a lane `j > i`, and the numbers of all lanes are pairwise distinct. -/
theorem layer_seq_ordered (map : List Int) (len : Nat) (separator : Int) (N : Nat)
    (initial_offset : Int) (k : Nat → Nat) (hN : 1 ≤ N)
    (hk : ∀ i, i < N → k i ≤ segs map len separator N (i + 1) - segs map len separator N i) :
    (∀ i, i < N → layer_seq map len separator N initial_offset i =
        initial_offset + (segs map len separator N i : Int)) ∧
      (∀ i j a b, i < j → j < N → a < k i → b < k j →
        layer_seq map len separator N initial_offset i + (a : Int) <
          layer_seq map len separator N initial_offset j + (b : Int)) ∧
      (∀ i j a b, i < N → j < N → a < k i → b < k j →
        layer_seq map len separator N initial_offset i + (a : Int) =
          layer_seq map len separator N initial_offset j + (b : Int) → i = j ∧ a = b) := by
  have hlt : ∀ i j a, i < j → j < N → a < k i →
      segs map len separator N i + a < segs map len separator N j := by
    intro i j a hij hj ha
    have h1 := hk i (by omega)
    have h2 := segs_mono map len separator N hN (i + 1) j (by omega) (by omega)
    have h3 := segs_step map len separator N i hN (by omega)
    omega
  refine ⟨fun i _ => by unfold layer_seq; ring, ?_, ?_⟩
  · intro i j a b hij hj ha hb
    have := hlt i j a hij hj ha
    unfold layer_seq
    omega
  · intro i j a b hi hj ha hb heq
    unfold layer_seq at heq
    rcases Nat.lt_trichotomy i j with h | h | h
    · have := hlt i j a h hj ha
      omega
    · subst h
      exact ⟨rfl, by omega⟩
    · have := hlt j i b h hi hb
      omega

/-- The theorem at the buffer of `segs_spec_witness` with initial offset `100`,
the lanes emitting `2, 1, 0, 1` features: lane 1 starts at `104`. -/
theorem layer_seq_ordered_witness :
    (∀ i, i < 4 → (fun i => if i = 0 then 2 else if i = 2 then 0 else 1) i ≤
        segs [97, 10, 98, 98, 10, 99, 99, 99, 10, 100, 100, 10] 12 10 4 (i + 1) -
          segs [97, 10, 98, 98, 10, 99, 99, 99, 10, 100, 100, 10] 12 10 4 i) ∧
      layer_seq [97, 10, 98, 98, 10, 99, 99, 99, 10, 100, 100, 10] 12 10 4 100 1 = 104 ∧
      ∀ i, i < 4 → layer_seq [97, 10, 98, 98, 10, 99, 99, 99, 10, 100, 100, 10] 12 10 4 100 i =
        100 + (segs [97, 10, 98, 98, 10, 99, 99, 99, 10, 100, 100, 10] 12 10 4 i : Int) :=
  ⟨by decide, by decide,
    (layer_seq_ordered [97, 10, 98, 98, 10, 99, 99, 99, 10, 100, 100, 10] 12 10 4 100
      (fun i => if i = 0 then 2 else if i = 2 then 0 else 1) (by decide) (by decide)).1⟩

/-! ## The merge of the lanes' attribute files -/

theorem sum_before_succ (f : Nat → Nat) (n : Nat) : sum_before f (n + 1) = sum_before f n + f n := by
  unfold sum_before
  exact List.sum_range_succ f n

theorem sum_before_mono (f : Nat → Nat) (i n : Nat) (h : i ≤ n) : sum_before f i ≤ sum_before f n := by
  induction n with
  | zero =>
    have : i = 0 := by omega
    subst this
    exact le_refl _
  | succ n ih =>
    by_cases hi : i = n + 1
    · subst hi
      exact le_refl _
    · have := ih (by omega)
      rw [sum_before_succ]
      omega

theorem append_chunk (out file : List Int) (m : Nat) :
    (if m > 0 then out ++ file.take m else out) = out ++ file.take m := by
  by_cases h : m > 0
  · rw [if_pos h]
  · have : m = 0 := by omega
    subst this
    simp

/-- One file of the merge, on its own: appending the first `size i` bytes of
`file i` for `i = 0, 1, ...` to a file that holds `sum_before size n` bytes keeps
the bytes already placed and places the bytes of lane `n`. -/
theorem chunk_placed (size : Nat → Nat) (file : Nat → List Int) (out : List Int) (n : Nat)
    (hfit : size n ≤ (file n).length) (hlen : out.length = sum_before size n)
    (hprev : ∀ i k, i < n → k < size i → out[sum_before size i + k]? = (file i)[k]?) :
    (out ++ (file n).take (size n)).length = sum_before size (n + 1) ∧
      ∀ i k, i < n + 1 → k < size i →
        (out ++ (file n).take (size n))[sum_before size i + k]? = (file i)[k]? := by
  constructor
  · rw [List.length_append, List.length_take, hlen, sum_before_succ, min_eq_left hfit]
  · intro i k hi hk
    by_cases hin : i = n
    · subst hin
      rw [List.getElem?_append_right (by omega), hlen, Nat.add_sub_cancel_left,
        List.getElem?_take_of_lt hk]
    · have h1 : sum_before size (i + 1) ≤ sum_before size n :=
        sum_before_mono size (i + 1) n (by omega)
      rw [sum_before_succ] at h1
      rw [List.getElem?_append_left (by omega)]
      exact hprev i k (by omega) hk

theorem merge_lanes_inv (readers : Nat → reader) (CPUS : Nat)
    (hfit : ∀ i, i < CPUS → (readers i).metapos ≤ (readers i).metafile.length ∧
      (readers i).pool_off ≤ (readers i).pool_map.length) (n : Nat) (hn : n ≤ CPUS) :
    (merge_lanes n readers).metapos = (sum_before (fun j => (readers j).metapos) n : Int) ∧
    (merge_lanes n readers).poolpos = (sum_before (fun j => (readers j).pool_off) n : Int) ∧
    (merge_lanes n readers).metafile.length = sum_before (fun j => (readers j).metapos) n ∧
    (merge_lanes n readers).poolfile.length = sum_before (fun j => (readers j).pool_off) n ∧
    (∀ i, (merge_lanes n readers).meta_off i =
      if i < n then (sum_before (fun j => (readers j).metapos) i : Int) else 0) ∧
    (∀ i, (merge_lanes n readers).pool_off i =
      if i < n then (sum_before (fun j => (readers j).pool_off) i : Int) else 0) ∧
    (∀ i k, i < n → k < (readers i).metapos →
      (merge_lanes n readers).metafile[sum_before (fun j => (readers j).metapos) i + k]? =
        (readers i).metafile[k]?) ∧
    (∀ i k, i < n → k < (readers i).pool_off →
      (merge_lanes n readers).poolfile[sum_before (fun j => (readers j).pool_off) i + k]? =
        (readers i).pool_map[k]?) := by
  induction n with
  | zero =>
    refine ⟨rfl, rfl, rfl, rfl, fun i => ?_, fun i => ?_, fun i k hi => absurd hi (by omega),
      fun i k hi => absurd hi (by omega)⟩
    · rw [if_neg (by omega)]
      rfl
    · rw [if_neg (by omega)]
      rfl
  | succ n ih =>
    obtain ⟨h1, h2, h3, h4, h5, h6, h7, h8⟩ := ih (by omega)
    have hstep : merge_lanes (n + 1) readers = merge_lane readers (merge_lanes n readers) n := by
      unfold merge_lanes
      rw [List.range_succ, List.foldl_append, List.foldl_cons, List.foldl_nil]
    obtain ⟨f1, f2⟩ := hfit n (by omega)
    obtain ⟨m1, m2⟩ := chunk_placed (fun j => (readers j).metapos)
      (fun j => (readers j).metafile) _ n f1 h3 h7
    obtain ⟨p1, p2⟩ := chunk_placed (fun j => (readers j).pool_off)
      (fun j => (readers j).pool_map) _ n f2 h4 h8
    rw [hstep]
    unfold merge_lane
    simp only [append_chunk]
    refine ⟨?_, ?_, m1, p1, fun i => ?_, fun i => ?_, m2, p2⟩
    · rw [h1, sum_before_succ]
      push_cast
      rfl
    · rw [h2, sum_before_succ]
      push_cast
      rfl
    · by_cases hi : i = n
      · subst hi
        rw [Function.update_same, if_pos (by omega), h1]
      · rw [Function.update_noteq hi, h5]
        by_cases hlt : i < n
        · rw [if_pos hlt, if_pos (by omega)]
        · rw [if_neg hlt, if_neg (by omega)]
    · by_cases hi : i = n
      · subst hi
        rw [Function.update_same, if_pos (by omega), h2]
      · rw [Function.update_noteq hi, h6]
        by_cases hlt : i < n
        · rw [if_pos hlt, if_pos (by omega)]
        · rw [if_neg hlt, if_neg (by omega)]

/-- Claim C15: after the merge loop, for every lane `i < CPUS`, `meta_off[i]` and
`pool_off[i]` are the sums of `readers[j].metapos` and of
`readers[j].poolfile->off` over `j < i`; the final `metapos` and `poolpos` are the
sums over all lanes; byte `k` of lane `i` is byte `meta_off[i] + k`
(`pool_off[i] + k`) of the merged file; and the entries `CPUS .. 2 * CPUS - 1` of
both tables are `0`.  Each lane's file holds at least the bytes that its
position counts. -/
theorem merge_lanes_spec (CPUS : Nat) (readers : Nat → reader)
    (hfit : ∀ i, i < CPUS → (readers i).metapos ≤ (readers i).metafile.length ∧
      (readers i).pool_off ≤ (readers i).pool_map.length) :
    (∀ i, i < CPUS →
      (merge_lanes CPUS readers).meta_off i =
          (sum_before (fun j => (readers j).metapos) i : Int) ∧
        (merge_lanes CPUS readers).pool_off i =
          (sum_before (fun j => (readers j).pool_off) i : Int)) ∧
    (merge_lanes CPUS readers).metapos = (sum_before (fun j => (readers j).metapos) CPUS : Int) ∧
    (merge_lanes CPUS readers).poolpos = (sum_before (fun j => (readers j).pool_off) CPUS : Int) ∧
    (∀ i k, i < CPUS → k < (readers i).metapos →
      (merge_lanes CPUS readers).metafile[((merge_lanes CPUS readers).meta_off i).toNat + k]? =
        (readers i).metafile[k]?) ∧
    (∀ i k, i < CPUS → k < (readers i).pool_off →
      (merge_lanes CPUS readers).poolfile[((merge_lanes CPUS readers).pool_off i).toNat + k]? =
        (readers i).pool_map[k]?) ∧
    (∀ i, CPUS ≤ i → i < 2 * CPUS →
      (merge_lanes CPUS readers).meta_off i = 0 ∧ (merge_lanes CPUS readers).pool_off i = 0) := by
  obtain ⟨h1, h2, _, _, h5, h6, h7, h8⟩ := merge_lanes_inv readers CPUS hfit CPUS (le_refl _)
  refine ⟨fun i hi => ?_, h1, h2, fun i k hi hk => ?_, fun i k hi hk => ?_, fun i hi _ => ?_⟩
  · rw [h5, h6, if_pos hi, if_pos hi]
    exact ⟨rfl, rfl⟩
  · rw [h5, if_pos hi, Int.toNat_ofNat]
    exact h7 i k hi hk
  · rw [h6, if_pos hi, Int.toNat_ofNat]
    exact h8 i k hi hk
  · rw [h5, h6, if_neg (by omega), if_neg (by omega)]
    exact ⟨rfl, rfl⟩

/-- The theorem at three sample lanes with `2, 0, 3` attribute bytes and `1, 0, 2`
pool bytes: the offsets of lane 2 are `2` and `1`, the totals `5` and `3`. -/
theorem merge_lanes_spec_witness :
    (∀ i, i < 3 → (sample_readers i).metapos ≤ (sample_readers i).metafile.length ∧
      (sample_readers i).pool_off ≤ (sample_readers i).pool_map.length) ∧
    (merge_lanes 3 sample_readers).metafile = [1, 2, 3, 4, 5] ∧
    (merge_lanes 3 sample_readers).poolfile = [10, 11, 12] ∧
    (merge_lanes 3 sample_readers).meta_off 2 = 2 ∧
    (merge_lanes 3 sample_readers).metapos =
      (sum_before (fun j => (sample_readers j).metapos) 3 : Int) :=
  ⟨by decide, by decide, by decide, by decide,
    (merge_lanes_spec 3 sample_readers (by decide)).2.1⟩


/-! ## The descriptor count of `radix1`, step by step -/

theorem trace_fold_error (handle : SortState → Nat → Except Failure SortState × List Event)
    (l : List Nat) (e : Failure) (ev : List Event) :
    trace_fold handle l (.error e, ev) = (.error e, ev) := by
  cases l <;> rfl

theorem trace_fold_fst (handle : SortState → Nat → Except Failure SortState × List Event)
    (l : List Nat) (s : SortState) (ev : List Event) :
    (trace_fold handle l (.ok s, ev)).1 = l.foldlM (fun s i => (handle s i).1) s := by
  induction l generalizing s ev with
  | nil => rfl
  | cons i l ih =>
    rw [List.foldlM_cons]
    show (trace_fold handle l ((handle s i).1, ev ++ (handle s i).2)).1 = _
    cases h : (handle s i).1 with
    | error e =>
      rw [trace_fold_error]
      rfl
    | ok s1 =>
      rw [ih]
      rfl

theorem trace_fold_events (Q : Event → Prop) (I : SortState → Prop)
    (handle : SortState → Nat → Except Failure SortState × List Event)
    (H : ∀ s i, I s → (∀ e ∈ (handle s i).2, Q e) ∧ ∀ s2, (handle s i).1 = .ok s2 → I s2)
    (l : List Nat) (acc : Except Failure SortState × List Event)
    (hev : ∀ e ∈ acc.2, Q e) (hI : ∀ s, acc.1 = .ok s → I s) :
    ∀ e ∈ (trace_fold handle l acc).2, Q e := by
  induction l generalizing acc with
  | nil => exact hev
  | cons i l ih =>
    obtain ⟨r, ev⟩ := acc
    cases r with
    | error e0 =>
      rw [trace_fold_error]
      exact hev
    | ok s =>
      show ∀ e ∈ (trace_fold handle l ((handle s i).1, ev ++ (handle s i).2)).2, Q e
      obtain ⟨h1, h2⟩ := H s i (hI s rfl)
      refine ih _ (fun e he => ?_) h2
      rcases List.mem_append.mp he with h | h
      · exact hev e h
      · exact h1 e h

/-- The record of events leaves the result alone: the first component of
`radix1_trace` is `radix1`. -/
theorem radix1_trace_fst (env : Env) (maxzoom : Nat) (gamma : ℚ) (mem : Nat) (fuel : Nat) :
    ∀ (inputs : List FilePair) (pfx splits : Nat) (st : SortState),
      (radix1_trace env maxzoom gamma mem fuel inputs pfx splits st).1 =
        radix1 env maxzoom gamma mem fuel inputs pfx splits st := by
  induction fuel with
  | zero =>
    intro inputs pfx splits st
    rfl
  | succ fuel ih =>
    intro inputs pfx splits st
    rw [radix1_trace, radix1]
    by_cases h1 : splits = 0
    · rw [if_pos h1, if_pos h1]
    rw [if_neg h1, if_neg h1]
    simp only
    by_cases h2 : splitbits_of splits = 0 ∧ (inputs.any fun f => !f.index.isEmpty) = true
    · rw [if_pos h2, if_pos h2]
    rw [if_neg h2, if_neg h2, trace_fold_fst]
    congr 1
    funext s i
    split_ifs
    · rfl
    · rfl
    · exact ih _ _ _ _
    · rfl

theorem avail_events_within (f : Nat → Int) (n : Nat) (h : ∀ i, i < n → 0 ≤ f i) :
    ∀ e ∈ (List.range n).map (fun i => Event.avail (f i)), e.within_budget := by
  intro e he
  obtain ⟨i, hi, rfl⟩ := List.mem_map.mp he
  exact h i (List.mem_range.mp hi)

theorem radix1_trace_budget (env : Env) (maxzoom : Nat) (gamma : ℚ) (mem : Nat) (fuel : Nat) :
    ∀ (inputs : List FilePair) (pfx splits : Nat) (st : SortState),
      1 ≤ inputs.length → 1 ≤ splits → (splits : Int) ≤ st.availfiles / 4 →
      ∀ e ∈ (radix1_trace env maxzoom gamma mem fuel inputs pfx splits st).2,
        e.within_budget := by
  induction fuel with
  | zero =>
    intro inputs pfx splits st _ _ _ e he
    simp [radix1_trace] at he
  | succ fuel ih =>
    intro inputs pfx splits st hin hs hav
    rw [radix1_trace, if_neg (by omega)]
    simp only
    have hS : (2 ^ splitbits_of splits : Nat) ≤ splits := (splitbits_of_spec splits hs).1
    have hS1 : 1 ≤ (2 ^ splitbits_of splits : Nat) := Nat.one_le_two_pow
    generalize (2 ^ splitbits_of splits : Nat) = S at hS hS1
    have hA : 4 * (S : Int) ≤ st.availfiles := by omega
    have hcreated : ∀ e ∈ (List.range S).map
        (fun (i : Nat) => Event.avail (st.availfiles - 4 * ((i : Int) + 1))), e.within_budget :=
      avail_events_within _ _ (fun i hi => by omega)
    by_cases h2 : splitbits_of splits = 0 ∧ (inputs.any fun f => !f.index.isEmpty) = true
    · rw [if_pos h2]
      intro e he
      rcases List.mem_append.mp he with h | h
      · exact hcreated e h
      · exact avail_events_within _ _ (fun i _ => by omega) e h
    rw [if_neg h2]
    refine trace_fold_events Event.within_budget (fun s => 4 ≤ s.availfiles) _ ?_ _ _ ?_ ?_
    · intro s i hI
      simp only at hI
      simp only
      split_ifs with c1 c2 c3
      · refine ⟨fun e he => ?_, fun s2 h => ?_⟩
        · rw [List.mem_singleton.mp he]
          show 0 ≤ s.availfiles + 2
          omega
        · injection h with h
          rw [← h]
          show 4 ≤ s.availfiles + 2
          omega
      · refine ⟨fun e he => ?_, fun s2 h => ?_⟩
        · rw [List.mem_singleton.mp he]
          show 0 ≤ s.availfiles + 2
          omega
        · injection h with h
          rw [← h]
          show 4 ≤ s.availfiles + 2
          omega
      · refine ⟨fun e he => ?_, fun s2 h => ?_⟩
        · rcases List.mem_cons.mp he with h | h
          · rw [h]
            exact ⟨le_refl _, by omega, le_refl _, rfl⟩
          · refine ih _ _ _ s (by simp) (by omega) ?_ e h
            rw [Int.toNat_of_nonneg (by omega)]
        · rw [radix1_trace_fst] at h
          have := radix1_availfiles_eq env maxzoom gamma mem fuel _ _ _ _ _ h
          rw [this]
          simp only [List.length_singleton, Nat.cast_one]
          omega
      · refine ⟨fun e he => ?_, fun s2 h => ?_⟩
        · rw [List.mem_singleton.mp he]
          show 0 ≤ s.availfiles + 2
          omega
        · injection h with h
          rw [← h]
          show 4 ≤ s.availfiles + 2
          omega
    · intro e he
      simp only at he
      rcases List.mem_append.mp he with h | h
      · rcases List.mem_append.mp h with h | h
        · exact hcreated e h
        · exact avail_events_within _ _ (fun i _ => by omega) e h
      · exact avail_events_within _ _ (fun i _ => by omega) e h
    · intro s h
      simp only at h
      injection h with h
      rw [← h]
      show 4 ≤ st.availfiles - 4 * (S : Int) + 2 * (inputs.length : Int) + 2 * (S : Int)
      omega

/-- Claim C11: when `radix1` is entered with `inputs ≥ 1` and
`1 ≤ splits ≤ *availfiles / 4`, every value stored into `*availfiles` during the
call, recursive calls included, is non-negative, and every recursive call is
entered with one input and `1 ≤ splits ≤ *availfiles / 4`, where `splits` is
`*availfiles / 4` at that moment. -/
theorem radix1_within_budget (env : Env) (maxzoom : Nat) (gamma : ℚ) (mem fuel : Nat)
    (inputs : List FilePair) (pfx splits : Nat) (st : SortState)
    (hinputs : 1 ≤ inputs.length) (hsplits : 1 ≤ splits)
    (hbudget : (splits : Int) ≤ st.availfiles / 4) :
    (radix1_trace env maxzoom gamma mem fuel inputs pfx splits st).1 =
        radix1 env maxzoom gamma mem fuel inputs pfx splits st ∧
      (∀ v, Event.avail v ∈ (radix1_trace env maxzoom gamma mem fuel inputs pfx splits st).2 →
        0 ≤ v) ∧
      (∀ n s a, Event.enter n s a ∈
          (radix1_trace env maxzoom gamma mem fuel inputs pfx splits st).2 →
        1 ≤ n ∧ 1 ≤ s ∧ s ≤ a / 4 ∧ s = a / 4) := by
  refine ⟨radix1_trace_fst env maxzoom gamma mem fuel inputs pfx splits st,
    fun v hv => radix1_trace_budget env maxzoom gamma mem fuel inputs pfx splits st
      hinputs hsplits hbudget _ hv,
    fun n s a h => radix1_trace_budget env maxzoom gamma mem fuel inputs pfx splits st
      hinputs hsplits hbudget _ h⟩

/-- The theorem at a lane of two records with the same key and a memory budget
of `0`, entered with `*availfiles = 8` and `splits = 2`: the run stores
`4, 0, 2, 4, 6, 8` and then recurses with `splits = 2` at `*availfiles = 8`. -/
theorem radix1_within_budget_witness :
    1 ≤ deep_lanes.length ∧ ((2 : Nat) : Int) ≤ sample_state.availfiles / 4 ∧
      (radix1_trace sample_env 2 0 0 3 deep_lanes 0 2 sample_state).2.take 7 =
        [.avail 4, .avail 0, .avail 2, .avail 4, .avail 6, .avail 8, .enter 1 2 8] ∧
      ∀ v, Event.avail v ∈ (radix1_trace sample_env 2 0 0 3 deep_lanes 0 2 sample_state).2 →
        0 ≤ v :=
  ⟨by decide, by decide, by decide!,
    (radix1_within_budget sample_env 2 0 0 3 deep_lanes 0 2 sample_state (by decide) (by decide)
      (by decide)).2.1⟩


/-! ## A split count of one -/

/-- With `splits = 1` there are no split bits: `radix1` shifts the key of the
first record by `64 - 0` bits (line 639), which is undefined, and the prefix that
it would pass on is its own. -/
theorem radix1_one_split (env : Env) (maxzoom : Nat) (gamma : ℚ) (mem fuel : Nat)
    (inputs : List FilePair) (pfx : Nat) (st : SortState)
    (h : inputs.any (fun f => !f.index.isEmpty) = true) :
    pfx + splitbits_of 1 = pfx ∧
      radix1 env maxzoom gamma mem (fuel + 1) inputs pfx 1 st = .error .undefined_behaviour := by
  have hsb : splitbits_of 1 = 0 := by decide
  refine ⟨by rw [hsb]; rfl, ?_⟩
  rw [radix1, if_neg (by decide)]
  simp only
  rw [if_pos ⟨hsb, h⟩]

/-- Claim C12, the failing inputs: with `splits = 1` the number of split bits is
`0` and `radix1` does not return on the sample lanes (the shift of line 639 is by
64 bits; the prefix passed on would be the caller's own); the same happens inside
the recursion for `splits = 2` and `*availfiles = 8` on a lane of two records with
equal keys, where the second recursive call gets `splits = 6 / 4 = 1`; and `radix`
gets to `splits = 1` from the limits that `init_cpus` accepts for 8 processors and
43 descriptors. -/
theorem radix1_one_split_undefined :
    splitbits_of 1 = 0 ∧
      radix1 sample_env 2 0 100000 64 sample_lanes 0 1 sample_state =
        .error .undefined_behaviour ∧
      radix1 sample_env 2 0 0 64 deep_lanes 0 2 sample_state = .error .undefined_behaviour ∧
      init_cpus 8 (some 43) (fun _ => true) =
        some { CPUS := 8, MAX_FILES := 32, TEMP_FILES := 11 } ∧
      (availfiles_of 32 8 / 4).toNat = 1 ∧
      radix { sample_env with CPUS := 8 } 32 0
        (sample_lanes ++ List.replicate 6 { geom := [], index := [] }) [] [] 0 2 1 2 0
        zero_states = .error .undefined_behaviour :=
  ⟨by decide, by rfl, by rfl, by decide, by decide, by rfl⟩

/-! ## The comparator and the layout of the record -/

/-- Claim C22, counterexample: two records with the same key, of which the first
has the smaller sequence number and the larger `geom_start`: `indexcmp` puts the
first before the second, the comparison in layout order the second before the
first. -/
theorem indexcmp_not_layout_order :
    indexcmp { start := 1, end_ := 2, ix := 0, segment := 0, t := 0, seq := 0 }
        { start := 0, end_ := 1, ix := 0, segment := 0, t := 0, seq := 1 } = -1 ∧
      layout_cmp { start := 1, end_ := 2, ix := 0, segment := 0, t := 0, seq := 0 }
        { start := 0, end_ := 1, ix := 0, segment := 0, t := 0, seq := 1 } = 1 := by
  decide

/-- Claim C22, amended: `indexcmp` is the lexicographic comparison of the two
fields `(morton_key, sequence)`: it returns the sign of the first difference, and
no other field takes part in the result. -/
theorem indexcmp_key_sequence_order (a b : Index) :
    indexcmp a b = lex_cmp [a.ix, a.seq] [b.ix, b.seq] ∧
      ∀ a2 b2 : Index, a2.ix = a.ix → a2.seq = a.seq → b2.ix = b.ix → b2.seq = b.seq →
        indexcmp a2 b2 = indexcmp a b := by
  constructor
  · unfold indexcmp
    simp only [lex_cmp]
  · intro a2 b2 h1 h2 h3 h4
    unfold indexcmp
    rw [h1, h2, h3, h4]

/-! ## `prep_drop_states` and the shift of the scale -/

/-- Claim C26, counterexample: at zoom `28`, which is within `maxzoom = 28`, the
shift count `64 - 2 * (z + 8)` is `-8`. -/
theorem scale_shift_negative :
    (28 : Nat) ≤ 28 ∧ scale_shift 28 = -8 ∧ ¬ (0 ≤ scale_shift 28 ∧ scale_shift 28 ≤ 63) := by
  decide

/-- Claim C26, amended: for `maxzoom ≤ 24` and every zoom `z ≤ maxzoom` the shift
count `64 - 2 * (z + 8)` lies in `[0, 63]`, and `prep_drop_states` sets `interval`
to `0` for `z ≥ basezoom` and `gap`, `previndex`, `seq`, `included`, `x` and `y` to
`0`. -/
theorem prep_drop_states_defined (ds : Nat → drop_state) (maxzoom : Nat) (basezoom : Int)
    (droprate : ℚ) (z : Nat) (hmax : maxzoom ≤ 24) (hz : z ≤ maxzoom) :
    0 ≤ scale_shift z ∧ scale_shift z ≤ 63 ∧
      (basezoom ≤ (z : Int) → (prep_drop_states ds maxzoom basezoom droprate z).interval = 0) ∧
      (prep_drop_states ds maxzoom basezoom droprate z).gap = 0 ∧
      (prep_drop_states ds maxzoom basezoom droprate z).previndex = 0 ∧
      (prep_drop_states ds maxzoom basezoom droprate z).seq = 0 ∧
      (prep_drop_states ds maxzoom basezoom droprate z).included = 0 ∧
      (prep_drop_states ds maxzoom basezoom droprate z).x = 0 ∧
      (prep_drop_states ds maxzoom basezoom droprate z).y = 0 := by
  rw [prep_drop_states_apply, if_pos hz]
  unfold scale_shift prep_entry
  refine ⟨by omega, by omega, fun hb => ?_, rfl, rfl, rfl, rfl, rfl, rfl⟩
  simp only
  rw [if_neg (by omega)]

theorem prep_drop_states_defined_witness :
    (24 : Nat) ≤ 24 ∧ scale_shift 24 = 0 ∧
      (0 ≤ scale_shift 24 ∧ scale_shift 24 ≤ 63 ∧
        (((3 : Int) ≤ ((24 : Nat) : Int)) →
          (prep_drop_states zero_states 24 3 2 24).interval = 0) ∧
        (prep_drop_states zero_states 24 3 2 24).gap = 0 ∧
        (prep_drop_states zero_states 24 3 2 24).previndex = 0 ∧
        (prep_drop_states zero_states 24 3 2 24).seq = 0 ∧
        (prep_drop_states zero_states 24 3 2 24).included = 0 ∧
        (prep_drop_states zero_states 24 3 2 24).x = 0 ∧
        (prep_drop_states zero_states 24 3 2 24).y = 0) :=
  ⟨by decide, by decide, prep_drop_states_defined zero_states 24 3 2 24 (by decide) (by decide)⟩

/-! ## `checkdisk` -/

theorem disk_used_fold (r : List reader) (u : Int) :
    r.foldl
        (fun used x =>
          used + ((x.metapos : Int) + 2 * (x.geompos : Int) + 2 * (x.indexpos : Int) +
            (x.pool_len : Int) + (x.tree_len : Int)))
        u =
      u + (r.map (fun x => (x.metapos : Int) + 2 * (x.geompos : Int) + 2 * (x.indexpos : Int) +
        (x.pool_len : Int) + (x.tree_len : Int))).sum := by
  induction r generalizing u with
  | nil => simp
  | cons x r ih =>
    rw [List.foldl_cons, ih, List.map_cons, List.sum_cons]
    ring

/-- Claim C24, counterexample: for one lane whose tree file holds 100 bytes, with
100 bytes free and no warning so far, `checkdisk` warns, although the usage
`2 * geom + 2 * index + attr + pool` is `0`. -/
theorem checkdisk_counts_tree :
    (checkdisk [tree_lane] 100 false).1 = true ∧ predicted_usage [tree_lane] = 0 ∧
      ¬ ((predicted_usage [tree_lane] : ℚ) > (100 : ℚ) * (9 / 10)) := by
  decide!

/-- Claim C24, amended: `checkdisk` warns exactly when it has not warned before
and the usage exceeds nine tenths of `diskfree`, where the usage is the sum over
the lanes of `metapos + 2 * geompos + 2 * indexpos + poolfile->len + treefile->len`;
it sets the flag when it warns and never clears it, so that after a warning no
call warns again. -/
theorem checkdisk_spec (r : List reader) (diskfree : Int) (warned : Bool) :
    disk_used r = (r.map (fun x => (x.metapos : Int) + 2 * (x.geompos : Int) +
        2 * (x.indexpos : Int) + (x.pool_len : Int) + (x.tree_len : Int))).sum ∧
      ((checkdisk r diskfree warned).1 = true ↔
        warned = false ∧ (disk_used r : ℚ) > (diskfree : ℚ) * (9 / 10)) ∧
      ((checkdisk r diskfree warned).2 = true ↔
        warned = true ∨ (checkdisk r diskfree warned).1 = true) ∧
      ∀ (r2 : List reader) (diskfree2 : Int),
        (checkdisk r diskfree warned).2 = true →
          (checkdisk r2 diskfree2 (checkdisk r diskfree warned).2).1 = false := by
  refine ⟨?_, ?_, ?_, ?_⟩
  · unfold disk_used
    rw [disk_used_fold, zero_add]
  · unfold checkdisk
    simp only
    split_ifs with h
    · simp [h.1, h.2]
    · simp only [Bool.false_eq_true, false_iff]
      intro hc
      exact h ⟨hc.2, hc.1⟩
  · unfold checkdisk
    simp only
    split_ifs with h
    · simp
    · simp
  · intro r2 diskfree2 hw
    rw [hw]
    unfold checkdisk
    simp

/-! ## The bucket of a key -/

theorem bucket_eq_bit_field (pfx splitbits key : Nat) (hp : pfx < 64) (hs : splitbits ≤ 64) :
    bucket pfx splitbits key =
      bit_field pfx (min 64 (pfx + splitbits)) key * 2 ^ (pfx + splitbits - 64) := by
  unfold bucket bit_field
  rw [Nat.shiftLeft_eq, Nat.shiftRight_eq_div_pow]
  have h64 : (2 : Nat) ^ 64 = 2 ^ (64 - pfx) * 2 ^ pfx := by
    rw [← pow_add]
    congr 1
    omega
  rw [h64, Nat.mul_mod_mul_right]
  by_cases h : pfx + splitbits ≤ 64
  · rw [min_eq_right h, Nat.sub_eq_zero_of_le h, pow_zero, Nat.mul_one]
    have h1 : (2 : Nat) ^ (64 - splitbits) = 2 ^ pfx * 2 ^ (64 - (pfx + splitbits)) := by
      rw [← pow_add]
      congr 1
      omega
    have h2 : (2 : Nat) ^ (64 - pfx) = 2 ^ (64 - (pfx + splitbits)) * 2 ^ (pfx + splitbits - pfx) := by
      rw [← pow_add]
      congr 1
      omega
    rw [h1, Nat.mul_comm (key % 2 ^ (64 - pfx)), Nat.mul_div_mul_left _ _ (by positivity), h2,
      Nat.mod_mul_right_div_self]
  · have hm : min 64 (pfx + splitbits) = 64 := min_eq_left (by omega)
    rw [hm, Nat.sub_self, pow_zero, Nat.div_one]
    have h1 : (2 : Nat) ^ pfx = 2 ^ (pfx + splitbits - 64) * 2 ^ (64 - splitbits) := by
      rw [← pow_add]
      congr 1
      omega
    rw [h1, ← Nat.mul_assoc, Nat.mul_div_cancel _ (by positivity)]

theorem top_bits_split (lo hi key : Nat) (h1 : lo ≤ hi) (h2 : hi ≤ 64) :
    top_bits hi key = top_bits lo key * 2 ^ (hi - lo) + bit_field lo hi key := by
  unfold top_bits bit_field
  have h : (2 : Nat) ^ (64 - lo) = 2 ^ (64 - hi) * 2 ^ (hi - lo) := by
    rw [← pow_add]
    congr 1
    omega
  rw [h, ← Nat.div_div_eq_div_mul, Nat.mul_comm]
  exact (Nat.div_add_mod _ _).symm

/-- Claim C27: for `0 ≤ prefix < 64` and `1 ≤ splitbits ≤ 64`, on keys that share
their top `prefix` bits the bucket is monotone; two such keys have the same bucket
exactly when they agree on the bits `[prefix, prefix + splitbits)` (as far as the
key has bits); a key in a lower bucket is smaller than a key in a higher bucket;
and keys in the same bucket share their top `min (64, prefix + splitbits)` bits. -/
theorem bucket_monotone (pfx splitbits a b : Nat) (hp : pfx < 64) (hs1 : 1 ≤ splitbits)
    (hs : splitbits ≤ 64) (htop : top_bits pfx a = top_bits pfx b) :
    (a ≤ b → bucket pfx splitbits a ≤ bucket pfx splitbits b) ∧
      (bucket pfx splitbits a = bucket pfx splitbits b ↔
        bit_field pfx (min 64 (pfx + splitbits)) a =
          bit_field pfx (min 64 (pfx + splitbits)) b) ∧
      (bucket pfx splitbits a < bucket pfx splitbits b → a < b) ∧
      (bucket pfx splitbits a = bucket pfx splitbits b →
        top_bits (min 64 (pfx + splitbits)) a = top_bits (min 64 (pfx + splitbits)) b) := by
  have hm1 : pfx ≤ min 64 (pfx + splitbits) := le_min (by omega) (by omega)
  have hm2 : min 64 (pfx + splitbits) ≤ 64 := min_le_left _ _
  have hpos : 0 < 2 ^ (pfx + splitbits - 64) := by positivity
  have sa := top_bits_split pfx (min 64 (pfx + splitbits)) a hm1 hm2
  have sb := top_bits_split pfx (min 64 (pfx + splitbits)) b hm1 hm2
  have mono : ∀ x y : Nat, top_bits pfx x = top_bits pfx y → x ≤ y →
      bucket pfx splitbits x ≤ bucket pfx splitbits y := by
    intro x y hxy hle
    rw [bucket_eq_bit_field pfx splitbits x hp hs, bucket_eq_bit_field pfx splitbits y hp hs]
    apply Nat.mul_le_mul_right
    have sx := top_bits_split pfx (min 64 (pfx + splitbits)) x hm1 hm2
    have sy := top_bits_split pfx (min 64 (pfx + splitbits)) y hm1 hm2
    have hdiv : top_bits (min 64 (pfx + splitbits)) x ≤ top_bits (min 64 (pfx + splitbits)) y :=
      Nat.div_le_div_right hle
    rw [hxy] at sx
    omega
  have heq : bucket pfx splitbits a = bucket pfx splitbits b ↔
      bit_field pfx (min 64 (pfx + splitbits)) a =
        bit_field pfx (min 64 (pfx + splitbits)) b := by
    rw [bucket_eq_bit_field pfx splitbits a hp hs, bucket_eq_bit_field pfx splitbits b hp hs]
    exact ⟨fun h => Nat.eq_of_mul_eq_mul_right hpos h, fun h => by rw [h]⟩
  refine ⟨mono a b htop, heq, fun hlt => ?_, fun h => ?_⟩
  · by_contra hge
    have := mono b a htop.symm (by omega)
    omega
  · rw [sa, sb, htop, heq.mp h]

/-- The theorem at `prefix = 8`, `splitbits = 4` and two keys with the top byte
`0xab`: the buckets are `3` and `12`. -/
theorem bucket_monotone_witness :
    top_bits 8 (0xab3 * 2 ^ 52 + 5) = top_bits 8 (0xabc * 2 ^ 52) ∧
      bucket 8 4 (0xab3 * 2 ^ 52 + 5) = 3 ∧ bucket 8 4 (0xabc * 2 ^ 52) = 12 ∧
      (0xab3 * 2 ^ 52 + 5 ≤ 0xabc * 2 ^ 52 →
        bucket 8 4 (0xab3 * 2 ^ 52 + 5) ≤ bucket 8 4 (0xabc * 2 ^ 52)) :=
  ⟨by decide, by decide, by decide,
    (bucket_monotone 8 4 (0xab3 * 2 ^ 52 + 5) (0xabc * 2 ^ 52) (by decide) (by decide)
      (by decide) (by decide)).1⟩


/-! ## Sequences of calls of `calc_feature_minzoom` -/

theorem count_entry_fields (xx yy i : Nat) (d : drop_state) :
    (count_entry xx yy i d).included = d.included ∧
      (count_entry xx yy i d).interval = d.interval ∧
      (0 ≤ d.seq → 1 ≤ (count_entry xx yy i d).seq) := by
  unfold count_entry
  simp only
  refine ⟨?_, ?_, fun h => ?_⟩
  · split_ifs <;> rfl
  · split_ifs <;> rfl
  · split_ifs
    · norm_num
    · linarith

/-- What one call does to `included`: it grows by one at the zooms from the
returned value up to `maxzoom` when the feature takes part in dropping. -/
theorem calc_included (env : Env) (r : Index) (ds : Nat → drop_state) (maxzoom : Nat)
    (gamma : ℚ) (hg : 0 ≤ gamma) (z : Nat) (hz : z ≤ maxzoom) :
    ((calc_feature_minzoom env r ds maxzoom gamma).2 z).included =
      (ds z).included +
        (if droppable env r = true ∧ (calc_feature_minzoom env r ds maxzoom gamma).1 ≤ (z : Int)
          then 1 else 0) := by
  unfold calc_feature_minzoom
  simp only
  by_cases hd : droppable env r = true
  · rw [if_pos ⟨hg, hd⟩]
    have hc : ((count_loop (env.decode r.ix).1 (env.decode r.ix).2 maxzoom ds) z).included =
        (ds z).included := by
      rw [count_loop_apply, if_pos hz]
      exact (count_entry_fields _ _ _ _).1
    rcases drop_loop_spec maxzoom (count_loop (env.decode r.ix).1 (env.decode r.ix).2 maxzoom ds)
      with ⟨h1, _, h3⟩ | ⟨zs, h1, h2, _, _, h5⟩
    · rw [h3, if_pos hz, h1, if_pos ⟨hd, by omega⟩]
      unfold include_entry
      simp only
      rw [hc]
    · rw [h5, h2]
      by_cases hlt : zs < z
      · rw [if_pos ⟨hlt, hz⟩, if_pos ⟨hd, by omega⟩]
        unfold include_entry
        simp only
        rw [hc]
      · rw [if_neg (fun h => hlt h.1), if_neg (fun h => hlt (by omega)), hc]
        simp
  · rw [if_neg (fun h => hd h.2), if_neg (fun h => hd h.1)]
    simp

theorem stamp_states_included (env : Env) (maxzoom : Nat) (gamma : ℚ) (hg : 0 ≤ gamma)
    (z : Nat) (hz : z ≤ maxzoom) (rs : List Index) (ds : Nat → drop_state) :
    ((stamp_states env maxzoom gamma rs ds) z).included =
      (ds z).included +
        (included_count env z rs (stamp_values env maxzoom gamma rs ds) : Int) := by
  induction rs generalizing ds with
  | nil => simp [stamp_states, stamp_values, included_count]
  | cons r rs ih =>
    rw [stamp_states, stamp_values, included_count, ih, calc_included env r ds maxzoom gamma hg z hz]
    split_ifs <;> push_cast <;> ring

theorem included_count_mono (env : Env) (z : Nat) (rs : List Index) (vs : List Int) :
    included_count env z rs vs ≤ included_count env (z + 1) rs vs := by
  induction rs generalizing vs with
  | nil => simp [included_count]
  | cons r rs ih =>
    cases vs with
    | nil => simp [included_count]
    | cons v vs =>
      rw [included_count, included_count]
      have := ih vs
      split_ifs with h1 h2 h2
      · omega
      · exact absurd ⟨h1.1, by have := h1.2; push_cast; omega⟩ h2
      · omega
      · omega

theorem included_count_le (env : Env) (z : Nat) (rs : List Index) (vs : List Int) :
    included_count env z rs vs ≤ (rs.filter (droppable env)).length := by
  induction rs generalizing vs with
  | nil => simp [included_count]
  | cons r rs ih =>
    cases vs with
    | nil => simp [included_count]
    | cons v vs =>
      rw [included_count, List.filter_cons]
      have := ih vs
      by_cases hd : droppable env r = true
      · rw [if_pos hd, List.length_cons]
        split_ifs <;> omega
      · rw [if_neg hd, if_neg (fun h => hd h.1)]
        omega

/-- Claim C29: after `calc_feature_minzoom` has been called, with `gamma ≥ 0`, on
any list of records starting from a `prep_drop_states` state, `ds[z].included` is,
for every `z ≤ maxzoom`, the number of droppable records processed whose returned
`feature_minzoom` is at most `z`; so `included[z] ≤ included[z + 1]` for
`z < maxzoom`, and `included[maxzoom]` is at most the number of droppable
records processed. -/
theorem included_counts_features (env : Env) (maxzoom : Nat) (basezoom : Int)
    (droprate gamma : ℚ) (ds0 : Nat → drop_state) (rs : List Index) (hg : 0 ≤ gamma) :
    (∀ z, z ≤ maxzoom →
      ((stamp_states env maxzoom gamma rs
          (prep_drop_states ds0 maxzoom basezoom droprate)) z).included =
        (included_count env z rs (stamp_values env maxzoom gamma rs
          (prep_drop_states ds0 maxzoom basezoom droprate)) : Int)) ∧
    (∀ z, z < maxzoom →
      ((stamp_states env maxzoom gamma rs
          (prep_drop_states ds0 maxzoom basezoom droprate)) z).included ≤
        ((stamp_states env maxzoom gamma rs
          (prep_drop_states ds0 maxzoom basezoom droprate)) (z + 1)).included) ∧
    ((stamp_states env maxzoom gamma rs
        (prep_drop_states ds0 maxzoom basezoom droprate)) maxzoom).included ≤
      ((rs.filter (droppable env)).length : Int) := by
  have hinc : ∀ z, z ≤ maxzoom →
      ((stamp_states env maxzoom gamma rs
          (prep_drop_states ds0 maxzoom basezoom droprate)) z).included =
        (included_count env z rs (stamp_values env maxzoom gamma rs
          (prep_drop_states ds0 maxzoom basezoom droprate)) : Int) := by
    intro z hz
    rw [stamp_states_included env maxzoom gamma hg z hz, prep_drop_states_apply, if_pos hz]
    simp [prep_entry]
  refine ⟨hinc, fun z hz => ?_, ?_⟩
  · rw [hinc z (by omega), hinc (z + 1) (by omega)]
    exact_mod_cast included_count_mono env z rs _
  · rw [hinc maxzoom (le_refl _)]
    exact_mod_cast included_count_le env maxzoom rs _

/-- The theorem at three point features with the same key, `maxzoom = 2`,
`basezoom = 1` and `droprate = 3`: the returned values are `0, 1, 0`, and
`included` is `2, 3, 3` at the zooms `0, 1, 2`. -/
theorem included_counts_features_witness :
    (0 : ℚ) ≤ 0 ∧
      stamp_values sample_env 2 0 sample_index (prep_drop_states zero_states 2 1 3) = [0, 1, 0] ∧
      (List.range 3).map (fun z => ((stamp_states sample_env 2 0 sample_index
        (prep_drop_states zero_states 2 1 3)) z).included) = [2, 3, 3] ∧
      ((stamp_states sample_env 2 0 sample_index
          (prep_drop_states zero_states 2 1 3)) 2).included ≤
        ((sample_index.filter (droppable sample_env)).length : Int) :=
  ⟨le_refl _, by decide!, by decide!,
    (included_counts_features sample_env 2 1 3 0 zero_states sample_index (le_refl _)).2.2⟩

/-- One call keeps the facts on which the bound rests — at the zooms from
`basezoom` up to `maxzoom` the interval is `0` and `seq` is not negative — and
returns a value between `0` and `basezoom`. -/
theorem calc_returns_le_basezoom (env : Env) (r : Index) (ds : Nat → drop_state)
    (maxzoom : Nat) (basezoom : Int) (gamma : ℚ) (h0 : 0 ≤ basezoom)
    (hI : ∀ z : Nat, basezoom ≤ (z : Int) → z ≤ maxzoom → (ds z).interval = 0 ∧ 0 ≤ (ds z).seq) :
    (0 ≤ (calc_feature_minzoom env r ds maxzoom gamma).1 ∧
        (calc_feature_minzoom env r ds maxzoom gamma).1 ≤ basezoom) ∧
      ∀ z : Nat, basezoom ≤ (z : Int) → z ≤ maxzoom →
        ((calc_feature_minzoom env r ds maxzoom gamma).2 z).interval = 0 ∧
          0 ≤ ((calc_feature_minzoom env r ds maxzoom gamma).2 z).seq := by
  unfold calc_feature_minzoom
  simp only
  by_cases ha : gamma ≥ 0 ∧ droppable env r = true
  · rw [if_pos ha]
    have hc : ∀ z : Nat, basezoom ≤ (z : Int) → z ≤ maxzoom →
        ((count_loop (env.decode r.ix).1 (env.decode r.ix).2 maxzoom ds) z).interval = 0 ∧
          1 ≤ ((count_loop (env.decode r.ix).1 (env.decode r.ix).2 maxzoom ds) z).seq := by
      intro z hb hz
      rw [count_loop_apply, if_pos hz]
      obtain ⟨_, c2, c3⟩ := count_entry_fields (env.decode r.ix).1 (env.decode r.ix).2 z (ds z)
      exact ⟨by rw [c2]; exact (hI z hb hz).1, c3 (hI z hb hz).2⟩
    rcases drop_loop_spec maxzoom (count_loop (env.decode r.ix).1 (env.decode r.ix).2 maxzoom ds)
      with ⟨h1, _, h3⟩ | ⟨zs, h1, h2, hneg, _, h5⟩
    · refine ⟨⟨by rw [h1], by rw [h1]; exact h0⟩, fun z hb hz => ?_⟩
      rw [h3, if_pos hz]
      obtain ⟨c1, c2⟩ := hc z hb hz
      unfold include_entry
      simp only
      exact ⟨c1, by rw [c1]; linarith⟩
    · have hzs : (zs : Int) < basezoom := by
        by_contra hge
        have := (hc zs (by omega) h1).2
        linarith
      refine ⟨⟨by rw [h2]; omega, by rw [h2]; omega⟩, fun z hb hz => ?_⟩
      rw [h5]
      obtain ⟨c1, c2⟩ := hc z hb hz
      split_ifs
      · unfold include_entry
        simp only
        exact ⟨c1, by rw [c1]; linarith⟩
      · exact ⟨c1, by linarith⟩
  · rw [if_neg ha]
    exact ⟨⟨le_refl _, h0⟩, hI⟩

theorem stamp_values_le_basezoom (env : Env) (maxzoom : Nat) (basezoom : Int) (gamma : ℚ)
    (h0 : 0 ≤ basezoom) (rs : List Index) (ds : Nat → drop_state)
    (hI : ∀ z : Nat, basezoom ≤ (z : Int) → z ≤ maxzoom → (ds z).interval = 0 ∧ 0 ≤ (ds z).seq) :
    ∀ v ∈ stamp_values env maxzoom gamma rs ds, 0 ≤ v ∧ v ≤ basezoom := by
  induction rs generalizing ds with
  | nil =>
    intro v hv
    simp [stamp_values] at hv
  | cons r rs ih =>
    intro v hv
    rw [stamp_values] at hv
    obtain ⟨hr, hI2⟩ := calc_returns_le_basezoom env r ds maxzoom basezoom gamma h0 hI
    rcases List.mem_cons.mp hv with h | h
    · rw [h]
      exact hr
    · exact ih _ hI2 v h

theorem calc_returns_le_maxzoom (env : Env) (r : Index) (ds : Nat → drop_state)
    (maxzoom : Nat) (gamma : ℚ) :
    0 ≤ (calc_feature_minzoom env r ds maxzoom gamma).1 ∧
      (calc_feature_minzoom env r ds maxzoom gamma).1 ≤ (maxzoom : Int) + 1 := by
  unfold calc_feature_minzoom
  simp only
  split_ifs
  · rcases drop_loop_spec maxzoom (count_loop (env.decode r.ix).1 (env.decode r.ix).2 maxzoom ds)
      with ⟨h1, _, _⟩ | ⟨zs, h1, h2, _, _, _⟩
    · rw [h1]
      omega
    · rw [h2]
      omega
  · simp only
    omega

theorem stamp_values_le_maxzoom (env : Env) (maxzoom : Nat) (gamma : ℚ) (rs : List Index)
    (ds : Nat → drop_state) :
    ∀ v ∈ stamp_values env maxzoom gamma rs ds, 0 ≤ v ∧ v ≤ (maxzoom : Int) + 1 := by
  induction rs generalizing ds with
  | nil =>
    intro v hv
    simp [stamp_values] at hv
  | cons r rs ih =>
    intro v hv
    rw [stamp_values] at hv
    rcases List.mem_cons.mp hv with h | h
    · rw [h]
      exact calc_returns_le_maxzoom env r ds maxzoom gamma
    · exact ih _ v h

/-- Claim C30: starting from `prep_drop_states` with `0 ≤ basezoom` (whether or
not `basezoom ≤ maxzoom`), every call of `calc_feature_minzoom` on any list of records returns a value in
`[0, basezoom]`; from any drop states and for any `basezoom` the returned values
lie in `[0, maxzoom + 1]`. -/
theorem feature_minzoom_le_basezoom (env : Env) (maxzoom : Nat) (basezoom : Int)
    (droprate gamma : ℚ) (ds0 : Nat → drop_state) (rs : List Index)
    (h0 : 0 ≤ basezoom) :
    (∀ v ∈ stamp_values env maxzoom gamma rs (prep_drop_states ds0 maxzoom basezoom droprate),
        0 ≤ v ∧ v ≤ basezoom) ∧
      ∀ (b2 : Int) (ds : Nat → drop_state),
        (∀ v ∈ stamp_values env maxzoom gamma rs (prep_drop_states ds0 maxzoom b2 droprate),
          0 ≤ v ∧ v ≤ (maxzoom : Int) + 1) ∧
        ∀ v ∈ stamp_values env maxzoom gamma rs ds, 0 ≤ v ∧ v ≤ (maxzoom : Int) + 1 := by
  refine ⟨stamp_values_le_basezoom env maxzoom basezoom gamma h0 rs _ (fun z hz hm => ?_),
    fun b2 ds => ⟨stamp_values_le_maxzoom env maxzoom gamma rs _,
      stamp_values_le_maxzoom env maxzoom gamma rs ds⟩⟩
  rw [prep_drop_states_apply, if_pos hm]
  unfold prep_entry
  simp only
  rw [if_neg (by omega)]
  exact ⟨rfl, le_refl _⟩

/-- The theorem at the sample index with `maxzoom = 2`, `basezoom = 1` and
`droprate = 3`: the returned values `0, 1, 0` are at most `1`. -/
theorem feature_minzoom_le_basezoom_witness :
    (0 : Int) ≤ 1 ∧ (1 : Int) ≤ ((2 : Nat) : Int) ∧
      stamp_values sample_env 2 0 sample_index (prep_drop_states zero_states 2 1 3) = [0, 1, 0] ∧
      ∀ v ∈ stamp_values sample_env 2 0 sample_index (prep_drop_states zero_states 2 1 3),
        0 ≤ v ∧ v ≤ 1 :=
  ⟨by decide, by decide, by decide!,
    (feature_minzoom_le_basezoom sample_env 2 1 3 0 zero_states sample_index (by decide)).1⟩


/-! ## The fix-up pass -/

theorem run_sort_loop_frame (env : Env) (a : sort_arg) (hu : 0 < a.unit) (fuel k0 : Nat)
    (s : (Nat → mergelist) × List Index) (k : Nat)
    (h : k % a.cpus ≠ k0 % a.cpus ∨ a.indexpos ≤ k * a.unit) :
    (run_sort_loop env a fuel (k0 * a.unit) s).1 k = s.1 k := by
  induction fuel generalizing k0 s with
  | zero => rfl
  | succ fuel ih =>
    unfold run_sort_loop
    by_cases hs : k0 * a.unit < a.indexpos
    · have hnext : k0 * a.unit + a.unit * a.cpus = (k0 + a.cpus) * a.unit := by ring
      simp only [if_pos hs]
      rw [hnext, ih (k0 + a.cpus) _ (by rw [Nat.add_mod_right]; exact h)]
      simp only
      rw [Nat.mul_div_cancel _ hu]
      have hk : k ≠ k0 := by
        rintro rfl
        rcases h with h | h
        · exact h rfl
        · omega
      rw [Function.update_noteq hk]
    · simp only [if_neg hs]

theorem segment_of_eq (unit indexpos k : Nat) :
    segment_of unit indexpos k = { start := k * unit, end_ := min ((k + 1) * unit) indexpos } := by
  unfold segment_of
  have h : (k + 1) * unit = k * unit + unit := by ring
  rw [h]
  split_ifs with c
  · rw [min_eq_right (by omega)]
  · rw [min_eq_left (by omega)]

theorem segment_exists (unit indexpos : Nat) (hu : 0 < unit) (p : Nat) (hp : p < indexpos) :
    ∃! k, k < (indexpos + unit - 1) / unit ∧ k * unit ≤ p ∧ p < min ((k + 1) * unit) indexpos := by
  have h1 := Nat.div_add_mod p unit
  have h2 := Nat.mod_lt p hu
  have h3 : unit * (p / unit) = p / unit * unit := Nat.mul_comm _ _
  have h4 : (p / unit + 1) * unit = p / unit * unit + unit := by ring
  refine ⟨p / unit, ⟨?_, by omega, lt_min (by omega) hp⟩, fun k ⟨_, k2, k3⟩ => ?_⟩
  · by_contra hge
    have h5 : (indexpos + unit - 1) / unit * unit ≤ p / unit * unit :=
      Nat.mul_le_mul_right _ (by omega)
    have := (nmerges_spec indexpos unit hu).2
    omega
  · have k4 : p < (k + 1) * unit := lt_of_lt_of_le k3 (min_le_left _ _)
    have e1 : k < p / unit + 1 := by
      by_contra hge
      have : (p / unit + 1) * unit ≤ k * unit := Nat.mul_le_mul_right _ (by omega)
      omega
    have e2 : p / unit < k + 1 := by
      by_contra hge
      have : (k + 1) * unit ≤ p / unit * unit := Nat.mul_le_mul_right _ (by omega)
      omega
    omega

/-- Claim C28: with `nmerges = ceil (indexpos / unit)`, the tasks `0 .. cpus - 1`
of `run_sort` together set `merges[k] = [k * unit, min ((k + 1) * unit, indexpos))`
for every `k < nmerges` and leave every entry from `nmerges` on as it was; a
single task `a` sets the entries `k < nmerges` with `k mod cpus = a` and leaves all
other entries as they were; the ranges are not empty, and every position below
`indexpos` lies in exactly one of them. -/
theorem run_sort_fills_merges (env : Env) (cpus indexpos unit bytes : Nat)
    (merges0 : Nat → mergelist) (file : List Index)
    (hi : 0 < indexpos) (hu : 0 < unit) (hc : 1 ≤ cpus) :
    (∀ k, k < (indexpos + unit - 1) / unit →
      ((List.range cpus).foldl
        (fun s a =>
          run_sort env { task := a, cpus := cpus, indexpos := indexpos, unit := unit,
                         bytes := bytes } s) (merges0, file)).1 k =
        { start := k * unit, end_ := min ((k + 1) * unit) indexpos }) ∧
    (∀ k, (indexpos + unit - 1) / unit ≤ k →
      ((List.range cpus).foldl
        (fun s a =>
          run_sort env { task := a, cpus := cpus, indexpos := indexpos, unit := unit,
                         bytes := bytes } s) (merges0, file)).1 k = merges0 k) ∧
    (∀ a k, a < cpus →
      (run_sort env { task := a, cpus := cpus, indexpos := indexpos, unit := unit,
                      bytes := bytes } (merges0, file)).1 k =
        if k % cpus = a ∧ k < (indexpos + unit - 1) / unit then
          { start := k * unit, end_ := min ((k + 1) * unit) indexpos }
        else merges0 k) ∧
    0 < (indexpos + unit - 1) / unit ∧
    (∀ k, k < (indexpos + unit - 1) / unit → k * unit < min ((k + 1) * unit) indexpos) ∧
    (∀ p, p < indexpos →
      ∃! k, k < (indexpos + unit - 1) / unit ∧ k * unit ≤ p ∧
        p < min ((k + 1) * unit) indexpos) := by
  obtain ⟨hn1, hn2⟩ := nmerges_spec indexpos unit hu
  have hbeyond : ∀ k, (indexpos + unit - 1) / unit ≤ k → indexpos ≤ k * unit := by
    intro k hk
    have : (indexpos + unit - 1) / unit * unit ≤ k * unit := Nat.mul_le_mul_right _ hk
    omega
  refine ⟨fun k hk => ?_, fun k hk => ?_, fun a k ha => ?_, ?_, fun k hk => ?_,
    fun p hp => segment_exists unit indexpos hu p hp⟩
  · rw [run_sort_tasks_sets env cpus indexpos unit bytes hu (by omega) _ _ k (hn1 k hk)
      (Or.inr (List.mem_range.mpr (Nat.mod_lt _ (by omega)))), segment_of_eq]
  · have hgen : ∀ (tasks : List Nat) (s : (Nat → mergelist) × List Index),
        (tasks.foldl
          (fun s a =>
            run_sort env { task := a, cpus := cpus, indexpos := indexpos, unit := unit,
                           bytes := bytes } s) s).1 k = s.1 k := by
      intro tasks
      induction tasks with
      | nil => intro s; rfl
      | cons t tasks ih =>
        intro s
        rw [List.foldl_cons, ih]
        exact run_sort_loop_frame env
          { task := t, cpus := cpus, indexpos := indexpos, unit := unit, bytes := bytes } hu _ _ s k
          (Or.inr (hbeyond k hk))
    exact hgen _ _
  · by_cases hk : k % cpus = a ∧ k < (indexpos + unit - 1) / unit
    · rw [if_pos hk]
      have hkd : k = a + (k / cpus) * cpus := by
        have := Nat.div_add_mod k cpus
        rw [Nat.mul_comm] at this
        omega
      have := run_sort_loop_sets env
        { task := a, cpus := cpus, indexpos := indexpos, unit := unit, bytes := bytes } hu
        (by show 0 < cpus; omega) indexpos a (merges0, file) (k / cpus)
        (by rw [← hkd]; exact hn1 k hk.2) (Nat.le_add_left _ _)
      rw [← hkd, segment_of_eq] at this
      exact this
    · rw [if_neg hk]
      refine run_sort_loop_frame env
        { task := a, cpus := cpus, indexpos := indexpos, unit := unit, bytes := bytes } hu _ _ _ k ?_
      by_cases h1 : k % cpus = a
      · right
        exact hbeyond k (by
          by_contra hlt
          exact hk ⟨h1, by omega⟩)
      · left
        show k % cpus ≠ a % cpus
        rw [Nat.mod_eq_of_lt ha]
        exact h1
  · rcases Nat.eq_zero_or_pos ((indexpos + unit - 1) / unit) with h0 | h0
    · rw [h0] at hn2
      omega
    · exact h0
  · have := hn1 k hk
    have h : (k + 1) * unit = k * unit + unit := by ring
    exact lt_min (by omega) this

/-- The theorem at `indexpos = 160`, `unit = 64`, `cpus = 2` (three segments, the
last of 32 bytes) on the sample environment: the entries `0, 1, 2` are set and
entry `3` keeps its value. -/
theorem run_sort_fills_merges_witness :
    (160 + 64 - 1) / 64 = 3 ∧
      (List.range 4).map
        (((List.range 2).foldl
          (fun s a =>
            run_sort sample_env
              { task := a, cpus := 2, indexpos := 160, unit := 64, bytes := 32 } s)
          ((fun _ => { start := 7, end_ := 7 }), unsorted_file)).1) =
        [{ start := 0, end_ := 64 }, { start := 64, end_ := 128 }, { start := 128, end_ := 160 },
          { start := 7, end_ := 7 }] ∧
      0 < (160 + 64 - 1) / 64 :=
  ⟨by decide, by decide!,
    (run_sort_fills_merges sample_env 2 160 64 32 (fun _ => { start := 7, end_ := 7 })
      unsorted_file (by decide) (by decide) (by decide)).2.2.2.1⟩


/-! ## The order of the tasks of `run_sort` -/

theorem sort_range_length (q : List Index → List Index) (hq : ∀ l, (q l).length = l.length)
    (first count : Nat) (file : List Index) :
    (sort_range q first count file).length = file.length := by
  unfold sort_range
  simp only [List.length_append, List.length_take, List.length_drop, hq]
  omega

theorem sort_range_short (q : List Index → List Index) (hq : ∀ l, (q l).length = l.length)
    (first count : Nat) (file : List Index) (h : file.length ≤ first) :
    sort_range q first count file = file := by
  unfold sort_range
  have hnil : q [] = [] := List.eq_nil_of_length_eq_zero (by rw [hq]; rfl)
  rw [List.take_of_length_le h, List.drop_of_length_le h, List.take_nil, hnil,
    List.drop_of_length_le (by omega)]
  simp

theorem sort_range_append (q : List Index → List Index) (first count : Nat)
    (x y : List Index) (h : x.length ≤ first) :
    sort_range q first count (x ++ y) = x ++ sort_range q (first - x.length) count y := by
  unfold sort_range
  rw [List.take_append_eq_append_take, List.drop_append_eq_append_drop,
    List.drop_append_eq_append_drop, List.take_of_length_le h, List.drop_of_length_le h,
    List.drop_of_length_le (by omega : x.length ≤ first + count)]
  have e : first + count - x.length = first - x.length + count := by omega
  rw [e]
  simp only [List.nil_append, List.append_assoc]

theorem sort_range_exact (q : List Index → List Index) (a b t : List Index) :
    sort_range q a.length b.length (a ++ b ++ t) = a ++ q b ++ t := by
  have h1 : (a ++ b ++ t).take a.length = a := by
    rw [List.append_assoc]
    exact List.take_left' rfl
  have h2 : (a ++ b ++ t).drop a.length = b ++ t := by
    rw [List.append_assoc]
    exact List.drop_left' rfl
  have h3 : (b ++ t).take b.length = b := List.take_left' rfl
  have h4 : (a ++ b ++ t).drop (a.length + b.length) = t :=
    List.drop_left' (by rw [List.length_append])
  unfold sort_range
  rw [h1, h2, h3, h4]

theorem sort_range_comm (q : List Index → List Index) (hq : ∀ l, (q l).length = l.length)
    (f1 c1 f2 c2 : Nat) (h : f1 + c1 ≤ f2) (file : List Index) :
    sort_range q f1 c1 (sort_range q f2 c2 file) =
      sort_range q f2 c2 (sort_range q f1 c1 file) := by
  by_cases hlen : file.length < f1 + c1
  · rw [sort_range_short q hq f2 c2 file (by omega),
      sort_range_short q hq f2 c2 _ (by rw [sort_range_length q hq]; omega)]
  · have hA : (file.take f1).length = f1 := by
      rw [List.length_take]
      omega
    have hB : ((file.drop f1).take c1).length = c1 := by
      rw [List.length_take, List.length_drop]
      omega
    have hfile : file = file.take f1 ++ (file.drop f1).take c1 ++ file.drop (f1 + c1) := by
      rw [List.append_assoc, ← List.drop_drop, List.take_append_drop, List.take_append_drop]
    generalize file.take f1 = a at hA hfile
    generalize (file.drop f1).take c1 = b at hB hfile
    generalize file.drop (f1 + c1) = t at hfile
    subst hfile
    subst hA
    subst hB
    rw [sort_range_exact, sort_range_append q f2 c2 (a ++ b) t (by rw [List.length_append]; exact h),
      sort_range_exact, sort_range_append q f2 c2 (a ++ q b) t
        (by rw [List.length_append, hq]; exact h)]
    simp only [List.length_append, hq]

theorem div_add_div_le (x y b : Nat) : x / b + y / b ≤ (x + y) / b := by
  rcases Nat.eq_zero_or_pos b with h | h
  · subst h
    simp
  · rw [Nat.le_div_iff_mul_le h, Nat.add_mul]
    exact Nat.add_le_add (Nat.div_mul_le_self _ _) (Nat.div_mul_le_self _ _)

theorem sort_step_comm_lt (env : Env) (hq : ∀ l : List Index, (env.qsort l).Perm l)
    (a : sort_arg) (k1 k2 : Nat) (h : k1 < k2) (s : (Nat → mergelist) × List Index) :
    sort_step env a k1 (sort_step env a k2 s) = sort_step env a k2 (sort_step env a k1 s) := by
  unfold sort_step
  simp only
  rw [Function.update_comm (by omega : k2 ≠ k1)]
  congr 1
  unfold sort_segment
  have hx := sort_range_comm env.qsort (fun l => (hq l).length_eq)
    (k1 * a.unit / a.bytes) (((segment_of a.unit a.indexpos k1).end_ - k1 * a.unit) / a.bytes)
    (k2 * a.unit / a.bytes) (((segment_of a.unit a.indexpos k2).end_ - k2 * a.unit) / a.bytes)
    ?_ s.2
  · unfold sort_range at hx
    exact hx
  · have h1 : (segment_of a.unit a.indexpos k1).end_ ≤ k1 * a.unit + a.unit := by
      unfold segment_of
      simp only
      split_ifs <;> omega
    have h2 : k1 * a.unit + a.unit ≤ k2 * a.unit := by
      have : (k1 + 1) * a.unit ≤ k2 * a.unit := Nat.mul_le_mul_right _ h
      have e : (k1 + 1) * a.unit = k1 * a.unit + a.unit := by ring
      omega
    calc k1 * a.unit / a.bytes + ((segment_of a.unit a.indexpos k1).end_ - k1 * a.unit) / a.bytes
        ≤ (k1 * a.unit + ((segment_of a.unit a.indexpos k1).end_ - k1 * a.unit)) / a.bytes :=
          div_add_div_le _ _ _
      _ ≤ k2 * a.unit / a.bytes := Nat.div_le_div_right (by omega)

theorem sort_step_comm (env : Env) (hq : ∀ l : List Index, (env.qsort l).Perm l)
    (a : sort_arg) (k1 k2 : Nat) (h : k1 ≠ k2) (s : (Nat → mergelist) × List Index) :
    sort_step env a k1 (sort_step env a k2 s) = sort_step env a k2 (sort_step env a k1 s) := by
  rcases Nat.lt_or_gt_of_ne h with hlt | hgt
  · exact sort_step_comm_lt env hq a k1 k2 hlt s
  · exact (sort_step_comm_lt env hq a k2 k1 hgt s).symm

theorem run_sort_loop_step (env : Env) (a : sort_arg) (hu : 0 < a.unit) (fuel k0 : Nat)
    (s : (Nat → mergelist) × List Index) :
    run_sort_loop env a (fuel + 1) (k0 * a.unit) s =
      if k0 * a.unit < a.indexpos then
        run_sort_loop env a fuel ((k0 + a.cpus) * a.unit) (sort_step env a k0 s)
      else s := by
  have hnext : k0 * a.unit + a.unit * a.cpus = (k0 + a.cpus) * a.unit := by ring
  rw [run_sort_loop]
  by_cases h : k0 * a.unit < a.indexpos
  · simp only [if_pos h]
    rw [hnext]
    unfold sort_step segment_of
    simp only
    rw [Nat.mul_div_cancel _ hu]
  · simp only [if_neg h]

/-- A round for segment `k` can be moved across the loop of another task. -/
theorem sort_step_loop_comm (env : Env) (hq : ∀ l : List Index, (env.qsort l).Perm l)
    (cpus indexpos unit bytes ta tb : Nat) (hu : 0 < unit) (fuel k kb : Nat)
    (hk : k % cpus ≠ kb % cpus) (s : (Nat → mergelist) × List Index) :
    sort_step env { task := ta, cpus := cpus, indexpos := indexpos, unit := unit, bytes := bytes } k
        (run_sort_loop env
          { task := tb, cpus := cpus, indexpos := indexpos, unit := unit, bytes := bytes }
          fuel (kb * unit) s) =
      run_sort_loop env
        { task := tb, cpus := cpus, indexpos := indexpos, unit := unit, bytes := bytes }
        fuel (kb * unit)
        (sort_step env
          { task := ta, cpus := cpus, indexpos := indexpos, unit := unit, bytes := bytes } k s) := by
  induction fuel generalizing kb s with
  | zero => rfl
  | succ fuel ih =>
    have e1 := run_sort_loop_step env
      { task := tb, cpus := cpus, indexpos := indexpos, unit := unit, bytes := bytes } hu fuel kb
    simp only at e1
    rw [e1, e1]
    by_cases h : kb * unit < indexpos
    · rw [if_pos h, if_pos h, ih (kb + cpus) (by rw [Nat.add_mod_right]; exact hk)]
      congr 1
      have hne : k ≠ kb := by
        rintro rfl
        exact hk rfl
      exact sort_step_comm env hq
        { task := ta, cpus := cpus, indexpos := indexpos, unit := unit, bytes := bytes } k kb hne s
    · rw [if_neg h, if_neg h]

theorem run_sort_loop_comm (env : Env) (hq : ∀ l : List Index, (env.qsort l).Perm l)
    (cpus indexpos unit bytes ta tb : Nat) (hu : 0 < unit) (fa fb ka kb : Nat)
    (hk : ka % cpus ≠ kb % cpus) (s : (Nat → mergelist) × List Index) :
    run_sort_loop env
        { task := ta, cpus := cpus, indexpos := indexpos, unit := unit, bytes := bytes }
        fa (ka * unit)
        (run_sort_loop env
          { task := tb, cpus := cpus, indexpos := indexpos, unit := unit, bytes := bytes }
          fb (kb * unit) s) =
      run_sort_loop env
        { task := tb, cpus := cpus, indexpos := indexpos, unit := unit, bytes := bytes }
        fb (kb * unit)
        (run_sort_loop env
          { task := ta, cpus := cpus, indexpos := indexpos, unit := unit, bytes := bytes }
          fa (ka * unit) s) := by
  induction fa generalizing ka s with
  | zero => rfl
  | succ fa ih =>
    have e1 := run_sort_loop_step env
      { task := ta, cpus := cpus, indexpos := indexpos, unit := unit, bytes := bytes } hu fa ka
    simp only at e1
    rw [e1, e1]
    by_cases h : ka * unit < indexpos
    · rw [if_pos h, if_pos h, sort_step_loop_comm env hq cpus indexpos unit bytes ta tb hu fb ka kb hk,
        ih (ka + cpus) (by rw [Nat.add_mod_right]; exact hk)]
    · rw [if_neg h, if_neg h]

/-- Claim C25: two distinct tasks `a, b < cpus` of `run_sort` over the same
`indexpos`, `unit` and `cpus` commute: running `a` then `b` leaves the same
`merges` array and the same index file as running `b` then `a`; hence the `cpus`
tasks run in any order leave what they leave in the order `0, ..., cpus - 1`, in
which `radix1` is embedded. -/
theorem run_sort_order_independent (env : Env) (cpus indexpos unit bytes a b : Nat)
    (s : (Nat → mergelist) × List Index)
    (hq : ∀ l : List Index, (env.qsort l).Perm l) (hu : 0 < unit)
    (ha : a < cpus) (hb : b < cpus) (hab : a ≠ b) :
    run_sort env { task := a, cpus := cpus, indexpos := indexpos, unit := unit, bytes := bytes }
        (run_sort env
          { task := b, cpus := cpus, indexpos := indexpos, unit := unit, bytes := bytes } s) =
      run_sort env { task := b, cpus := cpus, indexpos := indexpos, unit := unit, bytes := bytes }
        (run_sort env
          { task := a, cpus := cpus, indexpos := indexpos, unit := unit, bytes := bytes } s) ∧
    ∀ tasks : List Nat, tasks.Perm (List.range cpus) →
      tasks.foldl
          (fun s t =>
            run_sort env
              { task := t, cpus := cpus, indexpos := indexpos, unit := unit, bytes := bytes } s) s =
        (List.range cpus).foldl
          (fun s t =>
            run_sort env
              { task := t, cpus := cpus, indexpos := indexpos, unit := unit, bytes := bytes } s) s := by
  have hcomm : ∀ x y : Nat, x < cpus → y < cpus → x ≠ y →
      ∀ z : (Nat → mergelist) × List Index,
        run_sort env
            { task := y, cpus := cpus, indexpos := indexpos, unit := unit, bytes := bytes }
            (run_sort env
              { task := x, cpus := cpus, indexpos := indexpos, unit := unit, bytes := bytes } z) =
          run_sort env
            { task := x, cpus := cpus, indexpos := indexpos, unit := unit, bytes := bytes }
            (run_sort env
              { task := y, cpus := cpus, indexpos := indexpos, unit := unit, bytes := bytes } z) := by
    intro x y hx hy hxy z
    unfold run_sort
    exact run_sort_loop_comm env hq cpus indexpos unit bytes y x hu indexpos indexpos y x
      (by rw [Nat.mod_eq_of_lt hx, Nat.mod_eq_of_lt hy]; exact fun h => hxy h.symm) z
  refine ⟨hcomm b a hb ha (fun h => hab h.symm) s, fun tasks hp => ?_⟩
  refine List.Perm.foldl_eq' hp (fun x hx y hy z => ?_) s
  by_cases hxy : x = y
  · rw [hxy]
  · exact hcomm x y (List.mem_range.mp (hp.mem_iff.mp hx)) (List.mem_range.mp (hp.mem_iff.mp hy))
      hxy z

/-- The theorem at the sample environment, two tasks over five 32-byte records in
segments of 64 bytes: task `1` then task `0` leaves what task `0` then task `1`
leaves, a file whose segments are sorted. -/
theorem run_sort_order_independent_witness :
    ((run_sort sample_env { task := 0, cpus := 2, indexpos := 160, unit := 64, bytes := 32 }
        (run_sort sample_env { task := 1, cpus := 2, indexpos := 160, unit := 64, bytes := 32 }
          ((fun _ => { start := 0, end_ := 0 }), unsorted_file))).2.map (fun r => r.ix)) =
        [8, 9, 6, 7, 5] ∧
      run_sort sample_env { task := 0, cpus := 2, indexpos := 160, unit := 64, bytes := 32 }
          (run_sort sample_env { task := 1, cpus := 2, indexpos := 160, unit := 64, bytes := 32 }
            ((fun _ => { start := 0, end_ := 0 }), unsorted_file)) =
        run_sort sample_env { task := 1, cpus := 2, indexpos := 160, unit := 64, bytes := 32 }
          (run_sort sample_env { task := 0, cpus := 2, indexpos := 160, unit := 64, bytes := 32 }
            ((fun _ => { start := 0, end_ := 0 }), unsorted_file)) :=
  ⟨by decide!,
    (run_sort_order_independent sample_env 2 160 64 32 0 1
      ((fun _ => { start := 0, end_ := 0 }), unsorted_file) sample_env_valid.qsort_perm
      (by decide) (by decide) (by decide) (by decide)).1⟩

/-! ## A single feature -/

/-- Claim C20, amended: when `init_cpus` returns, `MAX_FILES ≥ 32` and it is
`TEMP_FILES`, not the worker count, that is limited by the descriptors:
`TEMP_FILES = min ((MAX_FILES - 10) / 2, 4 * CPUS)`.  The budget of `radix`,
`MAX_FILES - 2 * CPUS - 11`, is at least `4`, so that `splits ≥ 1`, whenever
`MAX_FILES ≥ 2 * CPUS + 15`, in particular whenever `CPUS ≤ 8`. -/
theorem init_cpus_budget (c : Int) (rlim_cur : Option Nat) (opens : Nat → Bool) (l : Limits)
    (h : init_cpus c rlim_cur opens = some l) :
    32 ≤ l.MAX_FILES ∧
      (l.TEMP_FILES : Int) = min ((l.MAX_FILES - 10) / 2) (4 * (l.CPUS : Int)) ∧
      (2 * (l.CPUS : Int) + 15 ≤ l.MAX_FILES →
        4 ≤ availfiles_of l.MAX_FILES l.CPUS ∧
          1 ≤ (availfiles_of l.MAX_FILES l.CPUS / 4).toNat) ∧
      (l.CPUS ≤ 8 →
        4 ≤ availfiles_of l.MAX_FILES l.CPUS ∧
          1 ≤ (availfiles_of l.MAX_FILES l.CPUS / 4).toNat) := by
  obtain ⟨_, h2, _, h4⟩ := init_cpus_spec c rlim_cur opens l h
  have key : 2 * (l.CPUS : Int) + 15 ≤ l.MAX_FILES →
      4 ≤ availfiles_of l.MAX_FILES l.CPUS ∧
        1 ≤ (availfiles_of l.MAX_FILES l.CPUS / 4).toNat := by
    intro hf
    have h4le := (availfiles_of_ge l.MAX_FILES l.CPUS).mpr hf
    refine ⟨h4le, ?_⟩
    have : 1 ≤ availfiles_of l.MAX_FILES l.CPUS / 4 := by omega
    omega
  exact ⟨h2, h4, key, fun h8 => key (by omega)⟩

/-- The theorem at 8 processors and 43 descriptors: `MAX_FILES = 32`,
`TEMP_FILES = 11`, and the budget is `5`. -/
theorem init_cpus_budget_witness :
    init_cpus 8 (some 43) (fun _ => true) =
        some { CPUS := 8, MAX_FILES := 32, TEMP_FILES := 11 } ∧
      availfiles_of 32 8 = 5 ∧
      (32 : Int) ≤ (32 : Int) ∧
      (((11 : Nat) : Int) = min (((32 : Int) - 10) / 2) (4 * ((8 : Nat) : Int))) :=
  ⟨by decide, by decide,
    (init_cpus_budget 8 (some 43) (fun _ => true) { CPUS := 8, MAX_FILES := 32, TEMP_FILES := 11 }
      (by decide)).1,
    (init_cpus_budget 8 (some 43) (fun _ => true) { CPUS := 8, MAX_FILES := 32, TEMP_FILES := 11 }
      (by decide)).2.1⟩

/-! ## `radix1` with the reads of `merge` given from outside -/

theorem sort_in_memory_reads (env : Env) (p : Partition) (maxzoom : Nat) (gamma : ℚ)
    (st : SortState) :
    sort_in_memory env p maxzoom gamma st =
      (record_reads env p).foldl (fun s ix => emit env p.geom maxzoom gamma ix s) st := by
  unfold sort_in_memory merge record_reads
  simp only
  rw [merge_loop_eq]

/-- With the reads of the record-level `merge`, `radix1_reads` is `radix1`. -/
theorem radix1_eq_reads (env : Env) (maxzoom : Nat) (gamma : ℚ) (mem : Nat) (fuel : Nat) :
    ∀ (inputs : List FilePair) (pfx splits : Nat) (st : SortState),
      radix1 env maxzoom gamma mem fuel inputs pfx splits st =
        radix1_reads env maxzoom gamma mem (record_reads env) fuel inputs pfx splits st := by
  induction fuel with
  | zero =>
    intro inputs pfx splits st
    rfl
  | succ fuel ih =>
    intro inputs pfx splits st
    rw [radix1, radix1_reads]
    by_cases h1 : splits = 0
    · rw [if_pos h1, if_pos h1]
    rw [if_neg h1, if_neg h1]
    simp only
    by_cases h2 : splitbits_of splits = 0 ∧ (inputs.any fun f => !f.index.isEmpty) = true
    · rw [if_pos h2, if_pos h2]
    rw [if_neg h2, if_neg h2]
    congr 1
    funext s i
    split_ifs
    · rw [sort_in_memory_reads]
    · rfl
    · exact ih _ _ _ _
    · rfl

theorem chained_append (pos : Nat) (rs : List Index) (mid : Nat) (rs2 : List Index) (pos2 : Nat)
    (h1 : chained pos rs mid) (h2 : chained mid rs2 pos2) : chained pos (rs ++ rs2) pos2 := by
  induction rs generalizing pos with
  | nil =>
    rw [chained] at h1
    rw [List.nil_append, ← h1]
    exact h2
  | cons r rs ih =>
    rw [chained] at h1
    rw [List.cons_append, chained]
    exact ⟨h1.1, h1.2.1, ih _ h1.2.2⟩

/-- The output step appends one record, which starts at the old position, is not
empty and ends at the new position. -/
theorem emit_chained (env : Env) (geom : List Int) (maxzoom : Nat) (gamma : ℚ) (ix : Index)
    (st : SortState) :
    ∃ r, (emit env geom maxzoom gamma ix st).indexfile = st.indexfile ++ [r] ∧
      chained st.geompos_out [r] (emit env geom maxzoom gamma ix st).geompos_out := by
  refine ⟨{ ix with start := st.geompos_out, end_ := st.geompos_out + (ix.end_ - ix.start) + 1 },
    rfl, ?_⟩
  rw [chained, chained]
  refine ⟨rfl, ?_, rfl⟩
  show st.geompos_out < st.geompos_out + (ix.end_ - ix.start) + 1
  omega

theorem emit_list_chained (env : Env) (geom : List Int) (maxzoom : Nat) (gamma : ℚ)
    (l : List Index) (st : SortState) :
    ∃ rs, (l.foldl (fun s ix => emit env geom maxzoom gamma ix s) st).indexfile =
        st.indexfile ++ rs ∧
      chained st.geompos_out rs
        (l.foldl (fun s ix => emit env geom maxzoom gamma ix s) st).geompos_out := by
  induction l generalizing st with
  | nil => exact ⟨[], by simp, rfl⟩
  | cons ix l ih =>
    obtain ⟨r, h1, h2⟩ := emit_chained env geom maxzoom gamma ix st
    obtain ⟨rs, h3, h4⟩ := ih (emit env geom maxzoom gamma ix st)
    refine ⟨[r] ++ rs, ?_, ?_⟩
    · rw [List.foldl_cons, h3, h1, List.append_assoc]
    · rw [List.foldl_cons]
      exact chained_append _ _ _ _ _ h2 h4

theorem fold_chained (handle : SortState → Nat → Except Failure SortState)
    (H : ∀ s i s2, handle s i = .ok s2 →
      ∃ rs, s2.indexfile = s.indexfile ++ rs ∧ chained s.geompos_out rs s2.geompos_out)
    (l : List Nat) (s s2 : SortState) (h : l.foldlM handle s = .ok s2) :
    ∃ rs, s2.indexfile = s.indexfile ++ rs ∧ chained s.geompos_out rs s2.geompos_out := by
  induction l generalizing s with
  | nil =>
    simp only [List.foldlM_nil, pure, Except.pure] at h
    injection h with h
    subst h
    exact ⟨[], by simp, rfl⟩
  | cons i l ih =>
    rw [List.foldlM_cons] at h
    cases h1 : handle s i with
    | error e =>
      rw [h1] at h
      simp [bind, Except.bind] at h
    | ok s1 =>
      rw [h1] at h
      simp only [bind, Except.bind] at h
      obtain ⟨rs1, a1, a2⟩ := H s i s1 h1
      obtain ⟨rs2, b1, b2⟩ := ih s1 h
      exact ⟨rs1 ++ rs2, by rw [b1, a1, List.append_assoc], chained_append _ _ _ _ _ a2 b2⟩

theorem radix1_reads_chained (env : Env) (maxzoom : Nat) (gamma : ℚ) (mem : Nat)
    (reads : Partition → List Index) (fuel : Nat) :
    ∀ (inputs : List FilePair) (pfx splits : Nat) (st st2 : SortState),
      radix1_reads env maxzoom gamma mem reads fuel inputs pfx splits st = .ok st2 →
      ∃ rs, st2.indexfile = st.indexfile ++ rs ∧ chained st.geompos_out rs st2.geompos_out := by
  induction fuel with
  | zero =>
    intro inputs pfx splits st st2 h
    simp [radix1_reads] at h
  | succ fuel ih =>
    intro inputs pfx splits st st2 h
    rw [radix1_reads] at h
    by_cases h1 : splits = 0
    · rw [if_pos h1] at h
      cases h
    rw [if_neg h1] at h
    simp only at h
    by_cases h2 : splitbits_of splits = 0 ∧ (inputs.any fun f => !f.index.isEmpty) = true
    · rw [if_pos h2] at h
      cases h
    rw [if_neg h2] at h
    have hf := fold_chained _ ?_ _ _ _ h
    · exact hf
    · intro s i s2 hs
      simp only at hs
      split_ifs at hs with c1 c2 c3
      · injection hs with hs
        rw [← hs]
        exact emit_list_chained env _ maxzoom gamma _ s
      · injection hs with hs
        rw [← hs]
        exact emit_list_chained env _ maxzoom gamma _ s
      · exact ih _ _ _ _ _ hs
      · injection hs with hs
        rw [← hs]
        exact ⟨[], by simp, rfl⟩

theorem chained_facts (pos : Nat) (rs : List Index) (pos2 : Nat) (h : chained pos rs pos2) :
    (∀ r, rs[0]? = some r → r.start = pos) ∧
      (∀ j a b, rs[j]? = some a → rs[j + 1]? = some b → b.start = a.end_) ∧
      (∀ r ∈ rs, r.end_ > r.start) ∧
      (∀ r, rs.getLast? = some r → r.end_ = pos2) ∧
      (rs = [] → pos2 = pos) := by
  induction rs generalizing pos with
  | nil =>
    rw [chained] at h
    refine ⟨fun r hr => ?_, fun j a b ha => ?_, fun r hr => ?_, fun r hr => ?_, fun _ => h⟩
    · simp at hr
    · simp at ha
    · cases hr
    · simp at hr
  | cons r0 rs ih =>
    rw [chained] at h
    obtain ⟨i1, i2, i3, i4, i5⟩ := ih r0.end_ h.2.2
    refine ⟨fun r hr => ?_, fun j a b ha hb => ?_, fun r hr => ?_, fun r hr => ?_, fun hn => ?_⟩
    · simp only [List.getElem?_cons_zero, Option.some.injEq] at hr
      rw [← hr]
      exact h.1
    · cases j with
      | zero =>
        simp only [List.getElem?_cons_zero, Option.some.injEq] at ha
        rw [List.getElem?_cons_succ] at hb
        rw [← ha]
        exact i1 b hb
      | succ j =>
        rw [List.getElem?_cons_succ] at ha hb
        exact i2 j a b ha hb
    · rcases List.mem_cons.mp hr with e | e
      · rw [e]
        exact h.2.1
      · exact i3 r e
    · cases rs with
      | nil =>
        simp only [List.getLast?_singleton, Option.some.injEq] at hr
        rw [← hr]
        exact (i5 rfl).symm
      | cons r1 rs =>
        rw [List.getLast?_cons_cons] at hr
        exact i4 r hr
    · cases hn

/-- Claim C4: when `radix1` returns, the records it has appended to the output
index start at the entry value of `*geompos_out`, each later record starts where
its predecessor ends, every record has `end > start`, and the last one ends at
the value of `*geompos_out` on return (the entry value when nothing was written);
so the test of line 1976 is false at every `ip > 0`.  This holds whatever records
`merge` reads in the in-memory branch (`radix1_reads` for any `reads`), hence
for every record size and page size, and `radix1` itself is the case
`reads = record_reads`. -/
theorem radix1_output_chained (env : Env) (maxzoom : Nat) (gamma : ℚ) (mem : Nat)
    (reads : Partition → List Index) (fuel : Nat) (inputs : List FilePair) (pfx splits : Nat)
    (st st2 : SortState)
    (h : radix1_reads env maxzoom gamma mem reads fuel inputs pfx splits st = .ok st2) :
    radix1 env maxzoom gamma mem fuel inputs pfx splits st =
        radix1_reads env maxzoom gamma mem (record_reads env) fuel inputs pfx splits st ∧
    ∃ rs : List Index, st2.indexfile = st.indexfile ++ rs ∧
      (∀ r, rs[0]? = some r → r.start = st.geompos_out) ∧
      (∀ j a b, rs[j]? = some a → rs[j + 1]? = some b → b.start = a.end_) ∧
      (∀ r ∈ rs, r.end_ > r.start) ∧
      (∀ r, rs.getLast? = some r → r.end_ = st2.geompos_out) ∧
      (rs = [] → st2.geompos_out = st.geompos_out) ∧
      (∀ ip, 0 < ip → ip < rs.length → mismatched_index rs ip = false) := by
  refine ⟨radix1_eq_reads env maxzoom gamma mem fuel inputs pfx splits st, ?_⟩
  obtain ⟨rs, hrs, hch⟩ :=
    radix1_reads_chained env maxzoom gamma mem reads fuel inputs pfx splits st st2 h
  obtain ⟨c1, c2, c3, c4, c5⟩ := chained_facts _ _ _ hch
  exact ⟨rs, hrs, c1, c2, c3, c4, c5, mismatched_index_false _ c2⟩

/-- Where one segment holds the whole partition, the reads on the words of the
48-byte record are the reads on records. -/
theorem layout_reads_small :
    layout_reads layout_env small_partition = record_reads layout_env small_partition ∧
      (layout_reads layout_env small_partition).map (fun r => r.ix) = [7, 8, 9] := by
  decide!

set_option maxRecDepth 1000000 in
theorem layout_result_eq :
    radix1_reads layout_env 0 (-1) 100000 (layout_reads layout_env) 64 (point_lane 3) 0 2
      empty_state = .ok layout_result := by
  rfl

/-- The theorem at three point features with the 48-byte record of the
specification. -/
theorem radix1_output_chained_witness :
    ∃ rs : List Index, layout_result.indexfile = empty_state.indexfile ++ rs ∧
      (∀ r, rs[0]? = some r → r.start = empty_state.geompos_out) ∧
      (∀ j a b, rs[j]? = some a → rs[j + 1]? = some b → b.start = a.end_) ∧
      (∀ r ∈ rs, r.end_ > r.start) ∧
      (∀ r, rs.getLast? = some r → r.end_ = layout_result.geompos_out) ∧
      (rs = [] → layout_result.geompos_out = empty_state.geompos_out) ∧
      (∀ ip, 0 < ip → ip < rs.length → mismatched_index rs ip = false) :=
  (radix1_output_chained layout_env 0 (-1) 100000 (layout_reads layout_env) 64 (point_lane 3) 0 2
    empty_state layout_result layout_result_eq).2

end Tippecanoe
